import Mathlib

/-!
# kofuk/jsonparsers, C++ implementation (`c++/parse.h`, `c++/parse.cc`)

A shallow embedding of the scanner (`get_token`, `tokenize`), of the recursive-descent
parser (`parse_primitive`, `parse_array`, `parse_object`, `parse`), of the value classes
and of their `to_string` methods; then the grammars of the specification (tokens, numbers,
strings, documents); then theorems relating the two.

Conventions of the embedding.

* A `std::string` and the contents of a `std::istream` are lists of characters; a `Char`
  stands for one `char` of the program.  `strm.get()` takes the head of the list and
  fails on the empty list; a failed stream stays failed; `strm.unget()` is only ever
  called right after a successful `get()` and gives the character back.
* `double`, `std::stod` and `std::to_string(double)` are not modelled: the embedding is
  parametric in a `StdLib D` that supplies them.
* An `int` is an `Int`.  The only arithmetic the program does on `limited_depth` is
  `limited_depth - 1`, which is `int_pred`: the difference for every `int` but `INT_MIN`,
  and `INT_MAX` for `INT_MIN`, where the subtraction overflows and the compiled program
  wraps around.
* A function that reads a vector or a string outside its bounds has the outcome
  `Outcome.undefined`.  Loops and recursion run on an explicit budget; `Outcome.diverge`
  is the outcome of an exhausted budget, which `parse_no_diverge` and `tokenize_returns`
  show never to occur.
-/

namespace json

/-! ## Tokens -/

/-- The `enum class TokenType` of `parse.cc`. -/
inductive TokenType where
  | ARRAY_OPEN
  | ARRAY_CLOSE
  | OBJ_OPEN
  | OBJ_CLOSE
  | COLON
  | COMMA
  | STRING
  | NUMBER
  | TRUE
  | FALSE
  | NULL_OBJ
deriving DecidableEq, Repr

/-- The `class Token`: a type and the lexeme. -/
structure Token where
  type_ : TokenType
  token_ : List Char
deriving DecidableEq, Repr

/-- The test `lo <= c && c <= hi` on characters. -/
def in_range (lo hi c : Char) : Bool :=
  decide (lo.toNat ≤ c.toNat) && decide (c.toNat ≤ hi.toNat)

/-- The `int val` computed for one character in `Token::parse_4hex_codepoint`. -/
def hex_val (c : Char) : Int :=
  if in_range '0' '9' c then (c.toNat : Int) - ('0'.toNat : Int)
  else if in_range 'a' 'f' c then (c.toNat : Int) - 131
  else if in_range 'A' 'F' c then (c.toNat : Int) - 91
  else 0

/-- The `std::uint32_t codepoint` after the loop of `Token::parse_4hex_codepoint`:
`codepoint <<= 4; codepoint |= val;` for every character, in 32-bit unsigned arithmetic. -/
def hex_codepoint (hex : List Char) : Nat :=
  hex.foldl (fun codepoint c => ((codepoint <<< 4) % 2 ^ 32) ||| (hex_val c % 2 ^ 32).toNat) 0

/-- `Token::parse_4hex_codepoint`: the bytes pushed for the code point. -/
def parse_4hex_codepoint (hex : List Char) : List Char :=
  let codepoint := hex_codepoint hex
  if codepoint > 0x7ff then
    [Char.ofNat (0xe0 ||| ((codepoint >>> 12) &&& 0x0f)),
     Char.ofNat (0x80 ||| ((codepoint >>> 6) &&& 0x3f)),
     Char.ofNat (0x80 ||| ((codepoint >>> 0) &&& 0x3f))]
  else if codepoint > 0x7f then
    [Char.ofNat (0xc0 ||| ((codepoint >>> 6) &&& 0x1f)),
     Char.ofNat (0x80 ||| ((codepoint >>> 0) &&& 0x3f))]
  else
    [Char.ofNat (codepoint &&& 0x7f)]

/-- A read `str[k]` / `str.data()[k]` of a `std::string`: position `size()` holds the
terminating NUL, later positions are outside the buffer (`none`). -/
def string_at (str : List Char) (k : Nat) : Option Char :=
  if k < str.length then str[k]?
  else if k = str.length then some (Char.ofNat 0)
  else none

/-- The `switch (str[i + 1])` of `Token::unescape_string`: what is pushed for a
two-character escape. -/
def unescape_switch (c : Char) : List Char :=
  if c = '"' then ['"']
  else if c = '\\' then ['\\']
  else if c = '/' then ['/']
  else if c = 'b' then [Char.ofNat 8]
  else if c = 'f' then [Char.ofNat 12]
  else if c = 'n' then ['\n']
  else if c = 'r' then ['r']
  else if c = 't' then ['\t']
  else []

/-- The loop `for (size_t i = 0; i < str.size(); ++i)` of `Token::unescape_string`, from
position `i` with `result` built so far; the first argument bounds the iterations.
`none` is a read outside the string's buffer. -/
def unescape_loop (str : List Char) : Nat → Nat → List Char → Option (List Char)
  | 0, _, result => some result
  | budget + 1, i, result =>
    if i < str.length then
      if string_at str i = some '\\' then
        match string_at str (i + 1) with
        | none => none
        | some c =>
          if c = 'u' then
            match string_at str (i + 2), string_at str (i + 2 + 1), string_at str (i + 2 + 2),
              string_at str (i + 2 + 3) with
            | some h₀, some h₁, some h₂, some h₃ =>
              unescape_loop str budget (i + 4 + 1)
                (result ++ parse_4hex_codepoint [h₀, h₁, h₂, h₃])
            | _, _, _, _ => none
          else
            unescape_loop str budget (i + 1 + 1) (result ++ unescape_switch c)
      else
        unescape_loop str budget (i + 1) result
    else
      some result

/-- `Token::unescape_string`.  Every iteration advances `i`, so `str.size()` iterations
are enough. -/
def unescape_string (str : List Char) : Option (List Char) :=
  unescape_loop str str.length 0 []

/-- `Token::parse_boolean`. -/
def Token.parse_boolean (tk : Token) : Bool :=
  decide (tk.token_.head? = some 't')

/-- `Token::parse_string`: `unescape_string(token_.substr(1, token_.size() - 2))`. -/
def Token.parse_string (tk : Token) : Option (List Char) :=
  unescape_string ((tk.token_.drop 1).take (tk.token_.length - 2))

/-! ## Scanner -/

/-- `tokenize_string`: the loop, with the local variables `escaped` and `required_digits`.
Returns the completed token and the rest of the stream, `none` for `false`. -/
def tokenize_string : List Char → Bool → Nat → List Char → Option (List Char × List Char)
  | [], _, _, _ => none
  | c :: strm, escaped, required_digits, token =>
    let token := token ++ [c]
    if escaped then
      if required_digits ≠ 0 then
        if in_range '0' '9' c || in_range 'a' 'f' c || in_range 'A' 'F' c then
          if required_digits - 1 = 0 then
            tokenize_string strm false (required_digits - 1) token
          else
            tokenize_string strm escaped (required_digits - 1) token
        else
          none
      else if c = '"' ∨ c = '\\' ∨ c = '/' ∨ c = 'b' ∨ c = 'f' ∨ c = 'n' ∨ c = 'r' ∨ c = 't'
          ∨ c = 'u' then
        if c = 'u' then
          tokenize_string strm escaped 4 token
        else
          tokenize_string strm false required_digits token
      else
        none
    else
      if c.toNat < 20 then
        none
      else if c = '"' then
        some (token, strm)
      else if c = '\\' then
        tokenize_string strm true required_digits token
      else
        tokenize_string strm escaped required_digits token

/-- The last loop of `tokenize_number` (state `EXPONENT`): digits are appended until the
end of the stream or a character that is given back. -/
def number_exponent_digits : List Char → List Char → List Char × List Char
  | [], token => (token, [])
  | c :: strm, token =>
    if in_range '0' '9' c then number_exponent_digits strm (token ++ [c])
    else (token, c :: strm)

/-- The block `if (state == EXPONENT)` of `tokenize_number`. -/
def number_exponent (strm token : List Char) : Option (List Char × List Char) :=
  match strm with
  | [] => none
  | c :: strm =>
    if c = '+' ∨ c = '-' then
      match strm with
      | [] => none
      | c2 :: strm =>
        if in_range '0' '9' c2 then some (number_exponent_digits strm (token ++ [c] ++ [c2]))
        else none
    else if in_range '0' '9' c then some (number_exponent_digits strm (token ++ [c]))
    else none

/-- The second loop of the block `if (state == FRACTION)` of `tokenize_number`; on `e`/`E`
the state becomes `EXPONENT` and the exponent block follows. -/
def number_fraction_digits : List Char → List Char → Option (List Char × List Char)
  | [], token => some (token, [])
  | c :: strm, token =>
    if in_range '0' '9' c then number_fraction_digits strm (token ++ [c])
    else if c = 'E' ∨ c = 'e' then number_exponent strm (token ++ [c])
    else some (token, c :: strm)

/-- The block `if (state == FRACTION)` of `tokenize_number`. -/
def number_fraction (strm token : List Char) : Option (List Char × List Char) :=
  match strm with
  | [] => none
  | c :: strm =>
    if in_range '0' '9' c then number_fraction_digits strm (token ++ [c])
    else none

/-- The loop of the block `if (state == INTEGER)` of `tokenize_number`, followed by the
blocks of the state it leaves in. -/
def number_integer : List Char → List Char → Option (List Char × List Char)
  | [], token => some (token, [])
  | c :: strm, token =>
    if in_range '0' '9' c then number_integer strm (token ++ [c])
    else if c = '.' then number_fraction strm (token ++ [c])
    else if c = 'E' ∨ c = 'e' then number_exponent strm (token ++ [c])
    else some (token, c :: strm)

/-- The part of `tokenize_number` after `first_num` has been determined. -/
def number_after_first (first_num : Char) (strm token : List Char) :
    Option (List Char × List Char) :=
  if first_num = '0' then
    match strm with
    | [] => some (token, [])
    | c :: strm =>
      if c = '.' then number_fraction strm (token ++ [c])
      else if c = 'E' ∨ c = 'e' then number_exponent strm (token ++ [c])
      else some (token, c :: strm)
  else if ¬ in_range '1' '9' first_num then none
  else number_integer strm token

/-- `tokenize_number`, called with the first character `c` already in `*token`. -/
def tokenize_number (c : Char) (strm : List Char) : Option (List Char × List Char) :=
  if c = '-' then
    match strm with
    | [] => none
    | first_num :: strm =>
      if in_range '0' '9' first_num then number_after_first first_num strm [c, first_num]
      else none
  else
    number_after_first c strm [c]

/-- `check_token`: the rest of the stream when it starts with `expected`. -/
def check_token : List Char → List Char → Option (List Char)
  | strm, [] => some strm
  | [], _ :: _ => none
  | c :: strm, e :: expected => if c ≠ e then none else check_token strm expected

/-- `skip_space`: the stream after the leading white space. -/
def skip_space : List Char → List Char
  | [] => []
  | c :: strm =>
    if ¬ (c = ' ' ∨ c = '\n' ∨ c = '\r' ∨ c = '\t') then c :: strm
    else skip_space strm

/-- The `enum Error` of `class TokenResult`. -/
inductive Error where
  | NIL_TOKEN
  | END
  | SYNTAX
deriving DecidableEq, Repr

/-- `get_token`: a token or an `Error`, and the stream afterwards.  After `SYNTAX` the
program does not read the stream again; the embedding leaves it empty. -/
def get_token : List Char → Except Error Token × List Char
  | [] => (.error .END, [])
  | c :: strm =>
    if c = '[' then (.ok ⟨.ARRAY_OPEN, [c]⟩, strm)
    else if c = ']' then (.ok ⟨.ARRAY_CLOSE, [c]⟩, strm)
    else if c = '{' then (.ok ⟨.OBJ_OPEN, [c]⟩, strm)
    else if c = '}' then (.ok ⟨.OBJ_CLOSE, [c]⟩, strm)
    else if c = ':' then (.ok ⟨.COLON, [c]⟩, strm)
    else if c = ',' then (.ok ⟨.COMMA, [c]⟩, strm)
    else if c = '"' then
      match tokenize_string strm false 0 [c] with
      | none => (.error .SYNTAX, [])
      | some (token, strm) => (.ok ⟨.STRING, token⟩, strm)
    else if c = '-' ∨ in_range '0' '9' c then
      match tokenize_number c strm with
      | none => (.error .SYNTAX, [])
      | some (token, strm) => (.ok ⟨.NUMBER, token⟩, strm)
    else if c = 't' then
      match check_token (c :: strm) ['t', 'r', 'u', 'e'] with
      | none => (.error .SYNTAX, [])
      | some strm => (.ok ⟨.TRUE, ['t', 'r', 'u', 'e']⟩, strm)
    else if c = 'f' then
      match check_token (c :: strm) ['f', 'a', 'l', 's', 'e'] with
      | none => (.error .SYNTAX, [])
      | some strm => (.ok ⟨.FALSE, ['f', 'a', 'l', 's', 'e']⟩, strm)
    else if c = 'n' then
      match check_token (c :: strm) ['n', 'u', 'l', 'l'] with
      | none => (.error .SYNTAX, [])
      | some strm => (.ok ⟨.NULL_OBJ, ['n', 'u', 'l', 'l']⟩, strm)
    else if c = ' ' ∨ c = '\n' ∨ c = '\r' ∨ c = '\t' then
      (.error .NIL_TOKEN, skip_space strm)
    else (.error .SYNTAX, [])

/-- What running a modelled function gives. -/
inductive Outcome (α : Type) where
  /-- The function returned. -/
  | ret (a : α)
  /-- A vector or string was read outside its bounds: undefined behaviour. -/
  | undefined
  /-- The iteration budget of the model ran out. -/
  | diverge
deriving DecidableEq, Repr

/-- The loop of `tokenize` with `result` collected so far; the first argument bounds the
iterations.  `ret none` is `std::nullopt`. -/
def tokenize_loop : Nat → List Char → List Token → Outcome (Option (List Token))
  | 0, _, _ => .diverge
  | budget + 1, strm, result =>
    match get_token strm with
    | (.error .END, _) => .ret (some result)
    | (.error .NIL_TOKEN, strm) => tokenize_loop budget strm result
    | (.error .SYNTAX, _) => .ret none
    | (.ok tk, strm) => tokenize_loop budget strm (result ++ [tk])

/-- `tokenize`.  Every call of `get_token` that does not report the end takes at least one
character, so `size + 1` iterations are enough (`tokenize_returns`). -/
def tokenize (strm : List Char) : Outcome (Option (List Token)) :=
  tokenize_loop (strm.length + 1) strm []

/-! ## Values -/

/-- The library functions on `double` that the program calls: `std::stod`, with `none` for
a thrown `std::out_of_range`, and `std::to_string(double)`. -/
structure StdLib (D : Type) where
  stod : List Char → Option D
  to_string : D → List Char

/-- The classes derived from `JSON_Primitive` in `parse.h`, one constructor per class, with
the class's data members.  The `std::unordered_map` of `JSON_Object` is a list of
key/value pairs with distinct keys. -/
inductive JSON_Primitive (D : Type) where
  | JSON_Boolean (value_ : Bool)
  | JSON_Number (value_ : D)
  | JSON_String (value_ : List Char)
  | JSON_Object (null_object_ : Bool) (children : List (List Char × JSON_Primitive D))
  | JSON_Array (elements : List (JSON_Primitive D))

/-- `JSON_Object::add`, that is `children[key] = element`: the value under an existing key
is replaced, a new key gets a new entry. -/
def JSON_Object.add {D : Type} :
    List (List Char × JSON_Primitive D) → List Char → JSON_Primitive D →
      List (List Char × JSON_Primitive D)
  | [], key, element => [(key, element)]
  | (k, v) :: children, key, element =>
    if k = key then (k, element) :: children
    else (k, v) :: JSON_Object.add children key element

mutual
/-- The `to_string` methods of the value classes.  `JSON_Object::to_string` walks the
`std::unordered_map` in an unspecified order; the embedding walks the list in order. -/
def JSON_Primitive.to_string {D : Type} (L : StdLib D) : JSON_Primitive D → List Char
  | .JSON_Boolean value_ => if value_ then ['t', 'r', 'u', 'e'] else ['f', 'a', 'l', 's', 'e']
  | .JSON_Number value_ => L.to_string value_
  | .JSON_String value_ => ['"'] ++ value_ ++ ['"']
  | .JSON_Object true _ => ['n', 'u', 'l', 'l']
  | .JSON_Object false children => ['{'] ++ JSON_Object.to_string_loop L children ++ ['}']
  | .JSON_Array elements => ['['] ++ JSON_Array.to_string_loop L elements ++ [']']
/-- The `for (auto &e : children)` loop of `JSON_Object::to_string`. -/
def JSON_Object.to_string_loop {D : Type} (L : StdLib D) :
    List (List Char × JSON_Primitive D) → List Char
  | [] => []
  | (first, second) :: children =>
    ['"'] ++ first ++ ['"'] ++ [':'] ++ JSON_Primitive.to_string L second ++ [',']
      ++ JSON_Object.to_string_loop L children
/-- The `for (auto &e : elements)` loop of `JSON_Array::to_string`. -/
def JSON_Array.to_string_loop {D : Type} (L : StdLib D) : List (JSON_Primitive D) → List Char
  | [] => []
  | e :: elements =>
    JSON_Primitive.to_string L e ++ [','] ++ JSON_Array.to_string_loop L elements
end

/-- The `class JSON_File`: the flag `ok_` and the root pointer, `none` for `nullptr`. -/
structure JSON_File (D : Type) where
  ok_ : Bool
  root_ : Option (JSON_Primitive D)

/-- The default-constructed `JSON_File`. -/
def JSON_File.empty {D : Type} : JSON_File D := ⟨false, none⟩

/-- `JSON_File::set_root`. -/
def JSON_File.set_root {D : Type} (_file : JSON_File D) (root : JSON_Primitive D) :
    JSON_File D := ⟨true, some root⟩

/-- `JSON_File::ok`. -/
def JSON_File.ok {D : Type} (file : JSON_File D) : Bool := file.ok_

/-- `JSON_File::get_root`. -/
def JSON_File.get_root {D : Type} (file : JSON_File D) : Option (JSON_Primitive D) :=
  file.root_

/-! ## Parser -/

/-- What `parse_primitive`, `parse_array` and `parse_object` give: `ret none` is a returned
`nullptr`, `ret (some (p, index))` a returned object together with the cursor `index`, which
the functions update through a reference.  (On `nullptr` no caller looks at the cursor.) -/
abbrev Parsed (D : Type) := Outcome (Option (JSON_Primitive D × Nat))

/-- The condition of the `CHECK_INDEX` macro. -/
def CHECK_INDEX (index : Nat) (tokens : List Token) : Bool :=
  decide (index ≥ tokens.length)

/-- The `for (;;)` loop of `parse_array`, from the cursor `index` with the elements appended
so far.  `element` is the call `parse_primitive(tokens, index, limited_depth)`; the first
argument bounds the iterations. -/
def array_loop {D : Type} (element : Nat → Parsed D) (tokens : List Token) :
    Nat → Nat → List (JSON_Primitive D) → Parsed D
  | 0, _, _ => .diverge
  | budget + 1, index, elements =>
    if CHECK_INDEX index tokens then .ret none
    else
      match element index with
      | .ret (some (e, index)) =>
        if CHECK_INDEX index tokens then .ret none
        else
          match tokens[index]? with
          | none => .undefined
          | some tk =>
            if tk.type_ = .COMMA then array_loop element tokens budget (index + 1) (elements ++ [e])
            else if tk.type_ = .ARRAY_CLOSE then
              .ret (some (.JSON_Array (elements ++ [e]), index + 1))
            else .ret none
      | .ret none => .ret none
      | .undefined => .undefined
      | .diverge => .diverge

/-- `parse_array`; `element d i` is the call `parse_primitive(tokens, i, d)`.  Every
iteration of the loop moves the cursor forward, so `tokens.size()` iterations are enough. -/
def parse_array {D : Type} (element : Int → Nat → Parsed D) (tokens : List Token)
    (index : Nat) (limited_depth : Int) : Parsed D :=
  if limited_depth ≤ 0 then .ret none
  else
    match tokens[index + 1]? with
    | none => .undefined
    | some tk =>
      if tk.type_ = .ARRAY_CLOSE then .ret (some (.JSON_Array [], index + 1 + 1))
      else array_loop (element limited_depth) tokens tokens.length (index + 1) []

/-- The `for (;;)` loop of `parse_object`, from the cursor `index` with the members added so
far.  `element` is the call `parse_primitive(tokens, index, limited_depth)`; the first
argument bounds the iterations. -/
def object_loop {D : Type} (element : Nat → Parsed D) (tokens : List Token) :
    Nat → Nat → List (List Char × JSON_Primitive D) → Parsed D
  | 0, _, _ => .diverge
  | budget + 1, index, children =>
    if CHECK_INDEX index tokens then .ret none
    else
      match tokens[index]? with
      | none => .undefined
      | some tk =>
        if tk.type_ ≠ .STRING then .ret none
        else
          match tk.parse_string with
          | none => .undefined
          | some key =>
            if CHECK_INDEX (index + 1) tokens then .ret none
            else
              match tokens[index + 1]? with
              | none => .undefined
              | some tk =>
                if tk.type_ ≠ .COLON then .ret none
                else if CHECK_INDEX (index + 1 + 1) tokens then .ret none
                else
                  match element (index + 1 + 1) with
                  | .ret (some (e, index)) =>
                    if CHECK_INDEX index tokens then .ret none
                    else
                      match tokens[index]? with
                      | none => .undefined
                      | some tk =>
                        if tk.type_ = .COMMA then
                          object_loop element tokens budget (index + 1)
                            (JSON_Object.add children key e)
                        else if tk.type_ = .OBJ_CLOSE then
                          .ret (some (.JSON_Object false (JSON_Object.add children key e),
                            index + 1))
                        else .ret none
                  | .ret none => .ret none
                  | .undefined => .undefined
                  | .diverge => .diverge

/-- `parse_object`; `element d i` is the call `parse_primitive(tokens, i, d)`. -/
def parse_object {D : Type} (element : Int → Nat → Parsed D) (tokens : List Token)
    (index : Nat) (limited_depth : Int) : Parsed D :=
  if limited_depth ≤ 0 then .ret none
  else
    match tokens[index + 1]? with
    | none => .undefined
    | some tk =>
      if tk.type_ = .OBJ_CLOSE then .ret (some (.JSON_Object false [], index + 1 + 1))
      else object_loop (element limited_depth) tokens tokens.length (index + 1) []

/-- The expression `limited_depth - 1` of `parse_primitive` on `int` (32 bits, two's
complement): the difference for every value but `INT_MIN`; at `INT_MIN` the subtraction
overflows (undefined by the C++ standard) and the compiled program wraps around to
`INT_MAX`.  An `Int` outside the range of `int` is not a value that the program can hold;
for it the mathematical difference is taken. -/
def int_pred (limited_depth : Int) : Int :=
  if limited_depth = -2147483648 then 2147483647 else limited_depth - 1

/-- `parse_primitive`.  The first argument bounds the depth of the recursion through
`parse_array` and `parse_object`. -/
def parse_primitive {D : Type} (L : StdLib D) :
    Nat → List Token → Nat → Int → Parsed D
  | 0, _, _, _ => .diverge
  | budget + 1, tokens, index, limited_depth =>
    if index ≥ tokens.length then .ret none
    else
      match tokens[index]? with
      | none => .undefined
      | some tk =>
        if tk.type_ = .TRUE ∨ tk.type_ = .FALSE then
          .ret (some (.JSON_Boolean tk.parse_boolean, index + 1))
        else if tk.type_ = .NUMBER then
          match L.stod tk.token_ with
          | none => .ret none
          | some value => .ret (some (.JSON_Number value, index + 1))
        else if tk.type_ = .STRING then
          match tk.parse_string with
          | none => .undefined
          | some str => .ret (some (.JSON_String str, index + 1))
        else if tk.type_ = .NULL_OBJ then
          .ret (some (.JSON_Object true [], index + 1))
        else if tk.type_ = .ARRAY_OPEN then
          parse_array (fun d i => parse_primitive L budget tokens i d) tokens index
            (int_pred limited_depth)
        else if tk.type_ = .OBJ_OPEN then
          parse_object (fun d i => parse_primitive L budget tokens i d) tokens index
            (int_pred limited_depth)
        else .ret none

/-- The default value of `max_depth` in the declaration of `parse`. -/
def default_max_depth : Int := 64

/-- The part of `parse` after tokenizing.  A call of `parse_array` or `parse_object` with
`limited_depth <= 0` returns at once, so with `p` the value of `max_depth - 1` that
`parse_primitive` computes the recursion is never deeper than `max(p, 0) + 1` calls of
`parse_primitive`; the budget is one more. -/
def parse_tokens {D : Type} (L : StdLib D) (tokenized : Option (List Token))
    (max_depth : Int) : Outcome (JSON_File D) :=
  match tokenized with
  | none => .ret JSON_File.empty
  | some tokens =>
    if tokens.length = 0 then .ret JSON_File.empty
    else
      match parse_primitive L ((int_pred max_depth).toNat + 2) tokens 0 max_depth with
      | .ret (some (root, index)) =>
        if index ≠ tokens.length then .ret JSON_File.empty
        else .ret (JSON_File.set_root JSON_File.empty root)
      | .ret none => .ret JSON_File.empty
      | .undefined => .undefined
      | .diverge => .diverge

/-- `parse(strm, max_depth)`. -/
def parse {D : Type} (L : StdLib D) (strm : List Char) (max_depth : Int) :
    Outcome (JSON_File D) :=
  match tokenize strm with
  | .ret tokenized => parse_tokens L tokenized max_depth
  | .undefined => .undefined
  | .diverge => .diverge

end json

namespace json

/-! ## The grammar of the parser, with nesting depth -/

/-- The nonterminals of the grammar of §4.2: a value, the non-empty element list of an
array and the non-empty member list of an object. -/
inductive Sym where
  | value
  | elements
  | members

/-- `Derives sym d seg`: the token sequence `seg` is derivable from `sym` in the grammar
`value := primitive | array | object`, `array := '[' (value (',' value)*)? ']'`,
`object := '{' (string ':' value (',' string ':' value)*)? '}'`, and `d` is its array/object
nesting depth (a primitive has depth 0, a container one more than its deepest child). -/
inductive Derives : Sym → Nat → List Token → Prop where
  | primitive (tk : Token)
      (h : tk.type_ = .TRUE ∨ tk.type_ = .FALSE ∨ tk.type_ = .NUMBER ∨ tk.type_ = .STRING
        ∨ tk.type_ = .NULL_OBJ) :
      Derives .value 0 [tk]
  | empty_array (o c : Token) (ho : o.type_ = .ARRAY_OPEN) (hc : c.type_ = .ARRAY_CLOSE) :
      Derives .value 1 [o, c]
  | array (o c : Token) (d : Nat) (es : List Token) (ho : o.type_ = .ARRAY_OPEN)
      (hc : c.type_ = .ARRAY_CLOSE) (h : Derives .elements d es) :
      Derives .value (d + 1) (o :: es ++ [c])
  | empty_object (o c : Token) (ho : o.type_ = .OBJ_OPEN) (hc : c.type_ = .OBJ_CLOSE) :
      Derives .value 1 [o, c]
  | object (o c : Token) (d : Nat) (ms : List Token) (ho : o.type_ = .OBJ_OPEN)
      (hc : c.type_ = .OBJ_CLOSE) (h : Derives .members d ms) :
      Derives .value (d + 1) (o :: ms ++ [c])
  | elements_one (d : Nat) (v : List Token) (h : Derives .value d v) :
      Derives .elements d v
  | elements_more (d₁ d₂ : Nat) (v es : List Token) (comma : Token)
      (h₁ : Derives .value d₁ v) (hcomma : comma.type_ = .COMMA)
      (h₂ : Derives .elements d₂ es) :
      Derives .elements (max d₁ d₂) (v ++ comma :: es)
  | members_one (d : Nat) (key colon : Token) (v : List Token)
      (hkey : key.type_ = .STRING) (hcolon : colon.type_ = .COLON)
      (h : Derives .value d v) :
      Derives .members d (key :: colon :: v)
  | members_more (d₁ d₂ : Nat) (key colon comma : Token) (v ms : List Token)
      (hkey : key.type_ = .STRING) (hcolon : colon.type_ = .COLON)
      (h₁ : Derives .value d₁ v) (hcomma : comma.type_ = .COMMA)
      (h₂ : Derives .members d₂ ms) :
      Derives .members (max d₁ d₂) (key :: colon :: v ++ comma :: ms)

/-- Every `STRING` token of the sequence has a lexeme that `Token::parse_string` decodes
without reading outside it. -/
def strings_ok (tokens : List Token) : Prop :=
  ∀ tk ∈ tokens, tk.type_ = .STRING → tk.parse_string ≠ none

/-- `std::stod` converts the lexeme of every `NUMBER` token of the sequence. -/
def numbers_ok {D : Type} (L : StdLib D) (tokens : List Token) : Prop :=
  ∀ tk ∈ tokens, tk.type_ = .NUMBER → L.stod tk.token_ ≠ none

/-- A segment of nesting depth `d` is within the depth budget `Ld`: it has no container
at all (the guard is only met on entering one), or its depth is below the budget. -/
def fits (d : Nat) (Ld : Int) : Prop :=
  d = 0 ∨ (d : Int) < Ld

/-- What a parsing function must give on a segment of nesting depth `d` when called with
`limited_depth = Ld`: an object and the cursor `stop` when the segment fits the budget and
every number converts, `nullptr` otherwise. -/
def Expected {D : Type} (L : StdLib D) (r : Parsed D) (stop d : Nat) (Ld : Int)
    (seg : List Token) : Prop :=
  (∃ p, r = .ret (some (p, stop)) ∧ fits d Ld ∧ numbers_ok L seg)
    ∨ (r = .ret none ∧ ¬ (fits d Ld ∧ numbers_ok L seg))

/-- The behaviour of the parser on a derivable segment found at the cursor: of
`parse_primitive` on a value, of the loop of `parse_array` on an element list followed by
`]`, of the loop of `parse_object` on a member list followed by `}`; for every
`limited_depth` but `INT_MIN`, where `limited_depth - 1` overflows. -/
def Follows {D : Type} (L : StdLib D) : Sym → Nat → List Token → Prop
  | .value, d, seg =>
    ∀ (tokens : List Token) (i : Nat) (rest : List Token) (budget : Nat) (Ld : Int),
      tokens.drop i = seg ++ rest → strings_ok seg →
      (Ld.toNat < budget ∧ Ld ≠ -2147483648) →
      Expected L (parse_primitive L budget tokens i Ld) (i + seg.length) d Ld seg
  | .elements, d, seg =>
    ∀ (tokens : List Token) (i : Nat) (c : Token) (rest : List Token) (budget : Nat)
      (Ld : Int) (lb : Nat) (acc : List (JSON_Primitive D)),
      tokens.drop i = seg ++ c :: rest → c.type_ = .ARRAY_CLOSE → strings_ok seg →
      (Ld.toNat < budget ∧ Ld ≠ -2147483648) → tokens.length - i < lb →
      Expected L (array_loop (fun j => parse_primitive L budget tokens j Ld) tokens lb i acc)
        (i + seg.length + 1) d Ld seg
  | .members, d, seg =>
    ∀ (tokens : List Token) (i : Nat) (c : Token) (rest : List Token) (budget : Nat)
      (Ld : Int) (lb : Nat) (acc : List (List Char × JSON_Primitive D)),
      tokens.drop i = seg ++ c :: rest → c.type_ = .OBJ_CLOSE → strings_ok seg →
      (Ld.toNat < budget ∧ Ld ≠ -2147483648) → tokens.length - i < lb →
      Expected L (object_loop (fun j => parse_primitive L budget tokens j Ld) tokens lb i acc)
        (i + seg.length + 1) d Ld seg

/-! ## String tokens -/

/-- The test of `tokenize_string` for a hexadecimal digit. -/
def is_hex (c : Char) : Bool :=
  in_range '0' '9' c || in_range 'a' 'f' c || in_range 'A' 'F' c

/-- The text between the quotes of a string literal, as `tokenize_string` accepts it: plain
characters, two-character escapes, and `\u` with four hexadecimal digits. -/
inductive StringBody : List Char → Prop where
  | nil : StringBody []
  | plain (c : Char) (body : List Char) (h₁ : c ≠ '"') (h₂ : c ≠ '\\') (h₃ : ¬ c.toNat < 20)
      (h : StringBody body) : StringBody (c :: body)
  | escape (c : Char) (body : List Char)
      (hc : c = '"' ∨ c = '\\' ∨ c = '/' ∨ c = 'b' ∨ c = 'f' ∨ c = 'n' ∨ c = 'r' ∨ c = 't')
      (h : StringBody body) : StringBody ('\\' :: c :: body)
  | unicode (h₀ h₁ h₂ h₃ : Char) (body : List Char) (hh₀ : is_hex h₀ = true)
      (hh₁ : is_hex h₁ = true) (hh₂ : is_hex h₂ = true) (hh₃ : is_hex h₃ = true)
      (h : StringBody body) : StringBody ('\\' :: 'u' :: h₀ :: h₁ :: h₂ :: h₃ :: body)

/-- The segment a successful call consumed: it starts at the cursor `i`, ends at the
returned cursor `j`, is derivable from `sym`, fits the depth budget `Ld` and, for an
element or member list, is followed by the closing token of type `close`. -/
def Consumed (tokens : List Token) (sym : Sym) (close : Option TokenType) (Ld : Int)
    (i j : Nat) : Prop :=
  ∃ seg d, Derives sym d seg ∧ fits d Ld ∧
    match close with
    | none => tokens.drop i = seg ++ tokens.drop j
    | some ty => ∃ c : Token, c.type_ = ty ∧ tokens.drop i = seg ++ c :: tokens.drop j

end json

namespace json

/-! ## The number grammar of the specification -/

/-- `[0-9]*`: every character of the list is a decimal digit. -/
def Digits (ds : List Char) : Prop :=
  ∀ c ∈ ds, in_range '0' '9' c = true

/-- `0|[1-9][0-9]*`. -/
def IntPart (x : List Char) : Prop :=
  x = ['0'] ∨ ∃ c ds, x = c :: ds ∧ in_range '1' '9' c = true ∧ Digits ds

/-- `(.[0-9]+)?`. -/
def FracPart (x : List Char) : Prop :=
  x = [] ∨ ∃ c ds, x = '.' :: c :: ds ∧ Digits (c :: ds)

/-- `([eE][+-]?[0-9]+)?`. -/
def ExpPart (x : List Char) : Prop :=
  x = [] ∨ ∃ e sg c ds, x = e :: (sg ++ c :: ds) ∧ (e = 'e' ∨ e = 'E')
    ∧ (sg = [] ∨ sg = ['+'] ∨ sg = ['-']) ∧ Digits (c :: ds)

/-- The JSON number grammar `-?(0|[1-9][0-9]*)(.[0-9]+)?([eE][+-]?[0-9]+)?`. -/
def JsonNumber (s : List Char) : Prop :=
  ∃ sign int frac exp, s = sign ++ int ++ frac ++ exp ∧ (sign = [] ∨ sign = ['-'])
    ∧ IntPart int ∧ FracPart frac ∧ ExpPart exp

end json

namespace json

/-- The total length of the lexemes of a token sequence. -/
def lexemes_length (tokens : List Token) : Nat :=
  (tokens.map (fun tk => tk.token_.length)).sum

/-- The result of the loop of `tokenize` with the tokens `acc` put in front. -/
def prepend_tokens (acc : List Token) :
    Outcome (Option (List Token)) → Outcome (Option (List Token))
  | .ret (some more) => .ret (some (acc ++ more))
  | .ret none => .ret none
  | .undefined => .undefined
  | .diverge => .diverge

end json

namespace json

/-- An instance of the library for running the definitions on concrete inputs: a `double`
is represented by the literal it was read from, and no literal is out of range. -/
def literal_lib : StdLib (List Char) := ⟨fun s => some s, fun d => d⟩

/-- The token sequence is derivable from `value` of the grammar, at some depth. -/
def Grammatical (tokens : List Token) : Prop :=
  ∃ d, Derives .value d tokens

/-- The text of `n` arrays nested in one another: `n` times `[`, then `n` times `]`. -/
def nested_arrays (n : Nat) : List Char :=
  List.replicate n '[' ++ List.replicate n ']'

/-- The tokens of `nested_arrays n`. -/
def nested_arrays_tokens (n : Nat) : List Token :=
  List.replicate n ⟨.ARRAY_OPEN, ['[']⟩ ++ List.replicate n ⟨.ARRAY_CLOSE, [']']⟩

end json

namespace json

/-! ## JSON text -/

/-- The white space of JSON: space, line feed, carriage return and tab. -/
def is_space (c : Char) : Prop :=
  c = ' ' ∨ c = '\n' ∨ c = '\r' ∨ c = '\t'

/-- A run of white space, possibly empty. -/
def Spaces (w : List Char) : Prop :=
  ∀ c ∈ w, is_space c

/-- The text between the quotes of a JSON string: characters from U+0020 on other than the
quote and the backslash, the two-character escapes, and `\u` with four hexadecimal
digits. -/
inductive JsonStringBody : List Char → Prop where
  | nil : JsonStringBody []
  | plain (c : Char) (body : List Char) (h₁ : c ≠ '"') (h₂ : c ≠ '\\') (h₃ : 0x20 ≤ c.toNat)
      (h : JsonStringBody body) : JsonStringBody (c :: body)
  | escape (c : Char) (body : List Char)
      (hc : c = '"' ∨ c = '\\' ∨ c = '/' ∨ c = 'b' ∨ c = 'f' ∨ c = 'n' ∨ c = 'r' ∨ c = 't')
      (h : JsonStringBody body) : JsonStringBody ('\\' :: c :: body)
  | unicode (h₀ h₁ h₂ h₃ : Char) (body : List Char) (hh₀ : is_hex h₀ = true)
      (hh₁ : is_hex h₁ = true) (hh₂ : is_hex h₂ = true) (hh₃ : is_hex h₃ = true)
      (h : JsonStringBody body) : JsonStringBody ('\\' :: 'u' :: h₀ :: h₁ :: h₂ :: h₃ :: body)

/-- The lexeme of a token is a lexeme of JSON for the token's type: the structural
character, the keyword, a number of the number grammar, or a string in quotes. -/
def Token.is_lexeme (tk : Token) : Prop :=
  match tk.type_ with
  | .ARRAY_OPEN => tk.token_ = ['[']
  | .ARRAY_CLOSE => tk.token_ = [']']
  | .OBJ_OPEN => tk.token_ = ['{']
  | .OBJ_CLOSE => tk.token_ = ['}']
  | .COLON => tk.token_ = [':']
  | .COMMA => tk.token_ = [',']
  | .STRING => ∃ body, JsonStringBody body ∧ tk.token_ = '"' :: body ++ ['"']
  | .NUMBER => JsonNumber tk.token_
  | .TRUE => tk.token_ = ['t', 'r', 'u', 'e']
  | .FALSE => tk.token_ = ['f', 'a', 'l', 's', 'e']
  | .NULL_OBJ => tk.token_ = ['n', 'u', 'l', 'l']

/-- `Spells tokens text`: the text consists of the lexemes of the tokens, in order, with
optional white space before, between and after them. -/
inductive Spells : List Token → List Char → Prop where
  | nil (w : List Char) (hw : Spaces w) : Spells [] w
  | cons (w : List Char) (tk : Token) (tokens : List Token) (text : List Char)
      (hw : Spaces w) (htk : tk.is_lexeme) (h : Spells tokens text) :
      Spells (tk :: tokens) (w ++ tk.token_ ++ text)

/-- A valid JSON document of array/object nesting depth `d`: a text that spells a token
sequence derivable from `value`. -/
def JsonDocument (d : Nat) (text : List Char) : Prop :=
  ∃ tokens, Spells tokens text ∧ Derives .value d tokens

/-- Where the scanner stops a number: at the end of the stream or before a character that
is not a digit, `.`, `e` or `E`. -/
def number_end (rest : List Char) : Prop :=
  ∀ c tl, rest = c :: tl →
    in_range '0' '9' c = false ∧ c ≠ '.' ∧ c ≠ 'e' ∧ c ≠ 'E'

/-- In the token sequence every `NUMBER` token is the last one or is followed by a comma or
a closing bracket. -/
def numbers_delimited : List Token → Prop
  | [] => True
  | [_] => True
  | a :: b :: tokens =>
    (a.type_ = .NUMBER → b.type_ = .COMMA ∨ b.type_ = .ARRAY_CLOSE ∨ b.type_ = .OBJ_CLOSE)
      ∧ numbers_delimited (b :: tokens)

end json

namespace json

/-! ## Further notions of the specification -/

/-- The decodings of the escape sequences of a string body, in order, and nothing else:
`\u` with four characters gives what `parse_4hex_codepoint` makes of them, a
two-character escape gives what the `switch` of `unescape_string` pushes for it, and a
character outside an escape sequence gives nothing. -/
def escape_decodings : List Char → List Char
  | [] => []
  | c :: rest =>
    if c = '\\' then
      match rest with
      | [] => []
      | e :: rest =>
        if e = 'u' then
          match rest with
          | h₀ :: h₁ :: h₂ :: h₃ :: rest =>
            parse_4hex_codepoint [h₀, h₁, h₂, h₃] ++ escape_decodings rest
          | _ => []
        else unescape_switch e ++ escape_decodings rest
    else escape_decodings rest

/-- After some calls of `get_token`, each of which returned a token or skipped white space,
the loop of `tokenize` that started on the stream `strm` stands at the stream `at_`. -/
inductive Reaches : List Char → List Char → Prop where
  | here (strm : List Char) : Reaches strm strm
  | token (strm rest at_ : List Char) (tk : Token) (h : get_token strm = (.ok tk, rest))
      (hr : Reaches rest at_) : Reaches strm at_
  | space (strm rest at_ : List Char) (h : get_token strm = (.error .NIL_TOKEN, rest))
      (hr : Reaches rest at_) : Reaches strm at_

/-- The escape characters that `tokenize_string` permits after a backslash. -/
def permitted_escape (c : Char) : Prop :=
  c = '"' ∨ c = '\\' ∨ c = '/' ∨ c = 'b' ∨ c = 'f' ∨ c = 'n' ∨ c = 'r' ∨ c = 't' ∨ c = 'u'

/-- What can follow the well-formed part of a string literal that is not completed: the
end of the input, a backslash at the end of the input, a backslash with a character that is
not a permitted escape, or `\u` with fewer than four hexadecimal digits before another
character or the end of the input. -/
def bad_string_tail (t : List Char) : Prop :=
  t = [] ∨ t = ['\\']
    ∨ (∃ c rest, t = '\\' :: c :: rest ∧ ¬ permitted_escape c)
    ∨ (∃ hs rest, t = '\\' :: 'u' :: (hs ++ rest) ∧ (∀ h ∈ hs, is_hex h = true)
        ∧ hs.length < 4 ∧ ∀ c tl, rest = c :: tl → is_hex c = false)

/-- The result of a scanning function on a stream, carried over to the stream with `w`
appended: the text that the function left has `w` after it. -/
def with_rest (w : List Char) (r : Option (List Char × List Char)) :
    Option (List Char × List Char) :=
  r.map (fun p => (p.1, p.2 ++ w))

/-- The result of `get_token` on a non-empty stream, carried over to the stream with the
white space `w` appended. -/
def get_token_with_rest (w : List Char) :
    Except Error Token × List Char → Except Error Token × List Char
  | (.ok tk, rest) => (.ok tk, rest ++ w)
  | (.error .NIL_TOKEN, rest) => (.error .NIL_TOKEN, skip_space (rest ++ w))
  | (.error e, rest) => (.error e, rest)

end json

namespace json

/-! ## Array texts -/

/-- The tokens after the first element of an array: `, v` for every further element `v`,
then `]`. -/
def array_rest : List (List Token) → List Token
  | [] => [⟨.ARRAY_CLOSE, [']']⟩]
  | v :: vs => ⟨.COMMA, [',']⟩ :: v ++ array_rest vs

/-- The tokens of the array text `[v₁, ..., vₙ]`, given the tokens of `v₁`, ..., `vₙ`. -/
def array_tokens : List (List Token) → List Token
  | [] => [⟨.ARRAY_OPEN, ['[']⟩, ⟨.ARRAY_CLOSE, [']']⟩]
  | v :: vs => ⟨.ARRAY_OPEN, ['[']⟩ :: v ++ array_rest vs

end json

namespace json

/-! ## Code points and UTF-8, as the specification words them -/

/-- The code point whose hexadecimal numeral the four decimal digits `h₀ h₁ h₂ h₃` spell,
with the standard digit values. -/
def digit_numeral_value (h₀ h₁ h₂ h₃ : Char) : Nat :=
  (((h₀.toNat - '0'.toNat) * 16 + (h₁.toNat - '0'.toNat)) * 16 + (h₂.toNat - '0'.toNat)) * 16
    + (h₃.toNat - '0'.toNat)

/-- The UTF-8 encoding of a code point up to `0xFFFF`: one byte up to `0x7F`, two bytes up
to `0x7FF`, three bytes otherwise. -/
def utf8_encoding (cp : Nat) : List Char :=
  if cp ≤ 0x7F then [Char.ofNat cp]
  else if cp ≤ 0x7FF then
    [Char.ofNat (0xC0 ||| (cp >>> 6)), Char.ofNat (0x80 ||| (cp &&& 0x3F))]
  else
    [Char.ofNat (0xE0 ||| (cp >>> 12)), Char.ofNat (0x80 ||| ((cp >>> 6) &&& 0x3F)),
     Char.ofNat (0x80 ||| (cp &&& 0x3F))]

/-! ## The positions of the decoding loop -/

/-- The values that the loop variable `i` of `Token::unescape_string` takes at the test
`str[i] == '\\'`, from position `i` on, in order; the control flow is that of
`unescape_loop` (a read outside the buffer ends the list). -/
def unescape_visits (str : List Char) : Nat → Nat → List Nat
  | 0, _ => []
  | budget + 1, i =>
    if i < str.length then
      if string_at str i = some '\\' then
        match string_at str (i + 1) with
        | none => [i]
        | some c =>
          if c = 'u' then
            match string_at str (i + 2), string_at str (i + 2 + 1), string_at str (i + 2 + 2),
              string_at str (i + 2 + 3) with
            | some _, some _, some _, some _ => i :: unescape_visits str budget (i + 4 + 1)
            | _, _, _, _ => [i]
          else
            i :: unescape_visits str budget (i + 1 + 1)
      else
        i :: unescape_visits str budget (i + 1)
    else
      []

end json

namespace json

/-! ## The subtraction on `int` -/

theorem int_pred_eq {x : Int} (h : x ≠ -2147483648) : int_pred x = x - 1 := by
  simp [int_pred, h]

theorem int_pred_int_min : int_pred (-2147483648) = int_pred 2147483648 := by
  decide

/-! ## Auxiliary facts on the cursor -/

theorem getElem?_of_drop {tokens seg : List Token} {i : Nat} (h : tokens.drop i = seg)
    (k : Nat) : tokens[i + k]? = seg[k]? := by
  rw [← h, List.getElem?_drop]

theorem getElem?_of_drop_cons {tokens rest : List Token} {tk : Token} {i : Nat}
    (h : tokens.drop i = tk :: rest) : tokens[i]? = some tk := by
  have := getElem?_of_drop h 0
  simpa using this

theorem lt_length_of_drop_cons {tokens rest : List Token} {tk : Token} {i : Nat}
    (h : tokens.drop i = tk :: rest) : i < tokens.length := by
  have := congrArg List.length h
  simp at this
  omega

theorem drop_add_of_drop_append {tokens a b : List Token} {i : Nat}
    (h : tokens.drop i = a ++ b) : tokens.drop (i + a.length) = b := by
  have : tokens.drop (i + a.length) = (tokens.drop i).drop a.length := by
    rw [List.drop_drop, Nat.add_comm]
  rw [this, h, List.drop_left]

theorem drop_succ_of_drop_cons {tokens rest : List Token} {tk : Token} {i : Nat}
    (h : tokens.drop i = tk :: rest) : tokens.drop (i + 1) = rest := by
  have := drop_add_of_drop_append (a := [tk]) (b := rest) (by simpa using h)
  simpa using this

theorem strings_ok_append {a b : List Token} :
    strings_ok (a ++ b) ↔ strings_ok a ∧ strings_ok b := by
  simp only [strings_ok, List.mem_append]
  constructor
  · intro h
    exact ⟨fun tk ht => h tk (Or.inl ht), fun tk ht => h tk (Or.inr ht)⟩
  · rintro ⟨h₁, h₂⟩ tk (ht | ht)
    · exact h₁ tk ht
    · exact h₂ tk ht

theorem strings_ok_cons {a : Token} {b : List Token} :
    strings_ok (a :: b) ↔ (a.type_ = .STRING → a.parse_string ≠ none) ∧ strings_ok b := by
  simp [strings_ok]

theorem numbers_ok_append {D : Type} (L : StdLib D) {a b : List Token} :
    numbers_ok L (a ++ b) ↔ numbers_ok L a ∧ numbers_ok L b := by
  simp only [numbers_ok, List.mem_append]
  constructor
  · intro h
    exact ⟨fun tk ht => h tk (Or.inl ht), fun tk ht => h tk (Or.inr ht)⟩
  · rintro ⟨h₁, h₂⟩ tk (ht | ht)
    · exact h₁ tk ht
    · exact h₂ tk ht

theorem numbers_ok_cons {D : Type} (L : StdLib D) {a : Token} {b : List Token} :
    numbers_ok L (a :: b) ↔ (a.type_ = .NUMBER → L.stod a.token_ ≠ none) ∧ numbers_ok L b := by
  simp [numbers_ok]

theorem numbers_ok_nil {D : Type} (L : StdLib D) : numbers_ok L [] := by
  simp [numbers_ok]

/-- The first token of a derivable segment: a value starts with a primitive or an opening
bracket, a member list with a string. -/
theorem derives_head {sym : Sym} {d : Nat} {seg : List Token} (h : Derives sym d seg) :
    ∃ tk tl, seg = tk :: tl ∧ tk.type_ ≠ .ARRAY_CLOSE ∧ tk.type_ ≠ .OBJ_CLOSE
      ∧ tk.type_ ≠ .COMMA ∧ tk.type_ ≠ .COLON := by
  induction h with
  | primitive tk h =>
    refine ⟨tk, [], rfl, ?_⟩
    rcases h with h | h | h | h | h <;> simp [h]
  | empty_array o c ho hc => exact ⟨o, [c], rfl, by simp [ho]⟩
  | array o c d es ho hc h ih => exact ⟨o, es ++ [c], rfl, by simp [ho]⟩
  | empty_object o c ho hc => exact ⟨o, [c], rfl, by simp [ho]⟩
  | object o c d ms ho hc h ih => exact ⟨o, ms ++ [c], rfl, by simp [ho]⟩
  | elements_one d v h ih => exact ih
  | elements_more d₁ d₂ v es comma h₁ hcomma h₂ ih₁ ih₂ =>
    obtain ⟨tk, tl, rfl, h⟩ := ih₁
    exact ⟨tk, tl ++ comma :: es, rfl, h⟩
  | members_one d key colon v hkey hcolon h ih => exact ⟨key, colon :: v, rfl, by simp [hkey]⟩
  | members_more d₁ d₂ key colon comma v ms hkey hcolon h₁ hcomma h₂ ih₁ ih₂ =>
    exact ⟨key, colon :: v ++ comma :: ms, rfl, by simp [hkey]⟩

theorem follows_primitive {D : Type} (L : StdLib D) (tk : Token)
    (h : tk.type_ = .TRUE ∨ tk.type_ = .FALSE ∨ tk.type_ = .NUMBER ∨ tk.type_ = .STRING
        ∨ tk.type_ = .NULL_OBJ) : Follows L .value 0 [tk] := by
  intro tokens i rest budget Ld hdrop hs hb
  obtain ⟨b, rfl⟩ : ∃ b, budget = b + 1 := ⟨budget - 1, by omega⟩
  have hdrop' : tokens.drop i = tk :: rest := by simpa using hdrop
  have hget := getElem?_of_drop_cons hdrop'
  have hlt := lt_length_of_drop_cons hdrop'
  have hnl : ¬ (i ≥ tokens.length) := by omega
  simp only [parse_primitive, hnl, if_false, hget, Expected, List.length_singleton, fits]
  rcases h with h | h | h | h | h
  · left
    simp [h, numbers_ok]
  · left
    simp [h, numbers_ok]
  · cases hst : L.stod tk.token_ with
    | none => right; simp [h, hst, numbers_ok]
    | some v => left; simp [h, hst, numbers_ok]
  · have := (strings_ok_cons.mp hs).1 h
    cases hps : tk.parse_string with
    | none => exact absurd hps this
    | some s => left; simp [h, numbers_ok]
  · left
    simp [h, numbers_ok]

theorem follows_empty_array {D : Type} (L : StdLib D) (o c : Token)
    (ho : o.type_ = .ARRAY_OPEN) (hc : c.type_ = .ARRAY_CLOSE) :
    Follows L .value 1 [o, c] := by
  intro tokens i rest budget Ld hdrop hs hb
  have hpred : int_pred Ld = Ld - 1 := int_pred_eq hb.2
  obtain ⟨b, rfl⟩ : ∃ b, budget = b + 1 := ⟨budget - 1, by omega⟩
  have hdrop' : tokens.drop i = o :: c :: rest := by simpa using hdrop
  have hget := getElem?_of_drop_cons hdrop'
  have hlt := lt_length_of_drop_cons hdrop'
  have hget₁ := getElem?_of_drop_cons (drop_succ_of_drop_cons hdrop')
  have hnl : ¬ (i ≥ tokens.length) := by omega
  by_cases hL : Ld - 1 ≤ 0
  · right
    simp [parse_primitive, hpred, hget, ho, parse_array, hL, fits]
    omega
  · left
    simp [parse_primitive, hpred, hget, ho, parse_array, hget₁, hc, hL, fits, numbers_ok,
      Nat.not_le.mpr hlt]
    omega

theorem follows_empty_object {D : Type} (L : StdLib D) (o c : Token)
    (ho : o.type_ = .OBJ_OPEN) (hc : c.type_ = .OBJ_CLOSE) :
    Follows L .value 1 [o, c] := by
  intro tokens i rest budget Ld hdrop hs hb
  have hpred : int_pred Ld = Ld - 1 := int_pred_eq hb.2
  obtain ⟨b, rfl⟩ : ∃ b, budget = b + 1 := ⟨budget - 1, by omega⟩
  have hdrop' : tokens.drop i = o :: c :: rest := by simpa using hdrop
  have hget := getElem?_of_drop_cons hdrop'
  have hlt := lt_length_of_drop_cons hdrop'
  have hget₁ := getElem?_of_drop_cons (drop_succ_of_drop_cons hdrop')
  have hnl : ¬ (i ≥ tokens.length) := by omega
  by_cases hL : Ld - 1 ≤ 0
  · right
    simp [parse_primitive, hpred, hget, ho, parse_object, hL, fits]
    omega
  · left
    simp [parse_primitive, hpred, hget, ho, parse_object, hget₁, hc, hL, fits, numbers_ok,
      Nat.not_le.mpr hlt]
    omega

theorem follows_array {D : Type} (L : StdLib D) (o c : Token) (d : Nat) (es : List Token)
    (ho : o.type_ = .ARRAY_OPEN) (hc : c.type_ = .ARRAY_CLOSE) (h : Derives .elements d es)
    (ih : Follows L .elements d es) : Follows L .value (d + 1) (o :: es ++ [c]) := by
  intro tokens i rest budget Ld hdrop hs hb
  have hpred : int_pred Ld = Ld - 1 := int_pred_eq hb.2
  obtain ⟨b, rfl⟩ : ∃ b, budget = b + 1 := ⟨budget - 1, by omega⟩
  obtain ⟨tk, tl, rfl, hk₁, -, -, -⟩ := derives_head h
  have hdrop' : tokens.drop i = o :: ((tk :: tl) ++ c :: rest) := by simpa using hdrop
  have hget := getElem?_of_drop_cons hdrop'
  have hlt := lt_length_of_drop_cons hdrop'
  have hdrop₁ := drop_succ_of_drop_cons hdrop'
  have hget₁ := getElem?_of_drop_cons hdrop₁
  have hnl : ¬ (i ≥ tokens.length) := by omega
  have hs' : strings_ok (tk :: tl) := by
    have := (strings_ok_cons.mp hs).2
    exact (strings_ok_append.mp this).1
  by_cases hL : Ld - 1 ≤ 0
  · right
    simp [parse_primitive, hpred, hget, ho, parse_array, hL, fits]
    omega
  · have hb' : (Ld - 1).toNat < b ∧ Ld - 1 ≠ -2147483648 := by omega
    have hlb : tokens.length - (i + 1) < tokens.length := by omega
    have := ih tokens (i + 1) c rest b (Ld - 1) tokens.length [] hdrop₁ hc hs' hb' hlb
    simp only [parse_primitive, hpred, hnl, if_false, hget, ho, parse_array, hget₁, hk₁, hL,
      reduceCtorEq, or_self, if_true]
    have hno : numbers_ok L (o :: (tk :: tl) ++ [c]) ↔ numbers_ok L (tk :: tl) := by
      rw [List.cons_append, numbers_ok_cons, numbers_ok_append, numbers_ok_cons (a := c)]
      simp [ho, hc, numbers_ok_nil]
    have hfit : fits (d + 1) Ld ↔ fits d (Ld - 1) := by
      simp only [fits]
      constructor <;> intro h <;> omega
    rcases this with ⟨p, hp, hf, hn⟩ | ⟨hp, hn⟩
    · left
      have hstop : i + 1 + (tk :: tl).length + 1 = i + (o :: (tk :: tl) ++ [c]).length := by
        simp
        omega
      exact ⟨p, by rw [hp, hstop], hfit.mpr hf, hno.mpr hn⟩
    · right
      refine ⟨hp, ?_⟩
      rw [hfit, hno]
      exact hn

theorem follows_object {D : Type} (L : StdLib D) (o c : Token) (d : Nat) (ms : List Token)
    (ho : o.type_ = .OBJ_OPEN) (hc : c.type_ = .OBJ_CLOSE) (h : Derives .members d ms)
    (ih : Follows L .members d ms) : Follows L .value (d + 1) (o :: ms ++ [c]) := by
  intro tokens i rest budget Ld hdrop hs hb
  have hpred : int_pred Ld = Ld - 1 := int_pred_eq hb.2
  obtain ⟨b, rfl⟩ : ∃ b, budget = b + 1 := ⟨budget - 1, by omega⟩
  obtain ⟨tk, tl, rfl, -, hk₁, -, -⟩ := derives_head h
  have hdrop' : tokens.drop i = o :: ((tk :: tl) ++ c :: rest) := by simpa using hdrop
  have hget := getElem?_of_drop_cons hdrop'
  have hlt := lt_length_of_drop_cons hdrop'
  have hdrop₁ := drop_succ_of_drop_cons hdrop'
  have hget₁ := getElem?_of_drop_cons hdrop₁
  have hnl : ¬ (i ≥ tokens.length) := by omega
  have hs' : strings_ok (tk :: tl) := by
    have := (strings_ok_cons.mp hs).2
    exact (strings_ok_append.mp this).1
  by_cases hL : Ld - 1 ≤ 0
  · right
    simp [parse_primitive, hpred, hget, ho, parse_object, hL, fits]
    omega
  · have hb' : (Ld - 1).toNat < b ∧ Ld - 1 ≠ -2147483648 := by omega
    have hlb : tokens.length - (i + 1) < tokens.length := by omega
    have := ih tokens (i + 1) c rest b (Ld - 1) tokens.length [] hdrop₁ hc hs' hb' hlb
    simp only [parse_primitive, hpred, hnl, if_false, hget, ho, parse_object, hget₁, hk₁, hL,
      reduceCtorEq, or_self, if_true]
    have hno : numbers_ok L (o :: (tk :: tl) ++ [c]) ↔ numbers_ok L (tk :: tl) := by
      rw [List.cons_append, numbers_ok_cons, numbers_ok_append, numbers_ok_cons (a := c)]
      simp [ho, hc, numbers_ok_nil]
    have hfit : fits (d + 1) Ld ↔ fits d (Ld - 1) := by
      simp only [fits]
      constructor <;> intro h <;> omega
    rcases this with ⟨p, hp, hf, hn⟩ | ⟨hp, hn⟩
    · left
      have hstop : i + 1 + (tk :: tl).length + 1 = i + (o :: (tk :: tl) ++ [c]).length := by
        simp
        omega
      exact ⟨p, by rw [hp, hstop], hfit.mpr hf, hno.mpr hn⟩
    · right
      refine ⟨hp, ?_⟩
      rw [hfit, hno]
      exact hn

theorem fits_max {d₁ d₂ : Nat} {Ld : Int} :
    fits (max d₁ d₂) Ld ↔ fits d₁ Ld ∧ fits d₂ Ld := by
  simp only [fits]
  rcases Nat.le_total d₁ d₂ with h | h
  · rw [Nat.max_eq_right h]
    constructor
    · intro h'
      constructor <;> omega
    · intro h'
      exact h'.2
  · rw [Nat.max_eq_left h]
    constructor
    · intro h'
      constructor <;> omega
    · intro h'
      exact h'.1

theorem follows_elements_one {D : Type} (L : StdLib D) (d : Nat) (v : List Token)
    (h : Derives .value d v) (ih : Follows L .value d v) : Follows L .elements d v := by
  intro tokens i c rest budget Ld lb acc hdrop hc hs hb hlb
  obtain ⟨l, rfl⟩ : ∃ l, lb = l + 1 := ⟨lb - 1, by omega⟩
  obtain ⟨tk, tl, hv, -⟩ := derives_head h
  have hlt := lt_length_of_drop_cons
    (show tokens.drop i = tk :: (tl ++ c :: rest) by rw [hdrop, hv]; rfl)
  have hdrop₁ := drop_add_of_drop_append hdrop
  have hget₁ := getElem?_of_drop_cons hdrop₁
  have hlt₁ := lt_length_of_drop_cons hdrop₁
  have := ih tokens i (c :: rest) budget Ld hdrop hs hb
  rcases this with ⟨p, hp, hf, hn⟩ | ⟨hp, hn⟩
  · left
    refine ⟨.JSON_Array (acc ++ [p]), ?_, hf, hn⟩
    simp [array_loop, CHECK_INDEX, Nat.not_le.mpr hlt, hp, Nat.not_le.mpr hlt₁, hget₁, hc]
  · right
    refine ⟨?_, hn⟩
    simp [array_loop, CHECK_INDEX, Nat.not_le.mpr hlt, hp]

theorem follows_elements_more {D : Type} (L : StdLib D) (d₁ d₂ : Nat) (v es : List Token)
    (comma : Token) (h₁ : Derives .value d₁ v) (hcomma : comma.type_ = .COMMA)
    (ih₁ : Follows L .value d₁ v) (ih₂ : Follows L .elements d₂ es) :
    Follows L .elements (max d₁ d₂) (v ++ comma :: es) := by
  intro tokens i c rest budget Ld lb acc hdrop hc hs hb hlb
  obtain ⟨l, rfl⟩ : ∃ l, lb = l + 1 := ⟨lb - 1, by omega⟩
  obtain ⟨tk, tl, hv, -⟩ := derives_head h₁
  have hdrop' : tokens.drop i = v ++ (comma :: (es ++ c :: rest)) := by
    simpa using hdrop
  have hlt := lt_length_of_drop_cons
    (show tokens.drop i = tk :: (tl ++ comma :: (es ++ c :: rest)) by rw [hdrop', hv]; rfl)
  have hdrop₁ := drop_add_of_drop_append hdrop'
  have hget₁ := getElem?_of_drop_cons hdrop₁
  have hlt₁ := lt_length_of_drop_cons hdrop₁
  have hdrop₂ := drop_succ_of_drop_cons hdrop₁
  obtain ⟨hs₁, hs₂⟩ := strings_ok_append.mp hs
  have hs₂ := (strings_ok_cons.mp hs₂).2
  have hno : numbers_ok L (v ++ comma :: es)
      ↔ numbers_ok L v ∧ numbers_ok L es := by
    rw [numbers_ok_append, numbers_ok_cons (a := comma)]
    simp [hcomma]
  have := ih₁ tokens i (comma :: (es ++ c :: rest)) budget Ld hdrop' hs₁ hb
  rcases this with ⟨p, hp, hf, hn⟩ | ⟨hp, hn⟩
  · have hl : tokens.length - (i + v.length + 1) < l := by
      omega
    have := ih₂ tokens (i + v.length + 1) c rest budget Ld l (acc ++ [p]) hdrop₂ hc
      hs₂ hb hl
    have hloop : array_loop (fun j => parse_primitive L budget tokens j Ld) tokens (l + 1) i acc
        = array_loop (fun j => parse_primitive L budget tokens j Ld) tokens l
            (i + v.length + 1) (acc ++ [p]) := by
      simp [array_loop, CHECK_INDEX, Nat.not_le.mpr hlt, hp, Nat.not_le.mpr hlt₁, hget₁,
        hcomma]
    rw [hloop]
    have hstop : i + v.length + 1 + es.length + 1
        = i + (v ++ comma :: es).length + 1 := by
      simp
      omega
    rw [← hstop]
    rcases this with ⟨q, hq, hf₂, hn₂⟩ | ⟨hq, hn₂⟩
    · left
      exact ⟨q, hq, fits_max.mpr ⟨hf, hf₂⟩, hno.mpr ⟨hn, hn₂⟩⟩
    · right
      refine ⟨hq, ?_⟩
      rw [fits_max, hno]
      intro hh
      exact hn₂ ⟨hh.1.2, hh.2.2⟩
  · right
    refine ⟨?_, ?_⟩
    · simp [array_loop, CHECK_INDEX, Nat.not_le.mpr hlt, hp]
    · rw [fits_max, hno]
      intro hh
      exact hn ⟨hh.1.1, hh.2.1⟩

theorem follows_members_one {D : Type} (L : StdLib D) (d : Nat) (key colon : Token)
    (v : List Token) (hkey : key.type_ = .STRING) (hcolon : colon.type_ = .COLON)
    (h : Derives .value d v) (ih : Follows L .value d v) :
    Follows L .members d (key :: colon :: v) := by
  intro tokens i c rest budget Ld lb acc hdrop hc hs hb hlb
  obtain ⟨l, rfl⟩ : ∃ l, lb = l + 1 := ⟨lb - 1, by omega⟩
  obtain ⟨tk, tl, hv, -⟩ := derives_head h
  have hdrop' : tokens.drop i = key :: colon :: (v ++ c :: rest) := by simpa using hdrop
  have hget := getElem?_of_drop_cons hdrop'
  have hlt := lt_length_of_drop_cons hdrop'
  have hdrop₁ := drop_succ_of_drop_cons hdrop'
  have hget₁ := getElem?_of_drop_cons hdrop₁
  have hlt₁ := lt_length_of_drop_cons hdrop₁
  have hdrop₂ := drop_succ_of_drop_cons hdrop₁
  have hlt₂ := lt_length_of_drop_cons
    (show tokens.drop (i + 1 + 1) = tk :: (tl ++ c :: rest) by rw [hdrop₂, hv]; rfl)
  have hdrop₃ := drop_add_of_drop_append hdrop₂
  have hget₃ := getElem?_of_drop_cons hdrop₃
  have hlt₃ := lt_length_of_drop_cons hdrop₃
  obtain ⟨hsk, hs'⟩ := strings_ok_cons.mp hs
  have hs' := (strings_ok_cons.mp hs').2
  obtain ⟨k, hk⟩ := Option.ne_none_iff_exists'.mp (hsk hkey)
  have hno : numbers_ok L (key :: colon :: v) ↔ numbers_ok L v := by
    rw [numbers_ok_cons, numbers_ok_cons]
    simp [hkey, hcolon]
  have hstop : i + 1 + 1 + v.length + 1 = i + (key :: colon :: v).length + 1 := by
    simp
    omega
  have := ih tokens (i + 1 + 1) (c :: rest) budget Ld hdrop₂ hs' hb
  rw [← hstop]
  rcases this with ⟨p, hp, hf, hn⟩ | ⟨hp, hn⟩
  · left
    refine ⟨.JSON_Object false (JSON_Object.add acc k p), ?_, hf, hno.mpr hn⟩
    simp [object_loop, CHECK_INDEX, Nat.not_le.mpr hlt, hget, hkey, hk, Nat.not_le.mpr hlt₁,
      hget₁, hcolon, Nat.not_le.mpr hlt₂, hp, Nat.not_le.mpr hlt₃, hget₃, hc]
  · right
    refine ⟨?_, by rw [hno]; exact hn⟩
    simp [object_loop, CHECK_INDEX, Nat.not_le.mpr hlt, hget, hkey, hk, Nat.not_le.mpr hlt₁,
      hget₁, hcolon, Nat.not_le.mpr hlt₂, hp]

theorem follows_members_more {D : Type} (L : StdLib D) (d₁ d₂ : Nat)
    (key colon comma : Token) (v ms : List Token)
    (hkey : key.type_ = .STRING) (hcolon : colon.type_ = .COLON)
    (h₁ : Derives .value d₁ v) (hcomma : comma.type_ = .COMMA)
    (ih₁ : Follows L .value d₁ v) (ih₂ : Follows L .members d₂ ms) :
    Follows L .members (max d₁ d₂) (key :: colon :: v ++ comma :: ms) := by
  intro tokens i c rest budget Ld lb acc hdrop hc hs hb hlb
  obtain ⟨l, rfl⟩ : ∃ l, lb = l + 1 := ⟨lb - 1, by omega⟩
  obtain ⟨tk, tl, hv, -⟩ := derives_head h₁
  have hdrop' : tokens.drop i = key :: colon :: (v ++ comma :: (ms ++ c :: rest)) := by
    simpa using hdrop
  have hget := getElem?_of_drop_cons hdrop'
  have hlt := lt_length_of_drop_cons hdrop'
  have hdrop₁ := drop_succ_of_drop_cons hdrop'
  have hget₁ := getElem?_of_drop_cons hdrop₁
  have hlt₁ := lt_length_of_drop_cons hdrop₁
  have hdrop₂ := drop_succ_of_drop_cons hdrop₁
  have hlt₂ := lt_length_of_drop_cons
    (show tokens.drop (i + 1 + 1) = tk :: (tl ++ comma :: (ms ++ c :: rest)) by
      rw [hdrop₂, hv]; rfl)
  have hdrop₃ := drop_add_of_drop_append hdrop₂
  have hget₃ := getElem?_of_drop_cons hdrop₃
  have hlt₃ := lt_length_of_drop_cons hdrop₃
  have hdrop₄ := drop_succ_of_drop_cons hdrop₃
  have hs₀ : strings_ok (key :: colon :: (v ++ comma :: ms)) := by simpa using hs
  obtain ⟨hsk, hs'⟩ := strings_ok_cons.mp hs₀
  have hs' := (strings_ok_cons.mp hs').2
  obtain ⟨hs₁, hs₂⟩ := strings_ok_append.mp hs'
  have hs₂ := (strings_ok_cons.mp hs₂).2
  obtain ⟨k, hk⟩ := Option.ne_none_iff_exists'.mp (hsk hkey)
  have hno : numbers_ok L (key :: colon :: v ++ comma :: ms)
      ↔ numbers_ok L v ∧ numbers_ok L ms := by
    rw [List.cons_append, List.cons_append, numbers_ok_cons, numbers_ok_cons,
      numbers_ok_append, numbers_ok_cons (a := comma)]
    simp [hkey, hcolon, hcomma]
  have hstop : i + 1 + 1 + v.length + 1 + ms.length + 1
      = i + (key :: colon :: v ++ comma :: ms).length + 1 := by
    simp
    omega
  have := ih₁ tokens (i + 1 + 1) (comma :: (ms ++ c :: rest)) budget Ld hdrop₂ hs₁ hb
  rw [← hstop]
  rcases this with ⟨p, hp, hf, hn⟩ | ⟨hp, hn⟩
  · have hl : tokens.length - (i + 1 + 1 + v.length + 1) < l := by omega
    have := ih₂ tokens (i + 1 + 1 + v.length + 1) c rest budget Ld l (JSON_Object.add acc k p)
      hdrop₄ hc hs₂ hb hl
    have hloop : object_loop (fun j => parse_primitive L budget tokens j Ld) tokens (l + 1) i acc
        = object_loop (fun j => parse_primitive L budget tokens j Ld) tokens l
            (i + 1 + 1 + v.length + 1) (JSON_Object.add acc k p) := by
      simp [object_loop, CHECK_INDEX, Nat.not_le.mpr hlt, hget, hkey, hk, Nat.not_le.mpr hlt₁,
        hget₁, hcolon, Nat.not_le.mpr hlt₂, hp, Nat.not_le.mpr hlt₃, hget₃, hcomma]
    rw [hloop]
    rcases this with ⟨q, hq, hf₂, hn₂⟩ | ⟨hq, hn₂⟩
    · left
      exact ⟨q, hq, fits_max.mpr ⟨hf, hf₂⟩, hno.mpr ⟨hn, hn₂⟩⟩
    · right
      refine ⟨hq, ?_⟩
      rw [fits_max, hno]
      intro hh
      exact hn₂ ⟨hh.1.2, hh.2.2⟩
  · right
    refine ⟨?_, ?_⟩
    · simp [object_loop, CHECK_INDEX, Nat.not_le.mpr hlt, hget, hkey, hk, Nat.not_le.mpr hlt₁,
        hget₁, hcolon, Nat.not_le.mpr hlt₂, hp]
    · rw [fits_max, hno]
      intro hh
      exact hn ⟨hh.1.1, hh.2.1⟩

/-- On a derivable segment the parser gives an object and stops right after the segment
when the segment fits the depth budget and every number converts, and gives `nullptr`
otherwise. -/
theorem follows_of_derives {D : Type} (L : StdLib D) {sym : Sym} {d : Nat}
    {seg : List Token} (h : Derives sym d seg) : Follows L sym d seg := by
  induction h with
  | primitive tk h => exact follows_primitive L tk h
  | empty_array o c ho hc => exact follows_empty_array L o c ho hc
  | array o c d es ho hc h ih => exact follows_array L o c d es ho hc h ih
  | empty_object o c ho hc => exact follows_empty_object L o c ho hc
  | object o c d ms ho hc h ih => exact follows_object L o c d ms ho hc h ih
  | elements_one d v h ih => exact follows_elements_one L d v h ih
  | elements_more d₁ d₂ v es comma h₁ hcomma h₂ ih₁ ih₂ =>
    exact follows_elements_more L d₁ d₂ v es comma h₁ hcomma ih₁ ih₂
  | members_one d key colon v hkey hcolon h ih =>
    exact follows_members_one L d key colon v hkey hcolon h ih
  | members_more d₁ d₂ key colon comma v ms hkey hcolon h₁ hcomma h₂ ih₁ ih₂ =>
    exact follows_members_more L d₁ d₂ key colon comma v ms hkey hcolon h₁ hcomma ih₁ ih₂

theorem is_hex_plain {c : Char} (h : is_hex c = true) :
    c ≠ '"' ∧ c ≠ '\\' ∧ ¬ c.toNat < 20 := by
  simp only [is_hex, in_range, Bool.or_eq_true, Bool.and_eq_true, decide_eq_true_eq] at h
  refine ⟨?_, ?_, ?_⟩
  · rintro rfl
    simp at h
  · rintro rfl
    simp at h
  · have e0 : '0'.toNat = 48 := rfl
    have ea : 'a'.toNat = 97 := rfl
    have eA : 'A'.toNat = 65 := rfl
    rw [e0, ea, eA] at h
    omega

theorem tokenize_string_digits (k : Nat) :
    ∀ (strm token tok rest : List Char),
      tokenize_string strm true (k + 1) token = some (tok, rest) →
      ∃ hs s, strm = hs ++ s ∧ hs.length = k + 1 ∧ (∀ h ∈ hs, is_hex h = true)
        ∧ tokenize_string s false 0 (token ++ hs) = some (tok, rest) := by
  induction k with
  | zero =>
    intro strm token tok rest h
    cases strm with
    | nil => simp [tokenize_string] at h
    | cons c s =>
      by_cases hc : is_hex c = true
      · have hc' := hc
        simp only [is_hex] at hc'
        simp only [tokenize_string, if_true, hc'] at h
        exact ⟨[c], s, rfl, rfl, by simpa using hc, by simpa using h⟩
      · have hc' := hc
        simp only [is_hex] at hc'
        simp [tokenize_string, hc'] at h
  | succ k ih =>
    intro strm token tok rest h
    cases strm with
    | nil => simp [tokenize_string] at h
    | cons c s =>
      by_cases hc : is_hex c = true
      · have hc' := hc
        simp only [is_hex] at hc'
        simp only [tokenize_string, if_true, hc'] at h
        simp only [ne_eq, Nat.add_one_ne_zero, not_false_eq_true, if_true,
          Nat.add_sub_cancel, if_false] at h
        obtain ⟨hs, s', rfl, hlen, hhex, hrest⟩ := ih s (token ++ [c]) tok rest h
        refine ⟨c :: hs, s', rfl, by simp [hlen], ?_, by simpa using hrest⟩
        intro x hx
        rcases List.mem_cons.mp hx with rfl | hx
        · exact hc
        · exact hhex x hx
      · have hc' := hc
        simp only [is_hex] at hc'
        simp [tokenize_string, hc'] at h

/-- What `tokenize_string` accepts: a body in the sense of `StringBody`, then the closing
quote; the token is extended by exactly the characters taken from the stream. -/
theorem tokenize_string_body (n : Nat) :
    ∀ (strm : List Char), strm.length ≤ n → ∀ (token tok rest : List Char),
      tokenize_string strm false 0 token = some (tok, rest) →
      ∃ body, StringBody body ∧ strm = body ++ '"' :: rest ∧ tok = token ++ body ++ ['"'] := by
  induction n with
  | zero =>
    intro strm hn token tok rest h
    have : strm = [] := List.length_eq_zero.mp (Nat.le_zero.mp hn)
    subst this
    simp [tokenize_string] at h
  | succ n ih =>
    intro strm hn token tok rest h
    cases strm with
    | nil => simp [tokenize_string] at h
    | cons c s =>
      have hs : s.length ≤ n := by simpa using hn
      simp only [tokenize_string, Bool.false_eq_true, if_false] at h
      by_cases h20 : c.toNat < 20
      · simp [h20] at h
      · simp only [h20, if_false] at h
        by_cases hq : c = '"'
        · subst hq
          simp only [if_true, Option.some.injEq, Prod.mk.injEq] at h
          exact ⟨[], StringBody.nil, by simp [h.2], by simp [← h.1]⟩
        · simp only [hq, if_false] at h
          by_cases hb : c = '\\'
          · subst hb
            simp only [if_true] at h
            cases s with
            | nil => simp [tokenize_string] at h
            | cons e s =>
              simp only [tokenize_string, if_true, ne_eq, not_true_eq_false, if_false] at h
              by_cases hu : e = 'u'
              · subst hu
                simp only [or_true, if_true] at h
                obtain ⟨hx, s', rfl, hlen, hhex, hrest⟩ :=
                  tokenize_string_digits 3 s _ tok rest h
                have hs' : s'.length ≤ n := by
                  simp at hs
                  omega
                obtain ⟨body, hbody, rfl, rfl⟩ := ih s' hs' _ tok rest hrest
                match hx, hlen, hhex with
                | [h₀, h₁, h₂, h₃], _, hhex =>
                  refine ⟨'\\' :: 'u' :: h₀ :: h₁ :: h₂ :: h₃ :: body, ?_, by simp, by simp⟩
                  exact StringBody.unicode h₀ h₁ h₂ h₃ body (hhex _ (by simp))
                    (hhex _ (by simp)) (hhex _ (by simp)) (hhex _ (by simp)) hbody
              · by_cases he : e = '"' ∨ e = '\\' ∨ e = '/' ∨ e = 'b' ∨ e = 'f' ∨ e = 'n'
                    ∨ e = 'r' ∨ e = 't'
                · simp only [hu, or_false, he, if_true, if_false] at h
                  have hs' : s.length ≤ n := by
                    simp at hs
                    omega
                  obtain ⟨body, hbody, rfl, rfl⟩ := ih s hs' _ tok rest h
                  exact ⟨'\\' :: e :: body, StringBody.escape e body he hbody, by simp,
                    by simp⟩
                · simp only [hu, or_false, he, if_false] at h
                  exact absurd h (by simp)
          · simp only [hb, if_false] at h
            obtain ⟨body, hbody, rfl, rfl⟩ := ih s hs _ tok rest h
            exact ⟨c :: body, StringBody.plain c body hq hb h20 hbody, by simp, by simp⟩

theorem string_at_append (pre body : List Char) (k : Nat) (c : Char)
    (h : body[k]? = some c) : string_at (pre ++ body) (pre.length + k) = some c := by
  have hk : k < body.length := by
    by_contra hk
    rw [List.getElem?_eq_none (Nat.le_of_not_lt hk)] at h
    exact absurd h (by simp)
  have hlt : pre.length + k < (pre ++ body).length := by
    simp
    omega
  simp only [string_at, hlt, if_true]
  rw [List.getElem?_append_right (Nat.le_add_right _ _)]
  simpa using h

/-- On the body of a scanned string literal `Token::unescape_string` stays inside the
string: every escape it meets is complete. -/
theorem unescape_loop_body {body : List Char} (hbody : StringBody body) :
    ∀ (pre result : List Char) (budget : Nat), body.length ≤ budget →
      ∃ r, unescape_loop (pre ++ body) budget pre.length result = some r := by
  induction hbody with
  | nil =>
    intro pre result budget _
    cases budget with
    | zero => exact ⟨result, rfl⟩
    | succ b => exact ⟨result, by simp [unescape_loop]⟩
  | plain c body h₁ h₂ h₃ h ih =>
    intro pre result budget hb
    obtain ⟨b, rfl⟩ : ∃ b, budget = b + 1 := ⟨budget - 1, by simp at hb; omega⟩
    have hlt : pre.length < (pre ++ c :: body).length := by simp
    have h0 := string_at_append pre (c :: body) 0 c (by simp)
    obtain ⟨r, hr⟩ := ih (pre ++ [c]) result b (by simp at hb; omega)
    refine ⟨r, ?_⟩
    rw [← hr]
    simp only [Nat.add_zero] at h0
    simp [unescape_loop, h0, h₂]
  | escape c body hc h ih =>
    intro pre result budget hb
    obtain ⟨b, rfl⟩ : ∃ b, budget = b + 1 := ⟨budget - 1, by simp at hb; omega⟩
    have h0 := string_at_append pre ('\\' :: c :: body) 0 '\\' (by simp)
    have h1 := string_at_append pre ('\\' :: c :: body) 1 c (by simp)
    have hu : c ≠ 'u' := by
      rcases hc with rfl | rfl | rfl | rfl | rfl | rfl | rfl | rfl <;> decide
    obtain ⟨r, hr⟩ := ih (pre ++ ['\\', c]) (result ++ unescape_switch c) b
      (by simp at hb; omega)
    refine ⟨r, ?_⟩
    rw [← hr]
    simp only [Nat.add_zero] at h0
    simp [unescape_loop, h0, h1, hu]
  | unicode h₀ h₁ h₂ h₃ body hh₀ hh₁ hh₂ hh₃ h ih =>
    intro pre result budget hb
    obtain ⟨b, rfl⟩ : ∃ b, budget = b + 1 + 1 := ⟨budget - 2, by simp at hb; omega⟩
    have e0 := string_at_append pre ('\\' :: 'u' :: h₀ :: h₁ :: h₂ :: h₃ :: body) 0 '\\'
      (by simp)
    have e1 := string_at_append pre ('\\' :: 'u' :: h₀ :: h₁ :: h₂ :: h₃ :: body) 1 'u'
      (by simp)
    have e2 := string_at_append pre ('\\' :: 'u' :: h₀ :: h₁ :: h₂ :: h₃ :: body) 2 h₀
      (by simp)
    have e3 := string_at_append pre ('\\' :: 'u' :: h₀ :: h₁ :: h₂ :: h₃ :: body) 3 h₁
      (by simp)
    have e4 := string_at_append pre ('\\' :: 'u' :: h₀ :: h₁ :: h₂ :: h₃ :: body) 4 h₂
      (by simp)
    have e5 := string_at_append pre ('\\' :: 'u' :: h₀ :: h₁ :: h₂ :: h₃ :: body) 5 h₃
      (by simp)
    obtain ⟨r, hr⟩ := ih (pre ++ ['\\', 'u', h₀, h₁, h₂, h₃])
      (result ++ parse_4hex_codepoint [h₀, h₁, h₂, h₃]) b (by simp at hb; omega)
    refine ⟨r, ?_⟩
    rw [← hr]
    simp only [Nat.add_zero] at e0
    have hne : h₃ ≠ '\\' := (is_hex_plain hh₃).2.1
    simp [unescape_loop, e0, e1, e2, e3, e4, e5, hne]
    intro hh
    omega

/-- A `STRING` token made by `tokenize_string` is decoded by `Token::parse_string` without a
read outside the lexeme. -/
theorem parse_string_of_tokenize_string {strm tok rest : List Char}
    (h : tokenize_string strm false 0 ['"'] = some (tok, rest)) (ty : TokenType) :
    (Token.mk ty tok).parse_string ≠ none := by
  obtain ⟨body, hbody, -, rfl⟩ := tokenize_string_body strm.length strm (Nat.le_refl _) _ _ _ h
  obtain ⟨r, hr⟩ := unescape_loop_body hbody [] [] body.length (Nat.le_refl _)
  have hb : (List.drop 1 (['"'] ++ body ++ ['"'])).take ((['"'] ++ body ++ ['"']).length - 2)
      = body := by
    simp
  simp only [Token.parse_string, hb, unescape_string]
  simp only [List.nil_append, List.length_nil] at hr
  rw [hr]
  simp

theorem get_token_string {strm rest : List Char} {tk : Token}
    (h : get_token strm = (.ok tk, rest)) (hty : tk.type_ = .STRING) :
    tk.parse_string ≠ none := by
  cases strm with
  | nil => simp [get_token] at h
  | cons c s =>
    simp only [get_token] at h
    by_cases h1 : c = '['
    · simp only [h1, if_true, Prod.mk.injEq, Except.ok.injEq] at h
      rw [← h.1] at hty
      simp at hty
    simp only [h1, if_false] at h
    by_cases h2 : c = ']'
    · simp only [h2, if_true, Prod.mk.injEq, Except.ok.injEq] at h
      rw [← h.1] at hty
      simp at hty
    simp only [h2, if_false] at h
    by_cases h3 : c = '{'
    · simp only [h3, if_true, Prod.mk.injEq, Except.ok.injEq] at h
      rw [← h.1] at hty
      simp at hty
    simp only [h3, if_false] at h
    by_cases h4 : c = '}'
    · simp only [h4, if_true, Prod.mk.injEq, Except.ok.injEq] at h
      rw [← h.1] at hty
      simp at hty
    simp only [h4, if_false] at h
    by_cases h5 : c = ':'
    · simp only [h5, if_true, Prod.mk.injEq, Except.ok.injEq] at h
      rw [← h.1] at hty
      simp at hty
    simp only [h5, if_false] at h
    by_cases h6 : c = ','
    · simp only [h6, if_true, Prod.mk.injEq, Except.ok.injEq] at h
      rw [← h.1] at hty
      simp at hty
    simp only [h6, if_false] at h
    by_cases h7 : c = '"'
    · subst h7
      simp only [if_true] at h
      cases hts : tokenize_string s false 0 ['"'] with
      | none => simp [hts] at h
      | some p =>
        obtain ⟨tok, r⟩ := p
        simp only [hts, Prod.mk.injEq, Except.ok.injEq] at h
        rw [← h.1]
        exact parse_string_of_tokenize_string hts _
    simp only [h7, if_false] at h
    by_cases h8 : c = '-' ∨ in_range '0' '9' c = true
    · simp only [h8, if_true] at h
      cases htn : tokenize_number c s with
      | none => simp [htn] at h
      | some p =>
        simp only [htn, Prod.mk.injEq, Except.ok.injEq] at h
        rw [← h.1] at hty
        simp at hty
    simp only [h8, if_false] at h
    by_cases h9 : c = 't'
    · simp only [h9, if_true] at h
      split at h
      · simp at h
      · simp only [Prod.mk.injEq, Except.ok.injEq] at h
        rw [← h.1] at hty
        simp at hty
    simp only [h9, if_false] at h
    by_cases h10 : c = 'f'
    · simp only [h10, if_true] at h
      split at h
      · simp at h
      · simp only [Prod.mk.injEq, Except.ok.injEq] at h
        rw [← h.1] at hty
        simp at hty
    simp only [h10, if_false] at h
    by_cases h11 : c = 'n'
    · simp only [h11, if_true] at h
      split at h
      · simp at h
      · simp only [Prod.mk.injEq, Except.ok.injEq] at h
        rw [← h.1] at hty
        simp at hty
    simp only [h11, if_false] at h
    split_ifs at h <;> simp at h

theorem tokenize_loop_strings_ok (budget : Nat) :
    ∀ (strm : List Char) (result out : List Token), strings_ok result →
      tokenize_loop budget strm result = .ret (some out) → strings_ok out := by
  induction budget with
  | zero =>
    intro strm result out _ h
    simp [tokenize_loop] at h
  | succ b ih =>
    intro strm result out hres h
    simp only [tokenize_loop] at h
    split at h
    · simp only [Outcome.ret.injEq, Option.some.injEq] at h
      exact h ▸ hres
    · exact ih _ _ _ hres h
    · simp at h
    · rename_i tk rest hg
      refine ih _ _ _ ?_ h
      rw [strings_ok_append]
      refine ⟨hres, ?_⟩
      intro t ht hty
      rw [List.mem_singleton] at ht
      subst ht
      exact get_token_string hg hty

/-- The `STRING` tokens that `tokenize` produces are decoded without a read outside the
lexeme. -/
theorem tokenize_strings_ok {strm : List Char} {tokens : List Token}
    (h : tokenize strm = .ret (some tokens)) : strings_ok tokens :=
  tokenize_loop_strings_ok _ strm [] tokens (by simp [strings_ok]) h

/-! ## What the parser accepts is derivable -/

theorem drop_of_getElem? {tokens : List Token} {i : Nat} {tk : Token}
    (h : tokens[i]? = some tk) : tokens.drop i = tk :: tokens.drop (i + 1) := by
  obtain ⟨hi, rfl⟩ := List.getElem?_eq_some.mp h
  exact List.drop_eq_getElem_cons hi

theorem array_loop_sound {D : Type} (element : Nat → Parsed D) (tokens : List Token)
    (Ld : Int)
    (helem : ∀ i p j, element i = .ret (some (p, j)) → Consumed tokens .value none Ld i j) :
    ∀ (lb i : Nat) (acc : List (JSON_Primitive D)) (p : JSON_Primitive D) (j : Nat),
      array_loop element tokens lb i acc = .ret (some (p, j)) →
      Consumed tokens .elements (some .ARRAY_CLOSE) Ld i j := by
  intro lb
  induction lb with
  | zero =>
    intro i acc p j h
    simp [array_loop] at h
  | succ l ih =>
    intro i acc p j h
    simp only [array_loop] at h
    split_ifs at h with h₁
    · simp at h
    split at h
    · rename_i e i' he
      obtain ⟨seg, d, hder, hfit, hdrop⟩ := helem i e i' he
      simp only at hdrop
      split_ifs at h with h₂
      · simp at h
      split at h
      · simp at h
      · rename_i tk hget
        have hd := drop_of_getElem? hget
        split_ifs at h with h₃ h₄
        · obtain ⟨seg₂, d₂, hder₂, hfit₂, c, hc, hdrop₂⟩ := ih _ _ _ _ h
          refine ⟨seg ++ tk :: seg₂, max d d₂,
            Derives.elements_more d d₂ seg seg₂ tk hder h₃ hder₂,
            fits_max.mpr ⟨hfit, hfit₂⟩, c, hc, ?_⟩
          rw [hdrop, hd, hdrop₂]
          simp
        · simp only [Outcome.ret.injEq, Option.some.injEq, Prod.mk.injEq] at h
          refine ⟨seg, d, Derives.elements_one d seg hder, hfit, tk, h₄, ?_⟩
          rw [hdrop, hd, h.2]
        · simp at h
    · simp at h
    · simp at h
    · simp at h

theorem object_loop_sound {D : Type} (element : Nat → Parsed D) (tokens : List Token)
    (Ld : Int)
    (helem : ∀ i p j, element i = .ret (some (p, j)) → Consumed tokens .value none Ld i j) :
    ∀ (lb i : Nat) (acc : List (List Char × JSON_Primitive D)) (p : JSON_Primitive D)
      (j : Nat), object_loop element tokens lb i acc = .ret (some (p, j)) →
      Consumed tokens .members (some .OBJ_CLOSE) Ld i j := by
  intro lb
  induction lb with
  | zero =>
    intro i acc p j h
    simp [object_loop] at h
  | succ l ih =>
    intro i acc p j h
    simp only [object_loop] at h
    split at h
    · simp at h
    split at h
    · simp at h
    rename_i key hkey
    have hdk := drop_of_getElem? hkey
    split at h
    · simp at h
    rename_i hks
    split at h
    · simp at h
    split at h
    · simp at h
    split at h
    · simp at h
    rename_i colon hcolon
    have hdc := drop_of_getElem? hcolon
    split at h
    · simp at h
    rename_i hcs
    split at h
    · simp at h
    split at h
    · rename_i e i' he
      obtain ⟨seg, d, hder, hfit, hdrop⟩ := helem _ e i' he
      simp only at hdrop
      split at h
      · simp at h
      split at h
      · simp at h
      rename_i tk hget
      have hd := drop_of_getElem? hget
      have hks' : key.type_ = .STRING := by simpa using hks
      have hcs' : colon.type_ = .COLON := by simpa using hcs
      split at h
      · rename_i h₅
        obtain ⟨seg₂, d₂, hder₂, hfit₂, c, hc, hdrop₂⟩ := ih _ _ _ _ h
        refine ⟨key :: colon :: seg ++ tk :: seg₂, max d d₂,
          Derives.members_more d d₂ key colon tk seg seg₂ hks' hcs' hder h₅ hder₂,
          fits_max.mpr ⟨hfit, hfit₂⟩, c, hc, ?_⟩
        rw [hdk, hdc, hdrop, hd, hdrop₂]
        simp
      split at h
      · rename_i h₆
        simp only [Outcome.ret.injEq, Option.some.injEq, Prod.mk.injEq] at h
        refine ⟨key :: colon :: seg, d,
          Derives.members_one d key colon seg hks' hcs' hder, hfit, tk, h₆, ?_⟩
        rw [hdk, hdc, hdrop, hd, h.2]
        simp
      · simp at h
    · simp at h
    · simp at h
    · simp at h

/-- Whatever `parse_primitive` accepts is a value of the grammar that fits the depth
budget, for every `limited_depth` but `INT_MIN`. -/
theorem parse_primitive_sound {D : Type} (L : StdLib D) (budget : Nat) :
    ∀ (tokens : List Token) (i : Nat) (Ld : Int) (p : JSON_Primitive D) (j : Nat),
      parse_primitive L budget tokens i Ld = .ret (some (p, j)) → Ld ≠ -2147483648 →
      Consumed tokens .value none Ld i j := by
  induction budget with
  | zero =>
    intro tokens i Ld p j h _
    simp [parse_primitive] at h
  | succ b ih =>
    intro tokens i Ld p j h hLd
    simp only [parse_primitive, int_pred_eq hLd] at h
    split at h
    · simp at h
    split at h
    · simp at h
    rename_i tk hget
    have hd := drop_of_getElem? hget
    have hprim : ∀ (q : JSON_Primitive D),
        (tk.type_ = .TRUE ∨ tk.type_ = .FALSE ∨ tk.type_ = .NUMBER ∨ tk.type_ = .STRING
          ∨ tk.type_ = .NULL_OBJ) →
        (Outcome.ret (some (q, i + 1)) : Parsed D) = .ret (some (p, j)) →
        Consumed tokens .value none Ld i j := by
      intro q hty hq
      simp only [Outcome.ret.injEq, Option.some.injEq, Prod.mk.injEq] at hq
      refine ⟨[tk], 0, Derives.primitive tk hty, Or.inl rfl, ?_⟩
      simp only
      rw [hd, hq.2]
      rfl
    split at h
    · rename_i hty
      exact hprim _ (by tauto) h
    split at h
    · rename_i hty
      split at h
      · simp at h
      · exact hprim _ (by tauto) h
    split at h
    · rename_i hty
      split at h
      · simp at h
      · exact hprim _ (by tauto) h
    split at h
    · rename_i hty
      exact hprim _ (by tauto) h
    split at h
    · rename_i hty
      simp only [parse_array] at h
      split at h
      · simp at h
      rename_i hL
      split at h
      · simp at h
      rename_i tk₁ hget₁
      have hd₁ := drop_of_getElem? hget₁
      split at h
      · rename_i hty₁
        simp only [Outcome.ret.injEq, Option.some.injEq, Prod.mk.injEq] at h
        refine ⟨[tk, tk₁], 1, Derives.empty_array tk tk₁ hty hty₁, Or.inr (by omega), ?_⟩
        simp only
        rw [hd, hd₁, h.2]
        rfl
      · obtain ⟨seg, d, hder, hfit, c, hc, hdrop⟩ :=
          array_loop_sound _ tokens (Ld - 1) (fun i p j hp => ih tokens i (Ld - 1) p j hp (by omega))
            _ _ _ _ _ h
        refine ⟨tk :: seg ++ [c], d + 1, Derives.array tk c d seg hty hc hder, ?_, ?_⟩
        · simp only [fits] at hfit ⊢
          omega
        · simp only
          rw [hd, hdrop]
          simp
    split at h
    · rename_i hty
      simp only [parse_object] at h
      split at h
      · simp at h
      rename_i hL
      split at h
      · simp at h
      rename_i tk₁ hget₁
      have hd₁ := drop_of_getElem? hget₁
      split at h
      · rename_i hty₁
        simp only [Outcome.ret.injEq, Option.some.injEq, Prod.mk.injEq] at h
        refine ⟨[tk, tk₁], 1, Derives.empty_object tk tk₁ hty hty₁, Or.inr (by omega), ?_⟩
        simp only
        rw [hd, hd₁, h.2]
        rfl
      · obtain ⟨seg, d, hder, hfit, c, hc, hdrop⟩ :=
          object_loop_sound _ tokens (Ld - 1) (fun i p j hp => ih tokens i (Ld - 1) p j hp (by omega))
            _ _ _ _ _ h
        refine ⟨tk :: seg ++ [c], d + 1, Derives.object tk c d seg hty hc hder, ?_, ?_⟩
        · simp only [fits] at hfit ⊢
          omega
        · simp only
          rw [hd, hdrop]
          simp
    · simp at h

end json

namespace json

/-! ## The number scanner against the number grammar -/

theorem digits_nil : Digits [] := by
  simp [Digits]

theorem digits_cons {c : Char} {ds : List Char} :
    Digits (c :: ds) ↔ in_range '0' '9' c = true ∧ Digits ds := by
  simp [Digits]

theorem number_exponent_digits_sound :
    ∀ (strm token tok rest : List Char), number_exponent_digits strm token = (tok, rest) →
      ∃ ds, Digits ds ∧ strm = ds ++ rest ∧ tok = token ++ ds := by
  intro strm
  induction strm with
  | nil =>
    intro token tok rest h
    simp only [number_exponent_digits, Prod.mk.injEq] at h
    exact ⟨[], digits_nil, by simp [← h.2], by simp [← h.1]⟩
  | cons c s ih =>
    intro token tok rest h
    simp only [number_exponent_digits] at h
    split at h
    · rename_i hc
      obtain ⟨ds, hds, rfl, rfl⟩ := ih _ _ _ h
      exact ⟨c :: ds, digits_cons.mpr ⟨hc, hds⟩, by simp, by simp⟩
    · simp only [Prod.mk.injEq] at h
      exact ⟨[], digits_nil, by simp [← h.2], by simp [← h.1]⟩

theorem number_end_nil : number_end [] := by
  intro c tl h
  simp at h

theorem number_exponent_digits_complete :
    ∀ (ds token rest : List Char), Digits ds → number_end rest →
      number_exponent_digits (ds ++ rest) token = (token ++ ds, rest) := by
  intro ds
  induction ds with
  | nil =>
    intro token rest _ hr
    cases rest with
    | nil => simp [number_exponent_digits]
    | cons c tl => simp [number_exponent_digits, (hr c tl rfl).1]
  | cons c s ih =>
    intro token rest h hr
    obtain ⟨hc, hs⟩ := digits_cons.mp h
    simp [number_exponent_digits, hc, ih _ _ hs hr]

theorem number_exponent_sound {strm token tok rest : List Char}
    (h : number_exponent strm token = some (tok, rest)) :
    ∃ sg c ds, (sg = [] ∨ sg = ['+'] ∨ sg = ['-']) ∧ Digits (c :: ds)
      ∧ strm = sg ++ c :: ds ++ rest ∧ tok = token ++ (sg ++ c :: ds) := by
  cases strm with
  | nil => simp [number_exponent] at h
  | cons c s =>
    simp only [number_exponent] at h
    split at h
    · rename_i hsg
      cases s with
      | nil => simp at h
      | cons c₂ s =>
        simp only at h
        split at h
        · rename_i hc₂
          simp only [Option.some.injEq] at h
          obtain ⟨ds, hds, rfl, rfl⟩ := number_exponent_digits_sound _ _ _ _ h
          refine ⟨[c], c₂, ds, ?_, digits_cons.mpr ⟨hc₂, hds⟩, by simp, by simp⟩
          rcases hsg with rfl | rfl <;> simp
        · simp at h
    · split at h
      · rename_i hc
        simp only [Option.some.injEq] at h
        obtain ⟨ds, hds, rfl, rfl⟩ := number_exponent_digits_sound _ _ _ _ h
        exact ⟨[], c, ds, Or.inl rfl, digits_cons.mpr ⟨hc, hds⟩, by simp, by simp⟩
      · simp at h

theorem number_exponent_complete {sg ds : List Char} {c : Char} (token rest : List Char)
    (hsg : sg = [] ∨ sg = ['+'] ∨ sg = ['-']) (hds : Digits (c :: ds))
    (hr : number_end rest) :
    number_exponent (sg ++ c :: ds ++ rest) token = some (token ++ (sg ++ c :: ds), rest) := by
  obtain ⟨hc, hds⟩ := digits_cons.mp hds
  rcases hsg with rfl | rfl | rfl
  · have h₁ : ¬ (c = '+' ∨ c = '-') := by
      rintro (rfl | rfl) <;> simp [in_range] at hc
    simp [number_exponent, h₁, hc, number_exponent_digits_complete _ _ _ hds hr]
  · simp [number_exponent, hc, number_exponent_digits_complete _ _ _ hds hr]
  · simp [number_exponent, hc, number_exponent_digits_complete _ _ _ hds hr]

theorem exp_part_of_exponent {e : Char} {sg ds : List Char} {c : Char}
    (he : e = 'E' ∨ e = 'e') (hsg : sg = [] ∨ sg = ['+'] ∨ sg = ['-'])
    (hds : Digits (c :: ds)) : ExpPart (e :: (sg ++ c :: ds)) :=
  Or.inr ⟨e, sg, c, ds, rfl, he.symm, hsg, hds⟩

theorem number_fraction_digits_sound :
    ∀ (strm token tok rest : List Char),
      number_fraction_digits strm token = some (tok, rest) →
      ∃ ds x, Digits ds ∧ ExpPart x ∧ strm = ds ++ x ++ rest ∧ tok = token ++ (ds ++ x) := by
  intro strm
  induction strm with
  | nil =>
    intro token tok rest h
    simp only [number_fraction_digits, Option.some.injEq, Prod.mk.injEq] at h
    exact ⟨[], [], digits_nil, Or.inl rfl, by simp [← h.2], by simp [← h.1]⟩
  | cons c s ih =>
    intro token tok rest h
    simp only [number_fraction_digits] at h
    split at h
    · rename_i hc
      obtain ⟨ds, x, hds, hx, rfl, rfl⟩ := ih _ _ _ h
      exact ⟨c :: ds, x, digits_cons.mpr ⟨hc, hds⟩, hx, by simp, by simp⟩
    · split at h
      · rename_i he
        obtain ⟨sg, c₂, ds, hsg, hds, rfl, rfl⟩ := number_exponent_sound h
        exact ⟨[], c :: (sg ++ c₂ :: ds), digits_nil, exp_part_of_exponent he hsg hds,
          by simp, by simp⟩
      · simp only [Option.some.injEq, Prod.mk.injEq] at h
        exact ⟨[], [], digits_nil, Or.inl rfl, by simp [← h.2], by simp [← h.1]⟩

theorem number_fraction_digits_complete :
    ∀ (ds x token rest : List Char), Digits ds → ExpPart x → number_end rest →
      number_fraction_digits (ds ++ x ++ rest) token = some (token ++ (ds ++ x), rest) := by
  intro ds
  induction ds with
  | nil =>
    intro x token rest _ hx hr
    rcases hx with rfl | ⟨e, sg, c, ds, rfl, he, hsg, hds⟩
    · cases rest with
      | nil => simp [number_fraction_digits]
      | cons c tl =>
        obtain ⟨h₁, -, h₃, h₄⟩ := hr c tl rfl
        simp [number_fraction_digits, h₁, h₃, h₄]
    · have h₁ : in_range '0' '9' e = false := by
        rcases he with rfl | rfl <;> rfl
      have h₂ : e = 'E' ∨ e = 'e' := he.symm
      have := number_exponent_complete (token ++ [e]) rest hsg hds hr
      simp only [List.nil_append, List.cons_append, List.append_assoc, number_fraction_digits,
        h₁, Bool.false_eq_true, if_false, h₂, if_true] at this ⊢
      simpa using this
  | cons c s ih =>
    intro x token rest h hx hr
    obtain ⟨hc, hs⟩ := digits_cons.mp h
    have := ih x (token ++ [c]) rest hs hx hr
    simpa [number_fraction_digits, hc] using this

theorem number_fraction_sound {strm token tok rest : List Char}
    (h : number_fraction strm token = some (tok, rest)) :
    ∃ c ds x, Digits (c :: ds) ∧ ExpPart x ∧ strm = c :: ds ++ x ++ rest
      ∧ tok = token ++ (c :: ds ++ x) := by
  cases strm with
  | nil => simp [number_fraction] at h
  | cons c s =>
    simp only [number_fraction] at h
    split at h
    · rename_i hc
      obtain ⟨ds, x, hds, hx, rfl, rfl⟩ := number_fraction_digits_sound _ _ _ _ h
      exact ⟨c, ds, x, digits_cons.mpr ⟨hc, hds⟩, hx, by simp, by simp⟩
    · simp at h

theorem number_fraction_complete {ds x : List Char} {c : Char} (token rest : List Char)
    (hds : Digits (c :: ds)) (hx : ExpPart x) (hr : number_end rest) :
    number_fraction (c :: ds ++ x ++ rest) token = some (token ++ (c :: ds ++ x), rest) := by
  obtain ⟨hc, hds⟩ := digits_cons.mp hds
  have := number_fraction_digits_complete ds x (token ++ [c]) rest hds hx hr
  simpa [number_fraction, hc] using this

end json

namespace json

theorem frac_part_of_fraction {c : Char} {ds : List Char} (hds : Digits (c :: ds)) :
    FracPart ('.' :: c :: ds) :=
  Or.inr ⟨c, ds, rfl, hds⟩

/-- What follows the integer part, scanned from a state in which no further integer digit
is taken: an optional fraction and an optional exponent. -/
theorem number_tail_sound {c : Char} {s token tok rest : List Char}
    (h : (if c = '.' then number_fraction s (token ++ [c])
          else if c = 'E' ∨ c = 'e' then number_exponent s (token ++ [c])
          else some (token, c :: s)) = some (tok, rest)) :
    ∃ f x, FracPart f ∧ ExpPart x ∧ c :: s = f ++ x ++ rest ∧ tok = token ++ (f ++ x) := by
  split at h
  · rename_i hc
    subst hc
    obtain ⟨c₂, ds, x, hds, hx, rfl, rfl⟩ := number_fraction_sound h
    exact ⟨'.' :: c₂ :: ds, x, frac_part_of_fraction hds, hx, by simp, by simp⟩
  · split at h
    · rename_i he
      obtain ⟨sg, c₂, ds, hsg, hds, rfl, rfl⟩ := number_exponent_sound h
      exact ⟨[], c :: (sg ++ c₂ :: ds), Or.inl rfl, exp_part_of_exponent he hsg hds,
        by simp, by simp⟩
    · simp only [Option.some.injEq, Prod.mk.injEq] at h
      exact ⟨[], [], Or.inl rfl, Or.inl rfl, by simp [← h.2], by simp [← h.1]⟩

theorem number_integer_sound :
    ∀ (strm token tok rest : List Char), number_integer strm token = some (tok, rest) →
      ∃ ds f x, Digits ds ∧ FracPart f ∧ ExpPart x ∧ strm = ds ++ f ++ x ++ rest
        ∧ tok = token ++ (ds ++ f ++ x) := by
  intro strm
  induction strm with
  | nil =>
    intro token tok rest h
    simp only [number_integer, Option.some.injEq, Prod.mk.injEq] at h
    exact ⟨[], [], [], digits_nil, Or.inl rfl, Or.inl rfl, by simp [← h.2], by simp [← h.1]⟩
  | cons c s ih =>
    intro token tok rest h
    simp only [number_integer] at h
    split at h
    · rename_i hc
      obtain ⟨ds, f, x, hds, hf, hx, rfl, rfl⟩ := ih _ _ _ h
      exact ⟨c :: ds, f, x, digits_cons.mpr ⟨hc, hds⟩, hf, hx, by simp, by simp⟩
    · obtain ⟨f, x, hf, hx, hs, rfl⟩ := number_tail_sound h
      exact ⟨[], f, x, digits_nil, hf, hx, by simpa using hs, by simp⟩

theorem number_tail_complete {f x : List Char} (token rest : List Char) (hf : FracPart f)
    (hx : ExpPart x) (hr : number_end rest) :
    (match f ++ x ++ rest with
      | [] => some (token, ([] : List Char))
      | c :: s =>
        if c = '.' then number_fraction s (token ++ [c])
        else if c = 'E' ∨ c = 'e' then number_exponent s (token ++ [c])
        else some (token, c :: s)) = some (token ++ (f ++ x), rest) := by
  rcases hf with rfl | ⟨c, ds, rfl, hds⟩
  · rcases hx with rfl | ⟨e, sg, c, ds, rfl, he, hsg, hds⟩
    · cases rest with
      | nil => simp
      | cons c tl =>
        obtain ⟨-, h₂, h₃, h₄⟩ := hr c tl rfl
        simp [h₂, h₃, h₄]
    · have h₁ : e ≠ '.' := by
        rcases he with rfl | rfl <;> decide
      have h₂ : e = 'E' ∨ e = 'e' := he.symm
      have := number_exponent_complete (token ++ [e]) rest hsg hds hr
      simp only [List.nil_append, List.cons_append, List.append_assoc, h₁, if_false, h₂,
        if_true] at this ⊢
      simpa using this
  · have := number_fraction_complete (token ++ ['.']) rest hds hx hr
    simp only [List.cons_append, if_true]
    simpa using this

theorem number_integer_complete :
    ∀ (ds f x token rest : List Char), Digits ds → FracPart f → ExpPart x →
      number_end rest →
      number_integer (ds ++ f ++ x ++ rest) token = some (token ++ (ds ++ f ++ x), rest) := by
  intro ds
  induction ds with
  | nil =>
    intro f x token rest _ hf hx hr
    have := number_tail_complete token rest hf hx hr
    have hnd : ∀ c s, f ++ x ++ rest = c :: s → in_range '0' '9' c = false := by
      intro c s hcs
      rcases hf with rfl | ⟨c₁, ds, rfl, -⟩
      · rcases hx with rfl | ⟨e, sg, c₂, ds, rfl, he, -, -⟩
        · exact (hr c s (by simpa using hcs)).1
        · simp only [List.nil_append, List.cons_append, List.cons.injEq] at hcs
          rw [← hcs.1]
          rcases he with rfl | rfl <;> rfl
      · simp only [List.cons_append, List.cons.injEq] at hcs
        rw [← hcs.1]
        rfl
    simp only [List.nil_append]
    cases hfx : f ++ x ++ rest with
    | nil =>
      rw [hfx] at this
      simp only [number_integer]
      exact this
    | cons c s =>
      rw [hfx] at this
      simp only [number_integer, hnd c s hfx, Bool.false_eq_true, if_false]
      exact this
  | cons c s ih =>
    intro f x token rest h hf hx hr
    obtain ⟨hc, hs⟩ := digits_cons.mp h
    have := ih f x (token ++ [c]) rest hs hf hx hr
    simpa [number_integer, hc] using this

theorem in_range_one_nine {c : Char} (h : in_range '1' '9' c = true) :
    c ≠ '0' ∧ c ≠ '-' ∧ in_range '0' '9' c = true := by
  simp only [in_range, Bool.and_eq_true, decide_eq_true_eq] at h ⊢
  have e1 : '1'.toNat = 49 := rfl
  have e0 : '0'.toNat = 48 := rfl
  rw [e1] at h
  rw [e0]
  refine ⟨?_, ?_, by omega, h.2⟩
  · rintro rfl
    simp at h
  · rintro rfl
    simp at h

theorem number_after_first_sound {first_num : Char} {strm token tok rest : List Char}
    (hfirst : in_range '0' '9' first_num = true)
    (h : number_after_first first_num strm token = some (tok, rest)) :
    ∃ int f x, IntPart (first_num :: int) ∧ FracPart f ∧ ExpPart x
      ∧ strm = int ++ f ++ x ++ rest ∧ tok = token ++ (int ++ f ++ x) := by
  simp only [number_after_first] at h
  split at h
  · rename_i h0
    subst h0
    cases strm with
    | nil =>
      simp only [Option.some.injEq, Prod.mk.injEq] at h
      exact ⟨[], [], [], Or.inl rfl, Or.inl rfl, Or.inl rfl, by simp [← h.2], by simp [← h.1]⟩
    | cons c s =>
      simp only at h
      obtain ⟨f, x, hf, hx, hs, rfl⟩ := number_tail_sound h
      exact ⟨[], f, x, Or.inl rfl, hf, hx, by simpa using hs, by simp⟩
  · split at h
    · simp at h
    · rename_i h19
      obtain ⟨ds, f, x, hds, hf, hx, rfl, rfl⟩ := number_integer_sound _ _ _ _ h
      refine ⟨ds, f, x, Or.inr ⟨first_num, ds, rfl, by simpa using h19, hds⟩, hf, hx, rfl, rfl⟩

theorem number_after_first_complete {first_num : Char} {int f x : List Char}
    (token rest : List Char) (hint : IntPart (first_num :: int)) (hf : FracPart f)
    (hx : ExpPart x) (hr : number_end rest) :
    number_after_first first_num (int ++ f ++ x ++ rest) token
      = some (token ++ (int ++ f ++ x), rest) := by
  rcases hint with h0 | ⟨c, ds, hcd, h19, hds⟩
  · simp only [List.cons.injEq] at h0
    obtain ⟨rfl, rfl⟩ := h0
    have := number_tail_complete token rest hf hx hr
    simp only [number_after_first, if_true, List.nil_append]
    cases hfx : f ++ x ++ rest with
    | nil =>
      rw [hfx] at this
      exact this
    | cons c s =>
      rw [hfx] at this
      exact this
  · simp only [List.cons.injEq] at hcd
    obtain ⟨rfl, rfl⟩ := hcd
    have h₁ := in_range_one_nine h19
    have := number_integer_complete int f x token rest hds hf hx hr
    simpa [number_after_first, h₁.1, h19] using this

/-- `tokenize_number` takes from the stream exactly a number of the grammar. -/
theorem tokenize_number_sound {c : Char} {strm tok rest : List Char}
    (hc : c = '-' ∨ in_range '0' '9' c = true)
    (h : tokenize_number c strm = some (tok, rest)) :
    c :: strm = tok ++ rest ∧ JsonNumber tok := by
  simp only [tokenize_number] at h
  split at h
  · rename_i hm
    subst hm
    cases strm with
    | nil => simp at h
    | cons first_num s =>
      simp only at h
      split at h
      · rename_i hfirst
        obtain ⟨int, f, x, hint, hf, hx, rfl, rfl⟩ := number_after_first_sound hfirst h
        exact ⟨by simp, ['-'], first_num :: int, f, x, by simp, Or.inr rfl, hint, hf, hx⟩
      · simp at h
  · rename_i hm
    have hd : in_range '0' '9' c = true := hc.resolve_left hm
    obtain ⟨int, f, x, hint, hf, hx, rfl, rfl⟩ := number_after_first_sound hd h
    exact ⟨by simp, [], c :: int, f, x, by simp, Or.inl rfl, hint, hf, hx⟩

theorem int_part_head {c : Char} {int : List Char} (h : IntPart (c :: int)) :
    c ≠ '-' ∧ in_range '0' '9' c = true := by
  rcases h with h0 | ⟨c', ds, hcd, h19, -⟩
  · simp only [List.cons.injEq] at h0
    rw [h0.1]
    exact ⟨by decide, rfl⟩
  · simp only [List.cons.injEq] at hcd
    rw [hcd.1]
    exact ⟨(in_range_one_nine h19).2.1, (in_range_one_nine h19).2.2⟩

theorem int_part_ne_nil {int : List Char} (h : IntPart int) : ∃ c tl, int = c :: tl := by
  rcases h with rfl | ⟨c, ds, rfl, -, -⟩
  · exact ⟨_, _, rfl⟩
  · exact ⟨_, _, rfl⟩

/-- On a number of the grammar followed by `rest`, where the scanner stops a number,
`tokenize_number` takes exactly the number. -/
theorem tokenize_number_complete {c : Char} {strm : List Char} (rest : List Char)
    (h : JsonNumber (c :: strm)) (hr : number_end rest) :
    (c = '-' ∨ in_range '0' '9' c = true)
      ∧ tokenize_number c (strm ++ rest) = some (c :: strm, rest) := by
  obtain ⟨sign, int, f, x, hs, hsign, hint, hf, hx⟩ := h
  obtain ⟨i₀, itl, rfl⟩ := int_part_ne_nil hint
  rcases hsign with rfl | rfl
  · simp only [List.nil_append, List.cons_append, List.cons.injEq] at hs
    obtain ⟨rfl, rfl⟩ := hs
    have hh := int_part_head hint
    refine ⟨Or.inr hh.2, ?_⟩
    have := number_after_first_complete [c] rest hint hf hx hr
    simp only [tokenize_number, hh.1, if_false]
    simpa using this
  · simp only [List.cons_append, List.nil_append, List.cons.injEq] at hs
    obtain ⟨rfl, rfl⟩ := hs
    have hh := int_part_head hint
    refine ⟨Or.inl rfl, ?_⟩
    have := number_after_first_complete ['-', i₀] rest hint hf hx hr
    simp only [tokenize_number, if_true]
    simpa [hh.2] using this

end json

namespace json

/-! ## What one call of `get_token` takes from the stream -/

theorem check_token_eq :
    ∀ (expected strm rest : List Char), check_token strm expected = some rest →
      strm = expected ++ rest := by
  intro expected
  induction expected with
  | nil =>
    intro strm rest h
    cases strm <;> simp [check_token] at h <;> simp [h]
  | cons e es ih =>
    intro strm rest h
    cases strm with
    | nil => simp [check_token] at h
    | cons c s =>
      simp only [check_token] at h
      split at h
      · simp at h
      · rename_i hce
        have hce' : c = e := by simpa using hce
        rw [hce', ih s rest h]
        rfl

theorem skip_space_length : ∀ (strm : List Char), (skip_space strm).length ≤ strm.length := by
  intro strm
  induction strm with
  | nil => simp [skip_space]
  | cons c s ih =>
    simp only [skip_space]
    split
    · exact Nat.le_refl _
    · simp only [List.length_cons]
      omega

/-- The three ways in which `get_token` returns a token: a string literal scanned by
`tokenize_string`, a number scanned by `tokenize_number`, or a structural character or
keyword, whose lexeme is the text taken from the stream. -/
theorem get_token_ok {strm rest : List Char} {tk : Token}
    (h : get_token strm = (.ok tk, rest)) :
    (tk.type_ = .STRING ∧ ∃ s, strm = '"' :: s
        ∧ tokenize_string s false 0 ['"'] = some (tk.token_, rest))
    ∨ (tk.type_ = .NUMBER ∧ ∃ c s, strm = c :: s ∧ (c = '-' ∨ in_range '0' '9' c = true)
        ∧ tokenize_number c s = some (tk.token_, rest))
    ∨ (tk.type_ ≠ .STRING ∧ tk.type_ ≠ .NUMBER ∧ strm = tk.token_ ++ rest
        ∧ tk.token_ ≠ []) := by
  cases strm with
  | nil => simp [get_token] at h
  | cons c s =>
    simp only [get_token] at h
    have single : ∀ (ty : TokenType), ty ≠ .STRING → ty ≠ .NUMBER →
        ((Except.ok ⟨ty, [c]⟩ : Except Error Token), s) = (.ok tk, rest) →
        (tk.type_ ≠ .STRING ∧ tk.type_ ≠ .NUMBER ∧ c :: s = tk.token_ ++ rest
          ∧ tk.token_ ≠ []) := by
      intro ty h₁ h₂ he
      simp only [Prod.mk.injEq, Except.ok.injEq] at he
      rw [← he.1, ← he.2]
      exact ⟨h₁, h₂, rfl, by simp⟩
    have keyword : ∀ (ty : TokenType) (kw : List Char), ty ≠ .STRING → ty ≠ .NUMBER →
        kw ≠ [] →
        (match check_token (c :: s) kw with
          | none => ((Except.error Error.SYNTAX : Except Error Token), ([] : List Char))
          | some strm => (.ok ⟨ty, kw⟩, strm)) = (.ok tk, rest) →
        (tk.type_ ≠ .STRING ∧ tk.type_ ≠ .NUMBER ∧ c :: s = tk.token_ ++ rest
          ∧ tk.token_ ≠ []) := by
      intro ty kw h₁ h₂ h₃ he
      split at he
      · simp at he
      · rename_i strm' hck
        simp only [Prod.mk.injEq, Except.ok.injEq] at he
        rw [← he.1, ← he.2]
        exact ⟨h₁, h₂, check_token_eq _ _ _ hck, h₃⟩
    by_cases h1 : c = '['
    · simp only [h1, if_true] at h
      exact Or.inr (Or.inr (h1 ▸ single _ (by decide) (by decide) (h1 ▸ h)))
    simp only [h1, if_false] at h
    by_cases h2 : c = ']'
    · simp only [h2, if_true] at h
      exact Or.inr (Or.inr (h2 ▸ single _ (by decide) (by decide) (h2 ▸ h)))
    simp only [h2, if_false] at h
    by_cases h3 : c = '{'
    · simp only [h3, if_true] at h
      exact Or.inr (Or.inr (h3 ▸ single _ (by decide) (by decide) (h3 ▸ h)))
    simp only [h3, if_false] at h
    by_cases h4 : c = '}'
    · simp only [h4, if_true] at h
      exact Or.inr (Or.inr (h4 ▸ single _ (by decide) (by decide) (h4 ▸ h)))
    simp only [h4, if_false] at h
    by_cases h5 : c = ':'
    · simp only [h5, if_true] at h
      exact Or.inr (Or.inr (h5 ▸ single _ (by decide) (by decide) (h5 ▸ h)))
    simp only [h5, if_false] at h
    by_cases h6 : c = ','
    · simp only [h6, if_true] at h
      exact Or.inr (Or.inr (h6 ▸ single _ (by decide) (by decide) (h6 ▸ h)))
    simp only [h6, if_false] at h
    by_cases h7 : c = '"'
    · subst h7
      simp only [if_true] at h
      cases hts : tokenize_string s false 0 ['"'] with
      | none => simp [hts] at h
      | some p =>
        obtain ⟨tok, r⟩ := p
        simp only [hts, Prod.mk.injEq, Except.ok.injEq] at h
        left
        rw [← h.1, ← h.2]
        exact ⟨rfl, s, rfl, hts⟩
    simp only [h7, if_false] at h
    by_cases h8 : c = '-' ∨ in_range '0' '9' c = true
    · simp only [h8, if_true] at h
      cases htn : tokenize_number c s with
      | none => simp [htn] at h
      | some p =>
        obtain ⟨tok, r⟩ := p
        simp only [htn, Prod.mk.injEq, Except.ok.injEq] at h
        right; left
        rw [← h.1, ← h.2]
        exact ⟨rfl, c, s, rfl, h8, htn⟩
    simp only [h8, if_false] at h
    by_cases h9 : c = 't'
    · rw [if_pos h9] at h
      exact Or.inr (Or.inr (keyword .TRUE ['t', 'r', 'u', 'e'] (by decide) (by decide) (by simp) h))
    simp only [h9, if_false] at h
    by_cases h10 : c = 'f'
    · rw [if_pos h10] at h
      exact Or.inr (Or.inr (keyword .FALSE ['f', 'a', 'l', 's', 'e'] (by decide) (by decide) (by simp) h))
    simp only [h10, if_false] at h
    by_cases h11 : c = 'n'
    · rw [if_pos h11] at h
      exact Or.inr (Or.inr (keyword .NULL_OBJ ['n', 'u', 'l', 'l'] (by decide) (by decide) (by simp) h))
    simp only [h11, if_false] at h
    split_ifs at h <;> simp at h

/-- A token's lexeme is the text that `get_token` took from the stream, and it is not
empty. -/
theorem get_token_consumes {strm rest : List Char} {tk : Token}
    (h : get_token strm = (.ok tk, rest)) : strm = tk.token_ ++ rest ∧ tk.token_ ≠ [] := by
  rcases get_token_ok h with ⟨-, s, rfl, hts⟩ | ⟨-, c, s, rfl, hc, htn⟩ | ⟨-, -, h₁, h₂⟩
  · obtain ⟨body, -, rfl, htok⟩ := tokenize_string_body s.length s (Nat.le_refl _) _ _ _ hts
    rw [htok]
    exact ⟨by simp, by simp⟩
  · obtain ⟨h₁, -⟩ := tokenize_number_sound hc htn
    refine ⟨h₁, ?_⟩
    rintro h0
    rw [h0] at h₁
    simp only [List.nil_append] at h₁
    have := tokenize_number_sound hc htn
    obtain ⟨sign, int, f, x, hs, -, hint, -, -⟩ := this.2
    obtain ⟨i₀, itl, rfl⟩ := int_part_ne_nil hint
    rw [h0] at hs
    cases sign <;> simp at hs
  · exact ⟨h₁, h₂⟩

/-- After white space `get_token` leaves a shorter stream. -/
theorem get_token_nil {strm rest : List Char}
    (h : get_token strm = (.error .NIL_TOKEN, rest)) : rest.length < strm.length := by
  cases strm with
  | nil => simp [get_token] at h
  | cons c s =>
    simp only [get_token] at h
    by_cases h1 : c = '['
    · simp [h1] at h
    simp only [h1, if_false] at h
    by_cases h2 : c = ']'
    · simp [h2] at h
    simp only [h2, if_false] at h
    by_cases h3 : c = '{'
    · simp [h3] at h
    simp only [h3, if_false] at h
    by_cases h4 : c = '}'
    · simp [h4] at h
    simp only [h4, if_false] at h
    by_cases h5 : c = ':'
    · simp [h5] at h
    simp only [h5, if_false] at h
    by_cases h6 : c = ','
    · simp [h6] at h
    simp only [h6, if_false] at h
    by_cases h7 : c = '"'
    · simp only [h7, if_true] at h
      split at h <;> simp at h
    simp only [h7, if_false] at h
    by_cases h8 : c = '-' ∨ in_range '0' '9' c = true
    · simp only [h8, if_true] at h
      split at h <;> simp at h
    simp only [h8, if_false] at h
    by_cases h9 : c = 't'
    · rw [if_pos h9] at h
      split at h <;> simp at h
    simp only [h9, if_false] at h
    by_cases h10 : c = 'f'
    · rw [if_pos h10] at h
      split at h <;> simp at h
    simp only [h10, if_false] at h
    by_cases h11 : c = 'n'
    · rw [if_pos h11] at h
      split at h <;> simp at h
    simp only [h11, if_false] at h
    split at h
    · simp only [Prod.mk.injEq, true_and] at h
      rw [← h]
      have := skip_space_length s
      simp only [List.length_cons]
      omega
    · simp at h

end json

namespace json

/-! ## The loop of `tokenize` -/

theorem prepend_tokens_prepend (a b : List Token) (r : Outcome (Option (List Token))) :
    prepend_tokens a (prepend_tokens b r) = prepend_tokens (a ++ b) r := by
  cases r with
  | ret o => cases o <;> simp [prepend_tokens]
  | undefined => rfl
  | diverge => rfl

/-- The tokens collected before a call of the loop stay in front of its result. -/
theorem tokenize_loop_acc (budget : Nat) :
    ∀ (strm : List Char) (acc : List Token),
      tokenize_loop budget strm acc = prepend_tokens acc (tokenize_loop budget strm []) := by
  induction budget with
  | zero =>
    intro strm acc
    rfl
  | succ b ih =>
    intro strm acc
    simp only [tokenize_loop]
    split
    · simp [prepend_tokens]
    · exact ih _ _
    · rfl
    · rename_i tk rest hg
      rw [ih rest (acc ++ [tk]), ih rest ([] ++ [tk]), prepend_tokens_prepend]
      simp

/-- The lexemes of the tokens are taken from the stream: together they are not longer
than it. -/
theorem tokenize_loop_length (budget : Nat) :
    ∀ (strm : List Char) (out : List Token),
      tokenize_loop budget strm [] = .ret (some out) → lexemes_length out ≤ strm.length := by
  induction budget with
  | zero =>
    intro strm out h
    simp [tokenize_loop] at h
  | succ b ih =>
    intro strm out h
    simp only [tokenize_loop] at h
    split at h
    · simp only [Outcome.ret.injEq, Option.some.injEq] at h
      simp [← h, lexemes_length]
    · rename_i rest hg
      have := ih _ _ h
      have := get_token_nil hg
      omega
    · simp at h
    · rename_i tk rest hg
      rw [tokenize_loop_acc] at h
      cases hr : tokenize_loop b rest [] with
      | ret o =>
        cases o with
        | none => simp [hr, prepend_tokens] at h
        | some more =>
          simp only [hr, prepend_tokens, Outcome.ret.injEq, Option.some.injEq] at h
          have h₁ := ih _ _ hr
          have h₂ := (get_token_consumes hg).1
          rw [← h, h₂]
          simp only [lexemes_length, List.nil_append, List.map_append, List.map_cons,
            List.map_nil, List.sum_append, List.sum_cons, List.sum_nil, List.length_append]
            at h₁ ⊢
          omega
      | undefined => simp [hr, prepend_tokens] at h
      | diverge => simp [hr, prepend_tokens] at h

theorem get_token_number {c : Char} {s token rest : List Char}
    (hc : c = '-' ∨ in_range '0' '9' c = true)
    (htn : tokenize_number c s = some (token, rest)) :
    get_token (c :: s) = (.ok ⟨.NUMBER, token⟩, rest) := by
  have h : c ≠ '[' ∧ c ≠ ']' ∧ c ≠ '{' ∧ c ≠ '}' ∧ c ≠ ':' ∧ c ≠ ',' ∧ c ≠ '"' := by
    rcases hc with rfl | hd
    · decide
    · refine ⟨?_, ?_, ?_, ?_, ?_, ?_, ?_⟩ <;> (rintro rfl; simp [in_range] at hd)
  obtain ⟨h₁, h₂, h₃, h₄, h₅, h₆, h₇⟩ := h
  simp only [get_token, if_neg h₁, if_neg h₂, if_neg h₃, if_neg h₄, if_neg h₅, if_neg h₆,
    if_neg h₇, if_pos hc, htn]

/-- The scanner turns an input into the single token `NUMBER` with the whole input as
lexeme exactly when the input is a number of the grammar. -/
theorem tokenize_number_iff (s : List Char) :
    tokenize s = .ret (some [⟨.NUMBER, s⟩]) ↔ JsonNumber s := by
  constructor
  · intro h
    simp only [tokenize, tokenize_loop] at h
    split at h
    · simp at h
    · rename_i rest hg
      have h₁ := tokenize_loop_length _ _ _ h
      have h₂ := get_token_nil hg
      simp [lexemes_length] at h₁
      omega
    · simp at h
    · rename_i tk rest hg
      rw [tokenize_loop_acc] at h
      cases hr : tokenize_loop s.length rest [] with
      | ret o =>
        cases o with
        | none => simp [hr, prepend_tokens] at h
        | some more =>
          simp only [hr, prepend_tokens, Outcome.ret.injEq, Option.some.injEq,
            List.nil_append] at h
          have htk : tk = ⟨.NUMBER, s⟩ := by
            cases more with
            | nil => simpa using h
            | cons m ms => simp at h
          subst htk
          rcases get_token_ok hg with ⟨hty, -⟩ | ⟨-, c, s', -, hc, htn⟩ | ⟨-, hty, -⟩
          · simp at hty
          · exact (tokenize_number_sound hc htn).2
          · simp at hty
      | undefined => simp [hr, prepend_tokens] at h
      | diverge => simp [hr, prepend_tokens] at h
  · intro h
    have hne : ∃ c r, s = c :: r := by
      obtain ⟨sign, int, f, x, hs, -, hint, -, -⟩ := h
      obtain ⟨i₀, itl, rfl⟩ := int_part_ne_nil hint
      cases sign <;> simp [hs]
    obtain ⟨c, r, rfl⟩ := hne
    obtain ⟨hc, htn⟩ := tokenize_number_complete [] h number_end_nil
    rw [List.append_nil] at htn
    simp only [tokenize, List.length_cons, tokenize_loop, get_token_number hc htn]
    simp [get_token]

end json

namespace json

/-! ## The parser on whole token sequences -/

theorem parse_eq_parse_tokens {D : Type} (L : StdLib D) {strm : List Char}
    {tokenized : Option (List Token)} (m : Int) (h : tokenize strm = .ret tokenized) :
    parse L strm m = parse_tokens L tokenized m := by
  simp [parse, h]

/-- With `limited_depth = INT_MIN` the subtraction wraps to `INT_MAX`, which is also what
the embedding gives for `INT_MAX + 1`: the two calls do the same. -/
theorem parse_primitive_int_min {D : Type} (L : StdLib D) (budget : Nat)
    (tokens : List Token) (i : Nat) :
    parse_primitive L budget tokens i (-2147483648)
      = parse_primitive L budget tokens i 2147483648 := by
  cases budget with
  | zero => rfl
  | succ b => simp only [parse_primitive, int_pred_int_min]

theorem parse_tokens_int_min {D : Type} (L : StdLib D) (tokenized : Option (List Token)) :
    parse_tokens L tokenized (-2147483648) = parse_tokens L tokenized 2147483648 := by
  simp only [parse_tokens, int_pred_int_min, parse_primitive_int_min]

theorem parse_int_min {D : Type} (L : StdLib D) (strm : List Char) :
    parse L strm (-2147483648) = parse L strm 2147483648 := by
  simp only [parse, parse_tokens_int_min]

/-- A derivable value followed by `rest`: `parse` succeeds exactly when nothing follows, the
value fits the depth budget and every number converts (`max_depth` other than `INT_MIN`). -/
theorem parse_tokens_of_derives {D : Type} (L : StdLib D) {d : Nat} {v : List Token}
    (h : Derives .value d v) (rest : List Token) (hs : strings_ok v) (m : Int)
    (hm : m ≠ -2147483648) :
    (rest = [] → fits d m → numbers_ok L v →
        ∃ root, parse_tokens L (some (v ++ rest)) m = .ret ⟨true, some root⟩)
    ∧ (¬ (rest = [] ∧ fits d m ∧ numbers_ok L v) →
        parse_tokens L (some (v ++ rest)) m = .ret ⟨false, none⟩) := by
  have F := follows_of_derives L h (v ++ rest) 0 rest ((int_pred m).toNat + 2) m (by simp) hs
    (by rw [int_pred_eq hm]; omega)
  obtain ⟨tk, tl, hv, -⟩ := derives_head h
  have hne : (v ++ rest).length ≠ 0 := by simp [hv]
  simp only [parse_tokens, hne, if_false]
  rcases F with ⟨p, hp, hf, hn⟩ | ⟨hp, hn⟩
  · rw [hp]
    constructor
    · intro hr _ _
      subst hr
      exact ⟨p, by simp [JSON_File.set_root]⟩
    · intro hnot
      have hr : rest ≠ [] := fun hr => hnot ⟨hr, hf, hn⟩
      have : 0 + v.length ≠ (v ++ rest).length := by
        have := List.length_pos.mpr hr
        rw [List.length_append]
        omega
      simp only [ne_eq, this, not_false_eq_true, if_true, JSON_File.empty]
  · rw [hp]
    constructor
    · intro _ hf hn'
      exact absurd ⟨hf, hn'⟩ hn
    · intro _
      rfl

/-- A derivable value followed by further tokens is rejected, whatever `max_depth`. -/
theorem parse_tokens_trailing {D : Type} (L : StdLib D) {d : Nat} {v : List Token}
    (h : Derives .value d v) (rest : List Token) (hs : strings_ok v) (hrest : rest ≠ [])
    (m : Int) : parse_tokens L (some (v ++ rest)) m = .ret ⟨false, none⟩ := by
  by_cases hm : m = -2147483648
  · rw [hm, parse_tokens_int_min]
    exact (parse_tokens_of_derives L h rest hs 2147483648 (by decide)).2
      (fun h' => hrest h'.1)
  · exact (parse_tokens_of_derives L h rest hs m hm).2 (fun h' => hrest h'.1)

theorem derives_nested_arrays (n : Nat) :
    Derives .value (n + 1) (nested_arrays_tokens (n + 1)) := by
  induction n with
  | zero => exact Derives.empty_array _ _ rfl rfl
  | succ n ih =>
    have h := Derives.array ⟨.ARRAY_OPEN, ['[']⟩ ⟨.ARRAY_CLOSE, [']']⟩ (n + 1) _ rfl rfl
      (Derives.elements_one _ _ ih)
    have e : nested_arrays_tokens (n + 1 + 1)
        = (⟨.ARRAY_OPEN, ['[']⟩ : Token) :: nested_arrays_tokens (n + 1)
          ++ [⟨.ARRAY_CLOSE, [']']⟩] := by
      simp only [nested_arrays_tokens]
      rw [List.replicate_succ (n := n + 1), List.replicate_succ' (n := n + 1)]
      simp
    rw [e]
    exact h

theorem strings_ok_nested_arrays (n : Nat) : strings_ok (nested_arrays_tokens n) := by
  intro tk htk hty
  simp only [nested_arrays_tokens, List.mem_append, List.mem_replicate] at htk
  rcases htk with ⟨-, rfl⟩ | ⟨-, rfl⟩ <;> simp at hty

theorem numbers_ok_nested_arrays {D : Type} (L : StdLib D) (n : Nat) :
    numbers_ok L (nested_arrays_tokens n) := by
  intro tk htk hty
  simp only [nested_arrays_tokens, List.mem_append, List.mem_replicate] at htk
  rcases htk with ⟨-, rfl⟩ | ⟨-, rfl⟩ <;> simp at hty

end json

namespace json

/-! ## The scanner on JSON text -/

theorem string_body_of_json {body : List Char} (h : JsonStringBody body) :
    StringBody body := by
  induction h with
  | nil => exact StringBody.nil
  | plain c body h₁ h₂ h₃ _ ih => exact StringBody.plain c body h₁ h₂ (by omega) ih
  | escape c body hc _ ih => exact StringBody.escape c body hc ih
  | unicode h₀ h₁ h₂ h₃ body hh₀ hh₁ hh₂ hh₃ _ ih =>
    exact StringBody.unicode h₀ h₁ h₂ h₃ body hh₀ hh₁ hh₂ hh₃ ih

theorem tokenize_string_hex_more {c : Char} (hc : is_hex c = true) (strm token : List Char)
    (k : Nat) :
    tokenize_string (c :: strm) true (k + 2) token
      = tokenize_string strm true (k + 1) (token ++ [c]) := by
  have hc' := hc
  simp only [is_hex] at hc'
  simp [tokenize_string, hc']

theorem tokenize_string_hex_last {c : Char} (hc : is_hex c = true) (strm token : List Char) :
    tokenize_string (c :: strm) true 1 token
      = tokenize_string strm false 0 (token ++ [c]) := by
  have hc' := hc
  simp only [is_hex] at hc'
  simp [tokenize_string, hc']

/-- `tokenize_string` accepts every body of the string sub-grammar up to the closing
quote. -/
theorem tokenize_string_complete {body : List Char} (hbody : StringBody body) :
    ∀ (token rest : List Char),
      tokenize_string (body ++ '"' :: rest) false 0 token
        = some (token ++ body ++ ['"'], rest) := by
  induction hbody with
  | nil =>
    intro token rest
    simp [tokenize_string]
  | plain c body h₁ h₂ h₃ _ ih =>
    intro token rest
    have := ih (token ++ [c]) rest
    simpa [tokenize_string, h₁, h₂, h₃] using this
  | escape c body hc _ ih =>
    intro token rest
    have hu : c ≠ 'u' := by
      rcases hc with rfl | rfl | rfl | rfl | rfl | rfl | rfl | rfl <;> decide
    have hc' : c = '"' ∨ c = '\\' ∨ c = '/' ∨ c = 'b' ∨ c = 'f' ∨ c = 'n' ∨ c = 'r' ∨ c = 't'
        ∨ c = 'u' := by tauto
    have := ih (token ++ ['\\'] ++ [c]) rest
    simp only [List.cons_append, tokenize_string, Bool.false_eq_true, if_false, if_true,
      ne_eq, not_true_eq_false, hc', hu]
    simpa [hc] using this
  | unicode h₀ h₁ h₂ h₃ body hh₀ hh₁ hh₂ hh₃ _ ih =>
    intro token rest
    have := ih (token ++ ['\\'] ++ ['u'] ++ [h₀] ++ [h₁] ++ [h₂] ++ [h₃]) rest
    have step : tokenize_string ('\\' :: 'u' :: h₀ :: h₁ :: h₂ :: h₃ :: (body ++ '"' :: rest))
        false 0 token
        = tokenize_string (h₀ :: h₁ :: h₂ :: h₃ :: (body ++ '"' :: rest)) true 4
            (token ++ ['\\'] ++ ['u']) := by
      simp [tokenize_string]
    have e₀ : tokenize_string (h₀ :: h₁ :: h₂ :: h₃ :: (body ++ '"' :: rest)) true 4
          (token ++ ['\\'] ++ ['u'])
        = tokenize_string (h₁ :: h₂ :: h₃ :: (body ++ '"' :: rest)) true 3
          (token ++ ['\\'] ++ ['u'] ++ [h₀]) := tokenize_string_hex_more hh₀ _ _ 2
    have e₁ : tokenize_string (h₁ :: h₂ :: h₃ :: (body ++ '"' :: rest)) true 3
          (token ++ ['\\'] ++ ['u'] ++ [h₀])
        = tokenize_string (h₂ :: h₃ :: (body ++ '"' :: rest)) true 2
          (token ++ ['\\'] ++ ['u'] ++ [h₀] ++ [h₁]) := tokenize_string_hex_more hh₁ _ _ 1
    have e₂ : tokenize_string (h₂ :: h₃ :: (body ++ '"' :: rest)) true 2
          (token ++ ['\\'] ++ ['u'] ++ [h₀] ++ [h₁])
        = tokenize_string (h₃ :: (body ++ '"' :: rest)) true 1
          (token ++ ['\\'] ++ ['u'] ++ [h₀] ++ [h₁] ++ [h₂]) :=
      tokenize_string_hex_more hh₂ _ _ 0
    rw [List.cons_append, List.cons_append, List.cons_append, List.cons_append,
      List.cons_append, List.cons_append, step, e₀, e₁, e₂, tokenize_string_hex_last hh₃,
      this]
    simp

theorem check_token_complete :
    ∀ (expected rest : List Char), check_token (expected ++ rest) expected = some rest := by
  intro expected
  induction expected with
  | nil =>
    intro rest
    cases rest <;> rfl
  | cons e es ih =>
    intro rest
    simp [check_token, ih]

theorem skip_space_spaces :
    ∀ (w rest : List Char), Spaces w → skip_space (w ++ rest) = skip_space rest := by
  intro w
  induction w with
  | nil =>
    intro rest _
    rfl
  | cons c w ih =>
    intro rest h
    have hc : is_space c := h c (List.mem_cons_self _ _)
    have hw : Spaces w := fun x hx => h x (List.mem_cons_of_mem _ hx)
    simp only [is_space] at hc
    simp [skip_space, hc, ih rest hw]

theorem skip_space_of_head {rest : List Char}
    (h : ∀ c tl, rest = c :: tl → ¬ is_space c) : skip_space rest = rest := by
  cases rest with
  | nil => rfl
  | cons c tl =>
    have := h c tl rfl
    simp only [is_space] at this
    simp [skip_space, this]

theorem get_token_space {c : Char} (hc : is_space c) (strm : List Char) :
    get_token (c :: strm) = (.error .NIL_TOKEN, skip_space strm) := by
  rcases hc with rfl | rfl | rfl | rfl <;> simp [get_token, in_range]

end json

namespace json

theorem not_space_of_number_head {c : Char} (hc : c = '-' ∨ in_range '0' '9' c = true) :
    ¬ is_space c := by
  rintro (rfl | rfl | rfl | rfl) <;> simp [in_range] at hc

/-- A lexeme is not empty and does not start with white space; the lexeme of a comma or of
a closing bracket starts with that character. -/
theorem lexeme_head {tk : Token} (h : tk.is_lexeme) :
    ∃ c tl, tk.token_ = c :: tl ∧ ¬ is_space c
      ∧ (tk.type_ = .COMMA ∨ tk.type_ = .ARRAY_CLOSE ∨ tk.type_ = .OBJ_CLOSE →
          c = ',' ∨ c = ']' ∨ c = '}') := by
  obtain ⟨ty, tok⟩ := tk
  cases ty <;> simp only [Token.is_lexeme] at h
  case STRING =>
    obtain ⟨body, -, rfl⟩ := h
    exact ⟨'"', body ++ ['"'], rfl, by simp [is_space], by simp⟩
  case NUMBER =>
    obtain ⟨sign, int, f, x, hs, -, hint, -, -⟩ := id h
    obtain ⟨i₀, itl, rfl⟩ := int_part_ne_nil hint
    have hne : ∃ c r, tok = c :: r := by
      cases sign <;> simp [hs]
    obtain ⟨c, r, rfl⟩ := hne
    have := (tokenize_number_complete [] h number_end_nil).1
    exact ⟨c, r, rfl, not_space_of_number_head this, by simp⟩
  all_goals (subst h; exact ⟨_, _, rfl, by simp [is_space], by simp⟩)

/-- `get_token` on a lexeme followed by `rest` returns the token and leaves `rest`; after a
number, `rest` must begin where the scanner stops a number. -/
theorem get_token_lexeme {tk : Token} (h : tk.is_lexeme) (rest : List Char)
    (hr : tk.type_ = .NUMBER → number_end rest) :
    get_token (tk.token_ ++ rest) = (.ok tk, rest) := by
  obtain ⟨ty, tok⟩ := tk
  cases ty <;> simp only [Token.is_lexeme] at h
  case STRING =>
    obtain ⟨body, hbody, rfl⟩ := h
    have := tokenize_string_complete (string_body_of_json hbody) ['"'] rest
    simp only [List.cons_append, List.append_assoc, List.singleton_append, List.nil_append]
      at this ⊢
    simp [get_token, this]
  case NUMBER =>
    obtain ⟨sign, int, f, x, hs, -, hint, -, -⟩ := id h
    obtain ⟨i₀, itl, rfl⟩ := int_part_ne_nil hint
    have hne : ∃ c r, tok = c :: r := by
      cases sign <;> simp [hs]
    obtain ⟨c, r, rfl⟩ := hne
    obtain ⟨hc, htn⟩ := tokenize_number_complete rest h (hr rfl)
    exact get_token_number hc htn
  all_goals (subst h; simp [get_token, in_range, check_token])

/-- What a text that spells a token sequence starts with: white space, or the first
character of the first lexeme. -/
theorem spells_head {tokens : List Token} {text : List Char} (h : Spells tokens text) :
    ∀ c tl, text = c :: tl →
      is_space c ∨ ∃ tk rest ltl, tokens = tk :: rest ∧ tk.is_lexeme ∧ tk.token_ = c :: ltl := by
  intro c tl htext
  cases h with
  | nil w hw =>
    left
    exact hw c (by simp [htext])
  | cons w tk tokens text' hw htk h' =>
    cases w with
    | nil =>
      right
      obtain ⟨c', ltl, hl, -, -⟩ := lexeme_head htk
      rw [hl] at htext
      simp only [List.nil_append, List.cons_append, List.cons.injEq] at htext
      exact ⟨tk, tokens, ltl, rfl, htk, by rw [hl, htext.1]⟩
    | cons c' w' =>
      left
      simp only [List.cons_append, List.cons.injEq] at htext
      rw [← htext.1]
      exact hw c' (List.mem_cons_self _ _)

theorem number_end_of_space {c : Char} (hc : is_space c) (tl : List Char) :
    number_end (c :: tl) := by
  intro c' tl' h
  simp only [List.cons.injEq] at h
  rw [← h.1]
  rcases hc with rfl | rfl | rfl | rfl <;> simp [in_range]

theorem number_end_of_delimiter {c : Char} (hc : c = ',' ∨ c = ']' ∨ c = '}')
    (tl : List Char) : number_end (c :: tl) := by
  intro c' tl' h
  simp only [List.cons.injEq] at h
  rw [← h.1]
  rcases hc with rfl | rfl | rfl <;> simp [in_range]

/-- After a delimited `NUMBER` token the text continues where the scanner stops a
number. -/
theorem number_end_of_spells {tk : Token} {tokens : List Token} {text : List Char}
    (h : Spells tokens text) (hd : numbers_delimited (tk :: tokens))
    (hty : tk.type_ = .NUMBER) : number_end text := by
  cases text with
  | nil => exact number_end_nil
  | cons c tl =>
    rcases spells_head h c tl rfl with hc | ⟨b, rest, ltl, rfl, hb, hl⟩
    · exact number_end_of_space hc tl
    · simp only [numbers_delimited] at hd
      obtain ⟨c', ltl', hl', -, hdel⟩ := lexeme_head hb
      rw [hl] at hl'
      simp only [List.cons.injEq] at hl'
      rw [← hl'.1] at hdel
      exact number_end_of_delimiter (hdel (hd.1 hty)) tl

theorem numbers_delimited_tail {tk : Token} {tokens : List Token}
    (h : numbers_delimited (tk :: tokens)) : numbers_delimited tokens := by
  cases tokens with
  | nil => trivial
  | cons b rest => exact h.2

/-- The loop of `tokenize` on a text that spells a token sequence with delimited numbers:
with a budget above the length of the text it returns the tokens. -/
theorem tokenize_loop_spells {tokens : List Token} {text : List Char}
    (h : Spells tokens text) :
    numbers_delimited tokens → ∀ (budget : Nat) (acc : List Token), text.length < budget →
      tokenize_loop budget text acc = .ret (some (acc ++ tokens)) := by
  induction h with
  | nil w hw =>
    intro _ budget acc hb
    obtain ⟨b, rfl⟩ : ∃ b, budget = b + 1 := ⟨budget - 1, by omega⟩
    cases w with
    | nil => simp [tokenize_loop, get_token]
    | cons c w' =>
      have hc : is_space c := hw c (List.mem_cons_self _ _)
      have hw' : Spaces w' := fun x hx => hw x (List.mem_cons_of_mem _ hx)
      have hs : skip_space w' = [] := by
        have := skip_space_spaces w' [] hw'
        simpa [skip_space] using this
      obtain ⟨b', rfl⟩ : ∃ b', b = b' + 1 := ⟨b - 1, by simp at hb; omega⟩
      rw [tokenize_loop, get_token_space hc, hs]
      simp [tokenize_loop, get_token]
  | cons w tk tokens text' hw htk h' ih =>
    intro hd budget acc hb
    obtain ⟨c, ltl, hl, hns, -⟩ := lexeme_head htk
    have hne : ∀ c' tl', tk.token_ ++ text' = c' :: tl' → ¬ is_space c' := by
      intro c' tl' he
      rw [hl] at he
      simp only [List.cons_append, List.cons.injEq] at he
      rw [← he.1]
      exact hns
    have hlex : get_token (tk.token_ ++ text') = (.ok tk, text') :=
      get_token_lexeme htk text' (fun hty => number_end_of_spells h' hd hty)
    have hlen : (w ++ tk.token_ ++ text').length
        = w.length + (ltl.length + 1) + text'.length := by
      simp [hl]
      omega
    rw [hlen] at hb
    have key : ∀ b, text'.length < b →
        tokenize_loop (b + 1) (tk.token_ ++ text') acc = .ret (some (acc ++ tk :: tokens)) := by
      intro b hb'
      have := ih (numbers_delimited_tail hd) b (acc ++ [tk]) hb'
      simp only [tokenize_loop, hlex]
      simpa using this
    cases w with
    | nil =>
      obtain ⟨b, rfl⟩ : ∃ b, budget = b + 1 := ⟨budget - 1, by omega⟩
      simp only [List.nil_append]
      exact key b (by simp at hb; omega)
    | cons c' w' =>
      have hc : is_space c' := hw c' (List.mem_cons_self _ _)
      have hw' : Spaces w' := fun x hx => hw x (List.mem_cons_of_mem _ hx)
      obtain ⟨b, rfl⟩ : ∃ b, budget = b + 1 + 1 := ⟨budget - 2, by simp at hb; omega⟩
      have hskip : skip_space (w' ++ (tk.token_ ++ text')) = tk.token_ ++ text' := by
        rw [skip_space_spaces _ _ hw', skip_space_of_head hne]
      have hstep : tokenize_loop (b + 1 + 1) (c' :: w' ++ tk.token_ ++ text') acc
          = tokenize_loop (b + 1) (tk.token_ ++ text') acc := by
        rw [tokenize_loop]
        simp only [List.cons_append, List.append_assoc, get_token_space hc, hskip]
      rw [hstep]
      exact key b (by simp at hb; omega)

/-- The scanner on a text that spells a token sequence with delimited numbers returns that
sequence. -/
theorem tokenize_spells {tokens : List Token} {text : List Char} (h : Spells tokens text)
    (hd : numbers_delimited tokens) : tokenize text = .ret (some tokens) := by
  have := tokenize_loop_spells h hd (text.length + 1) [] (Nat.lt_succ_self _)
  simpa [tokenize] using this

end json

namespace json

theorem numbers_delimited_cons {a : Token} {l : List Token} (ha : a.type_ ≠ .NUMBER)
    (hl : numbers_delimited l) : numbers_delimited (a :: l) := by
  cases l with
  | nil => trivial
  | cons b rest => exact ⟨fun h => absurd h ha, hl⟩

theorem numbers_delimited_append :
    ∀ (a : List Token) (b : Token) (l : List Token), numbers_delimited a →
      b.type_ = .COMMA ∨ b.type_ = .ARRAY_CLOSE ∨ b.type_ = .OBJ_CLOSE →
      numbers_delimited (b :: l) → numbers_delimited (a ++ b :: l) := by
  intro a
  induction a with
  | nil =>
    intro b l _ _ hl
    exact hl
  | cons x a ih =>
    intro b l ha hb hl
    cases a with
    | nil => exact ⟨fun _ => hb, hl⟩
    | cons y a' => exact ⟨ha.1, ih b l ha.2 hb hl⟩

/-- In a derivable token sequence every number is followed by a comma or a closing bracket,
or is the last token. -/
theorem numbers_delimited_of_derives {sym : Sym} {d : Nat} {seg : List Token}
    (h : Derives sym d seg) : numbers_delimited seg := by
  induction h with
  | primitive tk h => trivial
  | empty_array o c ho hc => exact ⟨fun h => by simp [ho] at h, trivial⟩
  | array o c d es ho hc h ih =>
    refine numbers_delimited_cons (by simp [ho]) ?_
    exact numbers_delimited_append es c [] ih (Or.inr (Or.inl hc)) trivial
  | empty_object o c ho hc => exact ⟨fun h => by simp [ho] at h, trivial⟩
  | object o c d ms ho hc h ih =>
    refine numbers_delimited_cons (by simp [ho]) ?_
    exact numbers_delimited_append ms c [] ih (Or.inr (Or.inr hc)) trivial
  | elements_one d v h ih => exact ih
  | elements_more d₁ d₂ v es comma h₁ hcomma h₂ ih₁ ih₂ =>
    exact numbers_delimited_append v comma es ih₁ (Or.inl hcomma)
      (numbers_delimited_cons (by simp [hcomma]) ih₂)
  | members_one d key colon v hkey hcolon h ih =>
    exact numbers_delimited_cons (by simp [hkey]) (numbers_delimited_cons (by simp [hcolon]) ih)
  | members_more d₁ d₂ key colon comma v ms hkey hcolon h₁ hcomma h₂ ih₁ ih₂ =>
    refine numbers_delimited_cons (by simp [hkey])
      (numbers_delimited_cons (by simp [hcolon]) ?_)
    exact numbers_delimited_append v comma ms ih₁ (Or.inl hcomma)
      (numbers_delimited_cons (by simp [hcomma]) ih₂)

/-- The scanner accepts every valid JSON document and returns the tokens it spells. -/
theorem tokenize_document {tokens : List Token} {text : List Char} {d : Nat}
    (hsp : Spells tokens text) (hder : Derives .value d tokens) :
    tokenize text = .ret (some tokens) :=
  tokenize_spells hsp (numbers_delimited_of_derives hder)

theorem spells_nested_arrays_aux (n : Nat) (c : Char) (tk : Token) (hl : tk.is_lexeme)
    (hc : tk.token_ = [c]) (tokens : List Token) (text : List Char)
    (h : Spells tokens text) :
    Spells (List.replicate n tk ++ tokens) (List.replicate n c ++ text) := by
  induction n with
  | zero => exact h
  | succ n ih =>
    have := Spells.cons [] tk _ _ (by simp [Spaces]) hl ih
    rw [hc] at this
    simpa [List.replicate_succ] using this

/-- The text `nested_arrays n` spells `nested_arrays_tokens n`. -/
theorem spells_nested_arrays (n : Nat) : Spells (nested_arrays_tokens n) (nested_arrays n) := by
  have h₀ : Spells [] [] := Spells.nil [] (by simp [Spaces])
  have h₁ := spells_nested_arrays_aux n ']' ⟨.ARRAY_CLOSE, [']']⟩ rfl rfl [] [] h₀
  have h₂ := spells_nested_arrays_aux n '[' ⟨.ARRAY_OPEN, ['[']⟩ rfl rfl _ _ h₁
  simpa [nested_arrays, nested_arrays_tokens] using h₂

end json

namespace json

/-! ## The budgets are never exhausted -/

/-- A successful call moves the cursor forward. -/
theorem cursor_advances {tokens : List Token} {sym : Sym} {Ld : Int} {i j : Nat}
    (h : Consumed tokens sym none Ld i j) : i < j := by
  obtain ⟨seg, d, hder, -, hdrop⟩ := h
  simp only at hdrop
  obtain ⟨tk, tl, rfl, -⟩ := derives_head hder
  have hlen := congrArg List.length hdrop
  simp only [List.length_drop, List.length_append, List.length_cons] at hlen
  omega

theorem array_loop_no_diverge {D : Type} (element : Nat → Parsed D) (tokens : List Token)
    (h₁ : ∀ i, element i ≠ .diverge)
    (h₂ : ∀ i p j, element i = .ret (some (p, j)) → i < j) :
    ∀ (lb i : Nat) (acc : List (JSON_Primitive D)), tokens.length - i < lb →
      array_loop element tokens lb i acc ≠ .diverge := by
  intro lb
  induction lb with
  | zero =>
    intro i acc h
    omega
  | succ l ih =>
    intro i acc h
    simp only [array_loop, CHECK_INDEX]
    split
    · simp
    rename_i hi
    split
    · rename_i e i' he
      have := h₂ i e i' he
      split
      · simp
      rename_i hi'
      split
      · simp
      split
      · exact ih _ _ (by simp at hi hi'; omega)
      split <;> simp
    · simp
    · simp
    · rename_i he
      exact absurd he (h₁ i)

theorem object_loop_no_diverge {D : Type} (element : Nat → Parsed D) (tokens : List Token)
    (h₁ : ∀ i, element i ≠ .diverge)
    (h₂ : ∀ i p j, element i = .ret (some (p, j)) → i < j) :
    ∀ (lb i : Nat) (acc : List (List Char × JSON_Primitive D)), tokens.length - i < lb →
      object_loop element tokens lb i acc ≠ .diverge := by
  intro lb
  induction lb with
  | zero =>
    intro i acc h
    omega
  | succ l ih =>
    intro i acc h
    simp only [object_loop, CHECK_INDEX]
    split
    · simp
    rename_i hi
    split
    · simp
    split
    · simp
    split
    · simp
    split
    · simp
    split
    · simp
    split
    · simp
    split
    · simp
    split
    · rename_i e i' he
      have := h₂ _ e i' he
      split
      · simp
      rename_i hi'
      split
      · simp
      split
      · exact ih _ _ (by simp at hi hi'; omega)
      split <;> simp
    · simp
    · simp
    · rename_i he
      exact absurd he (h₁ _)

/-- With a budget above `max(limited_depth, 0)` the recursion of `parse_primitive` ends for
every token sequence and every `limited_depth` but `INT_MIN`: the outcome is never
`diverge`. -/
theorem parse_primitive_no_diverge {D : Type} (L : StdLib D) (budget : Nat) :
    ∀ (tokens : List Token) (i : Nat) (Ld : Int), Ld.toNat < budget → Ld ≠ -2147483648 →
      parse_primitive L budget tokens i Ld ≠ .diverge := by
  induction budget with
  | zero =>
    intro tokens i Ld h _
    omega
  | succ b ih =>
    intro tokens i Ld h hLd
    simp only [parse_primitive, int_pred_eq hLd]
    split
    · simp
    split
    · simp
    split
    · simp
    split
    · split <;> simp
    split
    · split <;> simp
    split
    · simp
    have hadv : Ld - 1 ≠ -2147483648 →
        ∀ i p j, parse_primitive L b tokens i (Ld - 1) = .ret (some (p, j)) → i < j :=
      fun hne i p j hp =>
        cursor_advances (parse_primitive_sound L b tokens i (Ld - 1) p j hp hne)
    split
    · simp only [parse_array]
      split
      · simp
      rename_i hL
      split
      · simp
      rename_i tk₁ hget₁
      split
      · simp
      · have hlt : i + 1 < tokens.length := (List.getElem?_eq_some.mp hget₁).1
        exact array_loop_no_diverge _ tokens (fun j => ih tokens j (Ld - 1) (by omega) (by omega))
          (hadv (by omega))
          _ _ _ (by omega)
    split
    · simp only [parse_object]
      split
      · simp
      rename_i hL
      split
      · simp
      rename_i tk₁ hget₁
      split
      · simp
      · have hlt : i + 1 < tokens.length := (List.getElem?_eq_some.mp hget₁).1
        exact object_loop_no_diverge _ tokens (fun j => ih tokens j (Ld - 1) (by omega) (by omega))
          (hadv (by omega))
          _ _ _ (by omega)
    · simp

/-- The loop of `tokenize` ends: with a budget above the length of the stream the outcome
is `std::nullopt` or a token sequence. -/
theorem tokenize_loop_returns (budget : Nat) :
    ∀ (strm : List Char) (acc : List Token), strm.length < budget →
      ∃ r, tokenize_loop budget strm acc = .ret r := by
  induction budget with
  | zero =>
    intro strm acc h
    omega
  | succ b ih =>
    intro strm acc h
    simp only [tokenize_loop]
    split
    · exact ⟨_, rfl⟩
    · rename_i rest hg
      have := get_token_nil hg
      exact ih _ _ (by omega)
    · exact ⟨_, rfl⟩
    · rename_i tk rest hg
      obtain ⟨h₁, h₂⟩ := get_token_consumes hg
      have : rest.length < strm.length := by
        have := congrArg List.length h₁
        have := List.length_pos.mpr h₂
        simp only [List.length_append] at *
        omega
      exact ih _ _ (by omega)

/-- `tokenize` returns for every input. -/
theorem tokenize_returns (strm : List Char) : ∃ r, tokenize strm = .ret r :=
  tokenize_loop_returns _ strm [] (Nat.lt_succ_self _)

/-- `parse` never exhausts its budgets: for every input and every `max_depth` it returns a
`JSON_File` or reads outside the token vector. -/
theorem parse_no_diverge {D : Type} (L : StdLib D) (strm : List Char) (max_depth : Int) :
    parse L strm max_depth ≠ .diverge := by
  obtain ⟨r, hr⟩ := tokenize_returns strm
  rw [parse_eq_parse_tokens L _ hr]
  cases r with
  | none => simp [parse_tokens]
  | some tokens =>
    simp only [parse_tokens]
    split
    · simp
    split
    · split <;> simp
    · simp
    · simp
    · rename_i hp
      by_cases hm : max_depth = -2147483648
      · subst hm
        rw [parse_primitive_int_min] at hp
        exact absurd hp
          (parse_primitive_no_diverge L _ tokens 0 2147483648 (by decide) (by decide))
      · exact absurd hp (parse_primitive_no_diverge L _ tokens 0 max_depth
          (by rw [int_pred_eq hm]; omega) hm)

end json

namespace json

/-! ## Claims on the depth guard and on the grammar -/

/-- C1, counterexample: the text of 64 arrays nested in one another is a valid JSON
document (it spells a token sequence derivable from the grammar, of nesting depth 64), and
`parse` with the default `max_depth` of 64 rejects it. -/
theorem valid_document_rejected_at_default_depth :
    Spells (nested_arrays_tokens 64) (nested_arrays 64)
      ∧ Derives .value 64 (nested_arrays_tokens 64)
      ∧ JsonDocument 64 (nested_arrays 64)
      ∧ parse literal_lib (nested_arrays 64) default_max_depth = .ret ⟨false, none⟩ := by
  have hsp := spells_nested_arrays 64
  have hder := derives_nested_arrays 63
  refine ⟨hsp, hder, ⟨_, hsp, hder⟩, ?_⟩
  rw [parse_eq_parse_tokens literal_lib _ (tokenize_document hsp hder)]
  have := (parse_tokens_of_derives literal_lib hder []
    (strings_ok_nested_arrays 64) default_max_depth (by decide)).2
  simp only [List.append_nil] at this
  apply this
  simp [fits, default_max_depth]

/-- C1, amended: for every valid JSON document (a text that spells a token sequence
derivable from the grammar) whose array/object nesting depth is below the default
`max_depth` of 64 and whose number literals `std::stod` converts, `parse` with the default
`max_depth` returns a document with `ok()` true and a root. -/
theorem parse_ok_of_valid_within_default_depth {D : Type} (L : StdLib D)
    (text : List Char) (tokens : List Token) (d : Nat)
    (hsp : Spells tokens text) (hder : Derives .value d tokens)
    (hdepth : d < 64) (hnum : numbers_ok L tokens) :
    ∃ root, parse L text default_max_depth = .ret ⟨true, some root⟩ := by
  have htok := tokenize_document hsp hder
  rw [parse_eq_parse_tokens L _ htok]
  have := (parse_tokens_of_derives L hder [] (tokenize_strings_ok htok) default_max_depth
    (by decide)).1 rfl (Or.inr (by simp [default_max_depth]; omega)) hnum
  simp only [List.append_nil] at this
  exact this

/-- C1, amended, at a concrete input: 63 nested arrays parse with the default depth. -/
theorem parse_ok_of_valid_within_default_depth_witness :
    Spells (nested_arrays_tokens 63) (nested_arrays 63)
      ∧ Derives .value 63 (nested_arrays_tokens 63)
      ∧ 63 < 64
      ∧ numbers_ok literal_lib (nested_arrays_tokens 63)
      ∧ ∃ root, parse literal_lib (nested_arrays 63) default_max_depth
          = .ret ⟨true, some root⟩ :=
  ⟨spells_nested_arrays 63, derives_nested_arrays 62, by decide,
    numbers_ok_nested_arrays literal_lib 63,
    parse_ok_of_valid_within_default_depth literal_lib (nested_arrays 63)
      (nested_arrays_tokens 63) 63 (spells_nested_arrays 63) (derives_nested_arrays 62)
      (by decide) (numbers_ok_nested_arrays literal_lib 63)⟩

/-- C2: when the tokens of the input are a complete value of the grammar followed by at
least one further token, `parse` returns a document with `ok()` false and no root, whatever
`max_depth` is; `123 junk` is rejected, and `123` alone parses to a `JSON_Number` (holding
what `std::stod` makes of `123`). -/
theorem trailing_tokens_rejected {D : Type} (L : StdLib D) :
    (∀ (strm : List Char) (v rest : List Token) (d : Nat) (m : Int),
        tokenize strm = .ret (some (v ++ rest)) → Derives .value d v → rest ≠ [] →
        parse L strm m = .ret ⟨false, none⟩)
      ∧ (∀ m : Int, parse L "123 junk".toList m = .ret ⟨false, none⟩)
      ∧ (∀ (m : Int) (x : D), L.stod "123".toList = some x →
          parse L "123".toList m = .ret ⟨true, some (.JSON_Number x)⟩) := by
  refine ⟨?_, ?_, ?_⟩
  · intro strm v rest d m htok hder hrest
    rw [parse_eq_parse_tokens L _ htok]
    have hs := (strings_ok_append.mp (tokenize_strings_ok htok)).1
    exact parse_tokens_trailing L hder rest hs hrest m
  · intro m
    have ht : tokenize "123 junk".toList = .ret none := by decide
    rw [parse_eq_parse_tokens L _ ht]
    rfl
  · intro m x hx
    have ht : tokenize "123".toList = .ret (some [⟨.NUMBER, "123".toList⟩]) := by decide
    rw [parse_eq_parse_tokens L _ ht]
    have hx' : L.stod ['1', '2', '3'] = some x := hx
    simp [parse_tokens, parse_primitive, hx', JSON_File.set_root]

/-- C2 at concrete inputs: `[] true` is an empty array followed by one more token. -/
theorem trailing_tokens_rejected_witness :
    tokenize "[] true".toList
        = .ret (some ([⟨.ARRAY_OPEN, ['[']⟩, ⟨.ARRAY_CLOSE, [']']⟩] ++ [⟨.TRUE, "true".toList⟩]))
      ∧ Derives .value 1 [⟨.ARRAY_OPEN, ['[']⟩, ⟨.ARRAY_CLOSE, [']']⟩]
      ∧ [(⟨.TRUE, "true".toList⟩ : Token)] ≠ []
      ∧ parse literal_lib "[] true".toList 64 = .ret ⟨false, none⟩
      ∧ literal_lib.stod "123".toList = some "123".toList
      ∧ parse literal_lib "123".toList 64 = .ret ⟨true, some (.JSON_Number "123".toList)⟩ :=
  ⟨by decide, Derives.empty_array _ _ rfl rfl, by simp,
    (trailing_tokens_rejected literal_lib).1 "[] true".toList
      [⟨.ARRAY_OPEN, ['[']⟩, ⟨.ARRAY_CLOSE, [']']⟩] [⟨.TRUE, "true".toList⟩] 1 64 (by decide)
      (Derives.empty_array _ _ rfl rfl) (by simp),
    rfl, (trailing_tokens_rejected literal_lib).2.2 64 "123".toList rfl⟩

/-- C3, counterexample: the document `true` has nesting depth 0, which is greater than
`max_depth = -1`, and `parse` accepts it. -/
theorem primitive_accepted_at_negative_depth :
    tokenize "true".toList = .ret (some [⟨.TRUE, "true".toList⟩])
      ∧ Derives .value 0 [⟨.TRUE, "true".toList⟩]
      ∧ (-1 : Int) < (0 : Nat)
      ∧ parse literal_lib "true".toList (-1) = .ret ⟨true, some (.JSON_Boolean true)⟩ :=
  ⟨by decide, Derives.primitive _ (Or.inl rfl), by decide, rfl⟩

/-- C3, amended: for every `max_depth` `m` other than `INT_MIN`, a document whose root is
an array or an object and whose nesting depth is greater than `m` is rejected (`ok()`
false, no root); and for such `m <= 0` every token sequence that starts with `[` or `\x7b`
is rejected, whatever follows.  With `max_depth = INT_MIN` the subtraction
`limited_depth - 1` overflows to `INT_MAX` and `[]` is accepted. -/
theorem parse_fails_beyond_depth {D : Type} (L : StdLib D) :
    (∀ (strm : List Char) (tokens : List Token) (d : Nat) (m : Int),
        tokenize strm = .ret (some tokens) → Derives .value d tokens → 1 ≤ d → m < d →
        m ≠ -2147483648 →
        parse L strm m = .ret ⟨false, none⟩)
      ∧ (∀ (strm : List Char) (tk : Token) (rest : List Token) (m : Int),
          tokenize strm = .ret (some (tk :: rest)) →
          tk.type_ = .ARRAY_OPEN ∨ tk.type_ = .OBJ_OPEN → m ≤ 0 → m ≠ -2147483648 →
          parse L strm m = .ret ⟨false, none⟩)
      ∧ parse L "[]".toList (-2147483648) = .ret ⟨true, some (.JSON_Array [])⟩ := by
  refine ⟨?_, ?_, ?_⟩
  · intro strm tokens d m htok hder hd hm hmin
    rw [parse_eq_parse_tokens L _ htok]
    have := (parse_tokens_of_derives L hder [] (tokenize_strings_ok htok) m hmin).2
    simp only [List.append_nil] at this
    apply this
    simp only [fits]
    omega
  · intro strm tk rest m htok hty hm hmin
    rw [parse_eq_parse_tokens L _ htok]
    have hL : m - 1 ≤ 0 := by omega
    rcases hty with hty | hty
    · simp [parse_tokens, parse_primitive, int_pred_eq hmin, hty, parse_array, hL,
        JSON_File.empty]
    · simp [parse_tokens, parse_primitive, int_pred_eq hmin, hty, parse_object, hL,
        JSON_File.empty]
  · have ht : tokenize "[]".toList
        = .ret (some [⟨.ARRAY_OPEN, ['[']⟩, ⟨.ARRAY_CLOSE, [']']⟩]) := by decide
    rw [parse_eq_parse_tokens L _ ht]
    have hp : int_pred (-2147483648) = 2147483647 := by decide
    simp [parse_tokens, parse_primitive, hp, parse_array, JSON_File.set_root]

/-- C3, amended, at concrete inputs: two nested arrays with `max_depth = 1`, and the
unterminated `[true` with `max_depth = 0`. -/
theorem parse_fails_beyond_depth_witness :
    tokenize (nested_arrays 2) = .ret (some (nested_arrays_tokens 2))
      ∧ Derives .value 2 (nested_arrays_tokens 2)
      ∧ 1 ≤ 2 ∧ (1 : Int) < (2 : Nat) ∧ (1 : Int) ≠ -2147483648
      ∧ parse literal_lib (nested_arrays 2) 1 = .ret ⟨false, none⟩
      ∧ tokenize "[true".toList = .ret (some [⟨.ARRAY_OPEN, ['[']⟩, ⟨.TRUE, "true".toList⟩])
      ∧ (0 : Int) ≤ 0 ∧ (0 : Int) ≠ -2147483648
      ∧ parse literal_lib "[true".toList 0 = .ret ⟨false, none⟩ :=
  ⟨by decide, derives_nested_arrays 1, by decide, by decide, by decide,
    (parse_fails_beyond_depth literal_lib).1 (nested_arrays 2) (nested_arrays_tokens 2) 2 1
      (by decide) (derives_nested_arrays 1) (by decide) (by decide) (by decide),
    by decide, by decide, by decide,
    (parse_fails_beyond_depth literal_lib).2.1 "[true".toList ⟨.ARRAY_OPEN, ['[']⟩
      [⟨.TRUE, "true".toList⟩] 0 (by decide) (Or.inl rfl) (by decide) (by decide)⟩

/-- C4, counterexample: `[]` is a valid document of nesting depth 1 and `parse` with
`max_depth = 1` rejects it. -/
theorem depth_equal_to_max_depth_rejected :
    Spells (nested_arrays_tokens 1) "[]".toList
      ∧ Derives .value 1 (nested_arrays_tokens 1)
      ∧ parse literal_lib "[]".toList 1 = .ret ⟨false, none⟩ :=
  ⟨spells_nested_arrays 1, derives_nested_arrays 0, rfl⟩

/-- C4, amended: for every `max_depth` `m >= 2`, a valid JSON document whose nesting depth
is exactly `m - 1`, and whose number literals `std::stod` converts, parses successfully;
with nesting depth exactly `m >= 1` it is rejected. -/
theorem parse_ok_below_max_depth {D : Type} (L : StdLib D) (text : List Char)
    (tokens : List Token) (d : Nat) (m : Int)
    (hsp : Spells tokens text) (hder : Derives .value d tokens)
    (hnum : numbers_ok L tokens) :
    (2 ≤ m → (d : Int) = m - 1 → ∃ root, parse L text m = .ret ⟨true, some root⟩)
      ∧ (1 ≤ m → (d : Int) = m → parse L text m = .ret ⟨false, none⟩) := by
  have htok := tokenize_document hsp hder
  rw [parse_eq_parse_tokens L _ htok]
  have key := fun hmin => parse_tokens_of_derives L hder [] (tokenize_strings_ok htok) m hmin
  simp only [List.append_nil] at key
  refine ⟨?_, ?_⟩
  · intro hm hd
    exact (key (by omega)).1 trivial (Or.inr (by omega)) hnum
  · intro hm hd
    apply (key (by omega)).2
    simp only [fits]
    omega

/-- C4, amended, at concrete inputs: `[]` parses with `max_depth = 2`, 63 nested arrays
parse with `max_depth = 64`, and `[[]]` is rejected with `max_depth = 2`. -/
theorem parse_ok_below_max_depth_witness :
    Spells (nested_arrays_tokens 1) "[]".toList
      ∧ Derives .value 1 (nested_arrays_tokens 1)
      ∧ numbers_ok literal_lib (nested_arrays_tokens 1)
      ∧ (2 : Int) ≤ 2 ∧ ((1 : Nat) : Int) = 2 - 1
      ∧ (∃ root, parse literal_lib "[]".toList 2 = .ret ⟨true, some root⟩)
      ∧ (∃ root, parse literal_lib (nested_arrays 63) 64 = .ret ⟨true, some root⟩)
      ∧ Spells (nested_arrays_tokens 2) "[[]]".toList
      ∧ Derives .value 2 (nested_arrays_tokens 2)
      ∧ parse literal_lib "[[]]".toList 2 = .ret ⟨false, none⟩ :=
  ⟨spells_nested_arrays 1, derives_nested_arrays 0, numbers_ok_nested_arrays literal_lib 1,
    by decide, by decide,
    (parse_ok_below_max_depth literal_lib "[]".toList (nested_arrays_tokens 1) 1 2
      (spells_nested_arrays 1) (derives_nested_arrays 0)
      (numbers_ok_nested_arrays literal_lib 1)).1 (by decide) (by decide),
    (parse_ok_below_max_depth literal_lib (nested_arrays 63) (nested_arrays_tokens 63) 63 64
      (spells_nested_arrays 63) (derives_nested_arrays 62)
      (numbers_ok_nested_arrays literal_lib 63)).1 (by decide) (by decide),
    spells_nested_arrays 2, derives_nested_arrays 1,
    (parse_ok_below_max_depth literal_lib "[[]]".toList (nested_arrays_tokens 2) 2 2
      (spells_nested_arrays 2) (derives_nested_arrays 1)
      (numbers_ok_nested_arrays literal_lib 2)).2 (by decide) (by decide)⟩

end json

namespace json

/-! ## Claims on decoding, on the number scanner and on `to_string` -/

/-- C5, the code at the failing input: the scanner accepts the string literal with body
`a`, backslash, `u0041`, `b` as one `STRING` token, and `Token::parse_string` decodes it to
the one-character string `A`, not to `aAb`: the characters outside escapes are not copied
(the literal with body `abc` decodes to the empty string). -/
theorem parse_string_drops_plain_characters :
    tokenize "\"a\\u0041b\"".toList = .ret (some [⟨.STRING, "\"a\\u0041b\"".toList⟩])
      ∧ (Token.mk .STRING "\"a\\u0041b\"".toList).parse_string = some ['A']
      ∧ (Token.mk .STRING "\"abc\"".toList).parse_string = some [] := by
  refine ⟨by decide, by decide, by decide⟩

/-- C6: the scanner turns an input `s` into exactly one token, of kind `NUMBER` and with
lexeme `s`, if and only if `s` matches `-?(0|[1-9][0-9]*)(.[0-9]+)?([eE][+-]?[0-9]+)?`;
`01`, `1.`, `.5` and `1e` are not accepted as a number, `0`, `0.5`, `-0`, `1e10` and
`1.5e-3` are. -/
theorem number_token_iff_grammar :
    (∀ s : List Char, tokenize s = .ret (some [⟨.NUMBER, s⟩]) ↔ JsonNumber s)
      ∧ tokenize "01".toList ≠ .ret (some [⟨.NUMBER, "01".toList⟩])
      ∧ tokenize "1.".toList ≠ .ret (some [⟨.NUMBER, "1.".toList⟩])
      ∧ tokenize ".5".toList ≠ .ret (some [⟨.NUMBER, ".5".toList⟩])
      ∧ tokenize "1e".toList ≠ .ret (some [⟨.NUMBER, "1e".toList⟩])
      ∧ tokenize "0".toList = .ret (some [⟨.NUMBER, "0".toList⟩])
      ∧ tokenize "0.5".toList = .ret (some [⟨.NUMBER, "0.5".toList⟩])
      ∧ tokenize "-0".toList = .ret (some [⟨.NUMBER, "-0".toList⟩])
      ∧ tokenize "1e10".toList = .ret (some [⟨.NUMBER, "1e10".toList⟩])
      ∧ tokenize "1.5e-3".toList = .ret (some [⟨.NUMBER, "1.5e-3".toList⟩]) :=
  ⟨tokenize_number_iff, by decide, by decide, by decide, by decide, by decide, by decide,
    by decide, by decide, by decide⟩

/-- C7, the code at the failing input: in `{"a":1,"a":2}` both keys are decoded to the
empty string, so the parsed object has one entry, under the empty key and not under `a`;
its value is that of the last member. -/
theorem duplicate_key_stored_under_empty_key {D : Type} (L : StdLib D) (x₁ x₂ : D)
    (h₁ : L.stod "1".toList = some x₁) (h₂ : L.stod "2".toList = some x₂) :
    parse L "\x7b\"a\":1,\"a\":2\x7d".toList default_max_depth
      = .ret ⟨true, some (.JSON_Object false [([], .JSON_Number x₂)])⟩ := by
  have ht : tokenize "\x7b\"a\":1,\"a\":2\x7d".toList
      = .ret (some [⟨.OBJ_OPEN, ['{']⟩, ⟨.STRING, "\"a\"".toList⟩, ⟨.COLON, [':']⟩,
          ⟨.NUMBER, "1".toList⟩, ⟨.COMMA, [',']⟩, ⟨.STRING, "\"a\"".toList⟩,
          ⟨.COLON, [':']⟩, ⟨.NUMBER, "2".toList⟩, ⟨.OBJ_CLOSE, ['}']⟩]) := by decide
  have hk : (Token.mk .STRING "\"a\"".toList).parse_string = some [] := by decide
  have h₁' : L.stod ['1'] = some x₁ := h₁
  have h₂' : L.stod ['2'] = some x₂ := h₂
  have hk' : (Token.mk .STRING ['"', 'a', '"']).parse_string = some [] := hk
  rw [parse_eq_parse_tokens L _ ht]
  have hp : int_pred 64 = 63 := by decide
  simp [parse_tokens, parse_primitive, parse_object, object_loop, CHECK_INDEX,
    default_max_depth, hp, hk', h₁', h₂', JSON_Object.add, JSON_File.set_root,
    JSON_File.empty]

/-- C7 at a concrete library instance. -/
theorem duplicate_key_stored_under_empty_key_witness :
    literal_lib.stod "1".toList = some "1".toList
      ∧ literal_lib.stod "2".toList = some "2".toList
      ∧ parse literal_lib "\x7b\"a\":1,\"a\":2\x7d".toList default_max_depth
          = .ret ⟨true, some (.JSON_Object false [([], .JSON_Number "2".toList)])⟩ :=
  ⟨rfl, rfl,
    duplicate_key_stored_under_empty_key literal_lib "1".toList "2".toList rfl rfl⟩

/-- C8, the code at the failing input: `[true]` parses, `to_string` of its root is
`[true,]`, and `parse` rejects that text. -/
theorem to_string_of_array_not_reparsed {D : Type} (L : StdLib D) :
    parse L "[true]".toList default_max_depth
        = .ret ⟨true, some (.JSON_Array [.JSON_Boolean true])⟩
      ∧ JSON_Primitive.to_string L (.JSON_Array [.JSON_Boolean true]) = "[true,]".toList
      ∧ parse L "[true,]".toList default_max_depth = .ret ⟨false, none⟩ :=
  ⟨rfl, rfl, rfl⟩

/-- C9, the code at the failing inputs: `to_string` of every array with at least one
element ends in `,]` and `to_string` of every non-null object with at least one member ends
in `,}`; for instance the one-element array of `true` is rendered `[true,]`. -/
theorem to_string_emits_trailing_comma {D : Type} (L : StdLib D) :
    (∀ (e : JSON_Primitive D) (es : List (JSON_Primitive D)),
        ∃ body, JSON_Primitive.to_string L (.JSON_Array (e :: es)) = body ++ [',', ']'])
      ∧ (∀ (k : List Char) (e : JSON_Primitive D) (ms : List (List Char × JSON_Primitive D)),
          ∃ body, JSON_Primitive.to_string L (.JSON_Object false ((k, e) :: ms))
            = body ++ [',', '}'])
      ∧ JSON_Primitive.to_string L (.JSON_Array [.JSON_Boolean true]) = "[true,]".toList := by
  have ha : ∀ (e : JSON_Primitive D) (es : List (JSON_Primitive D)),
      ∃ body, JSON_Array.to_string_loop L (e :: es) = body ++ [','] := by
    intro e es
    induction es generalizing e with
    | nil => exact ⟨JSON_Primitive.to_string L e, by simp [JSON_Array.to_string_loop]⟩
    | cons e' es ih =>
      obtain ⟨body, hb⟩ := ih e'
      refine ⟨JSON_Primitive.to_string L e ++ [','] ++ body, ?_⟩
      rw [JSON_Array.to_string_loop, hb]
      simp
  have ho : ∀ (k : List Char) (e : JSON_Primitive D)
      (ms : List (List Char × JSON_Primitive D)),
      ∃ body, JSON_Object.to_string_loop L ((k, e) :: ms) = body ++ [','] := by
    intro k e ms
    induction ms generalizing k e with
    | nil =>
      exact ⟨['"'] ++ k ++ ['"'] ++ [':'] ++ JSON_Primitive.to_string L e,
        by simp [JSON_Object.to_string_loop]⟩
    | cons m ms ih =>
      obtain ⟨k', e'⟩ := m
      obtain ⟨body, hb⟩ := ih k' e'
      refine ⟨['"'] ++ k ++ ['"'] ++ [':'] ++ JSON_Primitive.to_string L e ++ [','] ++ body,
        ?_⟩
      rw [JSON_Object.to_string_loop, hb]
      simp
  refine ⟨?_, ?_, rfl⟩
  · intro e es
    obtain ⟨body, hb⟩ := ha e es
    refine ⟨['['] ++ body, ?_⟩
    rw [JSON_Primitive.to_string, hb]
    simp
  · intro k e ms
    obtain ⟨body, hb⟩ := ho k e ms
    refine ⟨['{'] ++ body, ?_⟩
    rw [JSON_Primitive.to_string, hb]
    simp

/-- C10: whenever the parser reports success, the whole token sequence is derivable from
`value` in the grammar, for every token sequence, every input text and every `max_depth`;
a missing colon, a trailing comma, a leading comma, an unterminated container and an
unexpected token all give `ok()` false. -/
theorem success_only_on_grammatical_tokens {D : Type} (L : StdLib D) :
    (∀ (tokens : List Token) (m : Int) (f : JSON_File D),
        parse_tokens L (some tokens) m = .ret f → f.ok = true → Grammatical tokens)
      ∧ (∀ (strm : List Char) (m : Int) (f : JSON_File D),
          parse L strm m = .ret f → f.ok = true →
          ∃ tokens, tokenize strm = .ret (some tokens) ∧ Grammatical tokens)
      ∧ parse L "\x7b\"a\" true\x7d".toList default_max_depth = .ret ⟨false, none⟩
      ∧ parse L "[true,]".toList default_max_depth = .ret ⟨false, none⟩
      ∧ parse L "[,true]".toList default_max_depth = .ret ⟨false, none⟩
      ∧ parse L "[true".toList default_max_depth = .ret ⟨false, none⟩
      ∧ parse L "\x7b\"a\":true".toList default_max_depth = .ret ⟨false, none⟩
      ∧ parse L "[true\x7d".toList default_max_depth = .ret ⟨false, none⟩
      ∧ parse L "]".toList default_max_depth = .ret ⟨false, none⟩ := by
  have key₀ : ∀ (tokens : List Token) (m : Int) (f : JSON_File D), m ≠ -2147483648 →
      parse_tokens L (some tokens) m = .ret f → f.ok = true → Grammatical tokens := by
    intro tokens m f hmin h hok
    simp only [parse_tokens] at h
    split at h
    · simp only [Outcome.ret.injEq] at h
      rw [← h] at hok
      simp [JSON_File.ok, JSON_File.empty] at hok
    split at h
    · rename_i root index hp
      split at h
      · simp only [Outcome.ret.injEq] at h
        rw [← h] at hok
        simp [JSON_File.ok, JSON_File.empty] at hok
      · rename_i hidx
        have hidx' : index = tokens.length := by simpa using hidx
        obtain ⟨seg, d, hder, -, hdrop⟩ := parse_primitive_sound L _ _ _ _ _ _ hp hmin
        simp only [List.drop_zero, hidx', List.drop_length, List.append_nil] at hdrop
        exact ⟨d, hdrop ▸ hder⟩
    · simp only [Outcome.ret.injEq] at h
      rw [← h] at hok
      simp [JSON_File.ok, JSON_File.empty] at hok
    · simp at h
    · simp at h
  have key : ∀ (tokens : List Token) (m : Int) (f : JSON_File D),
      parse_tokens L (some tokens) m = .ret f → f.ok = true → Grammatical tokens := by
    intro tokens m f h hok
    by_cases hmin : m = -2147483648
    · rw [hmin, parse_tokens_int_min] at h
      exact key₀ tokens 2147483648 f (by decide) h hok
    · exact key₀ tokens m f hmin h hok
  refine ⟨key, ?_, rfl, rfl, rfl, rfl, rfl, rfl, rfl⟩
  intro strm m f h hok
  simp only [parse] at h
  split at h
  · rename_i tokenized ht
    cases tokenized with
    | none =>
      simp only [parse_tokens, Outcome.ret.injEq] at h
      rw [← h] at hok
      simp [JSON_File.ok, JSON_File.empty] at hok
    | some tokens => exact ⟨tokens, ht, key tokens m f h hok⟩
  · simp at h
  · simp at h

/-- C10 at a concrete input: `[true]` is accepted and its tokens are derivable. -/
theorem success_only_on_grammatical_tokens_witness :
    parse literal_lib "[true]".toList 64 = .ret ⟨true, some (.JSON_Array [.JSON_Boolean true])⟩
      ∧ (JSON_File.mk true (some (JSON_Primitive.JSON_Array
            [(JSON_Primitive.JSON_Boolean true : JSON_Primitive (List Char))]))).ok = true
      ∧ ∃ tokens, tokenize "[true]".toList = .ret (some tokens) ∧ Grammatical tokens :=
  ⟨rfl, rfl,
    (success_only_on_grammatical_tokens literal_lib).2.1 "[true]".toList 64 _ rfl rfl⟩

end json

namespace json

/-! ## `tokenize` one call of `get_token` at a time -/

/-- The result of the loop of `tokenize` does not depend on the budget, once the budget is
above the length of the stream. -/
theorem tokenize_loop_budget (b : Nat) :
    ∀ (b' : Nat) (strm : List Char) (acc : List Token), strm.length < b → strm.length < b' →
      tokenize_loop b strm acc = tokenize_loop b' strm acc := by
  induction b with
  | zero =>
    intro b' strm acc h
    omega
  | succ b ih =>
    intro b' strm acc h h'
    obtain ⟨b'', rfl⟩ : ∃ b'', b' = b'' + 1 := ⟨b' - 1, by omega⟩
    simp only [tokenize_loop]
    split
    · rfl
    · rename_i rest hg
      have := get_token_nil hg
      exact ih _ _ _ (by omega) (by omega)
    · rfl
    · rename_i tk rest hg
      obtain ⟨h₁, h₂⟩ := get_token_consumes hg
      have : rest.length < strm.length := by
        have := congrArg List.length h₁
        have := List.length_pos.mpr h₂
        simp only [List.length_append] at *
        omega
      exact ih _ _ _ (by omega) (by omega)

theorem tokenize_of_end {strm rest : List Char} (h : get_token strm = (.error .END, rest)) :
    tokenize strm = .ret (some []) := by
  simp [tokenize, tokenize_loop, h]

theorem tokenize_of_error {strm rest : List Char}
    (h : get_token strm = (.error .SYNTAX, rest)) : tokenize strm = .ret none := by
  simp [tokenize, tokenize_loop, h]

theorem tokenize_of_space {strm rest : List Char}
    (h : get_token strm = (.error .NIL_TOKEN, rest)) : tokenize strm = tokenize rest := by
  have hlt := get_token_nil h
  rw [tokenize, tokenize, tokenize_loop, h]
  exact tokenize_loop_budget strm.length (rest.length + 1) rest [] hlt (by omega)

theorem tokenize_of_token {strm rest : List Char} {tk : Token}
    (h : get_token strm = (.ok tk, rest)) :
    tokenize strm = prepend_tokens [tk] (tokenize rest) := by
  obtain ⟨h₁, h₂⟩ := get_token_consumes h
  have hlt : rest.length < strm.length := by
    have := congrArg List.length h₁
    have := List.length_pos.mpr h₂
    simp only [List.length_append] at *
    omega
  rw [tokenize, tokenize, tokenize_loop, h]
  show tokenize_loop strm.length rest ([] ++ [tk]) = _
  rw [tokenize_loop_acc, tokenize_loop_budget strm.length (rest.length + 1) rest [] hlt
    (by omega)]
  rfl

end json

namespace json

/-! ## Claims on empty input, control characters, hexadecimal digits, the document states
and the reads of the token vector -/

/-- C11: on an input that is empty or consists only of space, line feed, carriage return
and tab, `tokenize` yields the empty token sequence and `parse` returns a document with
`ok()` false and no root. -/
theorem whitespace_only_input_rejected {D : Type} (L : StdLib D) (w : List Char)
    (hw : Spaces w) (m : Int) :
    tokenize w = .ret (some []) ∧ parse L w m = .ret ⟨false, none⟩ := by
  have ht : tokenize w = .ret (some []) := tokenize_spells (Spells.nil w hw) trivial
  refine ⟨ht, ?_⟩
  rw [parse_eq_parse_tokens L _ ht]
  rfl

/-- C11 at concrete inputs: the empty input and the input made of the four white space
characters. -/
theorem whitespace_only_input_rejected_witness :
    Spaces [] ∧ Spaces [' ', '\n', '\r', '\t']
      ∧ (tokenize [] = .ret (some [])
          ∧ parse literal_lib [] default_max_depth = .ret ⟨false, none⟩)
      ∧ (tokenize [' ', '\n', '\r', '\t'] = .ret (some [])
          ∧ parse literal_lib [' ', '\n', '\r', '\t'] default_max_depth
              = .ret ⟨false, none⟩) :=
  ⟨by simp [Spaces], by simp [Spaces, is_space],
    whitespace_only_input_rejected literal_lib [] (by simp [Spaces]) default_max_depth,
    whitespace_only_input_rejected literal_lib [' ', '\n', '\r', '\t']
      (by simp [Spaces, is_space]) default_max_depth⟩

/-- C12, the code at the failing inputs: `tokenize_string` tests `c < 20` (decimal), so a
string literal holding the unescaped control character 0x14 or 0x1F is accepted as a
`STRING` token and `parse` reports success; the character 0x13 is rejected. -/
theorem control_character_accepted_in_string {D : Type} (L : StdLib D) :
    tokenize ['"', Char.ofNat 0x1f, '"']
        = .ret (some [⟨.STRING, ['"', Char.ofNat 0x1f, '"']⟩])
      ∧ tokenize ['"', Char.ofNat 0x14, '"']
        = .ret (some [⟨.STRING, ['"', Char.ofNat 0x14, '"']⟩])
      ∧ tokenize ['"', Char.ofNat 0x13, '"'] = .ret none
      ∧ parse L ['"', Char.ofNat 0x1f, '"'] default_max_depth
        = .ret ⟨true, some (.JSON_String [])⟩ := by
  refine ⟨by decide, by decide, by decide, rfl⟩

/-- C14, the code at the failing input: for the digits `a`-`f` and `A`-`F` the program
subtracts 131 and 91, which gives negative values (`a` gives -34, `A` gives -26), and the
escape with the digits `00e9` is decoded to the bytes EF B8 A9, not to C3 A9. -/
theorem hex_letters_decoded_wrongly :
    hex_val 'a' = -34 ∧ hex_val 'f' = -29 ∧ hex_val 'A' = -26 ∧ hex_val 'F' = -21
      ∧ parse_4hex_codepoint ['0', '0', 'e', '9']
          = [Char.ofNat 0xef, Char.ofNat 0xb8, Char.ofNat 0xa9]
      ∧ parse_4hex_codepoint ['0', '0', 'e', '9'] ≠ [Char.ofNat 0xc3, Char.ofNat 0xa9]
      ∧ (Token.mk .STRING "\"\\u00e9\"".toList).parse_string
          = some [Char.ofNat 0xef, Char.ofNat 0xb8, Char.ofNat 0xa9] := by
  refine ⟨by decide, by decide, by decide, by decide, by decide, by decide, by decide⟩

/-- C17: whenever `parse` returns a document, either `ok()` is true and the root is
present, or `ok()` is false and the root is absent; and `parse` never runs forever. -/
theorem document_ok_iff_root {D : Type} (L : StdLib D) (strm : List Char) (m : Int) :
    (∀ f : JSON_File D, parse L strm m = .ret f →
        (f.ok = true ∧ ∃ root, f.get_root = some root)
          ∨ (f.ok = false ∧ f.get_root = none))
      ∧ parse L strm m ≠ .diverge := by
  refine ⟨?_, parse_no_diverge L strm m⟩
  intro f h
  obtain ⟨r, hr⟩ := tokenize_returns strm
  rw [parse_eq_parse_tokens L _ hr] at h
  have hempty : (Outcome.ret (JSON_File.empty : JSON_File D) = .ret f) →
      (f.ok = true ∧ ∃ root, f.get_root = some root)
        ∨ (f.ok = false ∧ f.get_root = none) := by
    intro he
    simp only [Outcome.ret.injEq] at he
    rw [← he]
    exact Or.inr ⟨rfl, rfl⟩
  cases r with
  | none => exact hempty h
  | some tokens =>
    simp only [parse_tokens] at h
    split at h
    · exact hempty h
    split at h
    · rename_i root index hp
      split at h
      · exact hempty h
      · simp only [Outcome.ret.injEq] at h
        rw [← h]
        exact Or.inl ⟨rfl, root, rfl⟩
    · exact hempty h
    · simp at h
    · simp at h

/-- C17 at a concrete input: the document that `parse` returns for `[true]` has `ok()`
true and a root. -/
theorem document_ok_iff_root_witness :
    parse literal_lib "[true]".toList 64
        = .ret ⟨true, some (.JSON_Array [.JSON_Boolean true])⟩
      ∧ (((JSON_File.mk true (some (JSON_Primitive.JSON_Array
              [(JSON_Primitive.JSON_Boolean true : JSON_Primitive (List Char))]))).ok = true
            ∧ ∃ root, (JSON_File.mk true (some (JSON_Primitive.JSON_Array
              [(JSON_Primitive.JSON_Boolean true : JSON_Primitive (List Char))]))).get_root
                = some root)
          ∨ ((JSON_File.mk true (some (JSON_Primitive.JSON_Array
              [(JSON_Primitive.JSON_Boolean true : JSON_Primitive (List Char))]))).ok = false
            ∧ (JSON_File.mk true (some (JSON_Primitive.JSON_Array
              [(JSON_Primitive.JSON_Boolean true : JSON_Primitive (List Char))]))).get_root
                = none)) :=
  ⟨rfl, (document_ok_iff_root literal_lib "[true]".toList 64).1 _ rfl⟩

/-- C18, the code at the failing inputs: on a token sequence that ends right after `[` or
`\x7b`, `parse_array` and `parse_object` increment the cursor and read `tokens[index]`
without `CHECK_INDEX`, with `index == tokens.size()`: the read is outside the vector. -/
theorem read_past_end_after_opening_bracket {D : Type} (L : StdLib D) :
    parse L "[".toList default_max_depth = .undefined
      ∧ parse L "\x7b".toList default_max_depth = .undefined
      ∧ parse L "[true,[".toList default_max_depth = .undefined
      ∧ parse_array (fun d i => parse_primitive L 64 [⟨.ARRAY_OPEN, ['[']⟩] i d)
          [⟨.ARRAY_OPEN, ['[']⟩] 0 63 = .undefined
      ∧ ([⟨.ARRAY_OPEN, ['[']⟩] : List Token)[0 + 1]? = none := by
  refine ⟨rfl, rfl, rfl, rfl, rfl⟩

end json

namespace json

/-! ## What `unescape_string` returns -/

theorem escape_decodings_plain (c : Char) (body : List Char) (h : c ≠ '\\') :
    escape_decodings (c :: body) = escape_decodings body := by
  rw [escape_decodings.eq_def]
  simp [h]

/-- On the body of a scanned string literal `unescape_string` appends to its result the
decodings of the escape sequences, in order, and nothing for the other characters. -/
theorem unescape_loop_decodes {body : List Char} (hbody : StringBody body) :
    ∀ (pre result : List Char) (budget : Nat), body.length ≤ budget →
      unescape_loop (pre ++ body) budget pre.length result
        = some (result ++ escape_decodings body) := by
  induction hbody with
  | nil =>
    intro pre result budget _
    cases budget with
    | zero => simp [unescape_loop, escape_decodings]
    | succ b => simp [unescape_loop, escape_decodings]
  | plain c body h₁ h₂ h₃ h ih =>
    intro pre result budget hb
    obtain ⟨b, rfl⟩ : ∃ b, budget = b + 1 := ⟨budget - 1, by simp at hb; omega⟩
    have h0 := string_at_append pre (c :: body) 0 c (by simp)
    have := ih (pre ++ [c]) result b (by simp at hb; omega)
    rw [escape_decodings_plain c body h₂, ← this]
    simp only [Nat.add_zero] at h0
    simp [unescape_loop, h0, h₂]
  | escape c body hc h ih =>
    intro pre result budget hb
    obtain ⟨b, rfl⟩ : ∃ b, budget = b + 1 := ⟨budget - 1, by simp at hb; omega⟩
    have h0 := string_at_append pre ('\\' :: c :: body) 0 '\\' (by simp)
    have h1 := string_at_append pre ('\\' :: c :: body) 1 c (by simp)
    have hu : c ≠ 'u' := by
      rcases hc with rfl | rfl | rfl | rfl | rfl | rfl | rfl | rfl <;> decide
    have := ih (pre ++ ['\\', c]) (result ++ unescape_switch c) b (by simp at hb; omega)
    have hd : escape_decodings ('\\' :: c :: body)
        = unescape_switch c ++ escape_decodings body := by
      rw [escape_decodings.eq_def]
      simp [hu]
    rw [hd, ← List.append_assoc, ← this]
    simp only [Nat.add_zero] at h0
    simp [unescape_loop, h0, h1, hu]
  | unicode h₀ h₁ h₂ h₃ body hh₀ hh₁ hh₂ hh₃ h ih =>
    intro pre result budget hb
    obtain ⟨b, rfl⟩ : ∃ b, budget = b + 1 + 1 := ⟨budget - 2, by simp at hb; omega⟩
    have e0 := string_at_append pre ('\\' :: 'u' :: h₀ :: h₁ :: h₂ :: h₃ :: body) 0 '\\'
      (by simp)
    have e1 := string_at_append pre ('\\' :: 'u' :: h₀ :: h₁ :: h₂ :: h₃ :: body) 1 'u'
      (by simp)
    have e2 := string_at_append pre ('\\' :: 'u' :: h₀ :: h₁ :: h₂ :: h₃ :: body) 2 h₀
      (by simp)
    have e3 := string_at_append pre ('\\' :: 'u' :: h₀ :: h₁ :: h₂ :: h₃ :: body) 3 h₁
      (by simp)
    have e4 := string_at_append pre ('\\' :: 'u' :: h₀ :: h₁ :: h₂ :: h₃ :: body) 4 h₂
      (by simp)
    have e5 := string_at_append pre ('\\' :: 'u' :: h₀ :: h₁ :: h₂ :: h₃ :: body) 5 h₃
      (by simp)
    have := ih (pre ++ ['\\', 'u', h₀, h₁, h₂, h₃])
      (result ++ parse_4hex_codepoint [h₀, h₁, h₂, h₃]) b (by simp at hb; omega)
    have hd : escape_decodings ('\\' :: 'u' :: h₀ :: h₁ :: h₂ :: h₃ :: body)
        = parse_4hex_codepoint [h₀, h₁, h₂, h₃] ++ escape_decodings body := by
      rw [escape_decodings.eq_def]
      simp
    rw [hd, ← List.append_assoc, ← this]
    simp only [Nat.add_zero] at e0
    have hne : h₃ ≠ '\\' := (is_hex_plain hh₃).2.1
    simp [unescape_loop, e0, e1, e2, e3, e4, e5, hne]
    intro hh
    omega

/-- A body without a backslash is decoded to the empty string. -/
theorem unescape_loop_no_backslash (str : List Char) (h : ∀ c ∈ str, c ≠ '\\') :
    ∀ (budget i : Nat) (result : List Char),
      unescape_loop str budget i result = some result := by
  intro budget
  induction budget with
  | zero =>
    intro i result
    rfl
  | succ b ih =>
    intro i result
    simp only [unescape_loop]
    split
    · rename_i hi
      have hne : string_at str i ≠ some '\\' := by
        simp only [string_at, hi, if_true]
        intro hc
        obtain ⟨_, hget⟩ := List.getElem?_eq_some.mp hc
        exact h '\\' (hget ▸ List.getElem_mem _) rfl
      simp only [hne, if_false]
      exact ih _ _
    · rfl

end json

namespace json

/-! ## String literals that the scanner rejects -/

/-- `tokenize_string` runs through a well-formed body and goes on with what follows. -/
theorem tokenize_string_body_then {body : List Char} (hbody : StringBody body) :
    ∀ (token tail : List Char),
      tokenize_string (body ++ tail) false 0 token
        = tokenize_string tail false 0 (token ++ body) := by
  induction hbody with
  | nil =>
    intro token tail
    simp
  | plain c body h₁ h₂ h₃ _ ih =>
    intro token tail
    have := ih (token ++ [c]) tail
    simpa [tokenize_string, h₁, h₂, h₃] using this
  | escape c body hc _ ih =>
    intro token tail
    have hu : c ≠ 'u' := by
      rcases hc with rfl | rfl | rfl | rfl | rfl | rfl | rfl | rfl <;> decide
    have hc' : c = '"' ∨ c = '\\' ∨ c = '/' ∨ c = 'b' ∨ c = 'f' ∨ c = 'n' ∨ c = 'r' ∨ c = 't'
        ∨ c = 'u' := by tauto
    have := ih (token ++ ['\\'] ++ [c]) tail
    simp only [List.cons_append, tokenize_string, Bool.false_eq_true, if_false, if_true,
      ne_eq, not_true_eq_false, hc', hu]
    simpa [hc] using this
  | unicode h₀ h₁ h₂ h₃ body hh₀ hh₁ hh₂ hh₃ _ ih =>
    intro token tail
    have := ih (token ++ ['\\'] ++ ['u'] ++ [h₀] ++ [h₁] ++ [h₂] ++ [h₃]) tail
    have step : tokenize_string ('\\' :: 'u' :: h₀ :: h₁ :: h₂ :: h₃ :: (body ++ tail))
        false 0 token
        = tokenize_string (h₀ :: h₁ :: h₂ :: h₃ :: (body ++ tail)) true 4
            (token ++ ['\\'] ++ ['u']) := by
      simp [tokenize_string]
    have e₀ : tokenize_string (h₀ :: h₁ :: h₂ :: h₃ :: (body ++ tail)) true 4
          (token ++ ['\\'] ++ ['u'])
        = tokenize_string (h₁ :: h₂ :: h₃ :: (body ++ tail)) true 3
          (token ++ ['\\'] ++ ['u'] ++ [h₀]) := tokenize_string_hex_more hh₀ _ _ 2
    have e₁ : tokenize_string (h₁ :: h₂ :: h₃ :: (body ++ tail)) true 3
          (token ++ ['\\'] ++ ['u'] ++ [h₀])
        = tokenize_string (h₂ :: h₃ :: (body ++ tail)) true 2
          (token ++ ['\\'] ++ ['u'] ++ [h₀] ++ [h₁]) := tokenize_string_hex_more hh₁ _ _ 1
    have e₂ : tokenize_string (h₂ :: h₃ :: (body ++ tail)) true 2
          (token ++ ['\\'] ++ ['u'] ++ [h₀] ++ [h₁])
        = tokenize_string (h₃ :: (body ++ tail)) true 1
          (token ++ ['\\'] ++ ['u'] ++ [h₀] ++ [h₁] ++ [h₂]) :=
      tokenize_string_hex_more hh₂ _ _ 0
    rw [List.cons_append, List.cons_append, List.cons_append, List.cons_append,
      List.cons_append, List.cons_append, step, e₀, e₁, e₂, tokenize_string_hex_last hh₃,
      this]
    simp

/-- Fewer hexadecimal digits than required, then another character or the end of the
input: `tokenize_string` fails. -/
theorem tokenize_string_short_hex :
    ∀ (hs rest token : List Char) (k : Nat), (∀ h ∈ hs, is_hex h = true) → hs.length < k →
      (∀ c tl, rest = c :: tl → is_hex c = false) →
      tokenize_string (hs ++ rest) true k token = none := by
  intro hs
  induction hs with
  | nil =>
    intro rest token k _ hk hrest
    obtain ⟨k', rfl⟩ : ∃ k', k = k' + 1 := ⟨k - 1, by simp at hk; omega⟩
    cases rest with
    | nil => simp [tokenize_string]
    | cons c tl =>
      have hc := hrest c tl rfl
      simp only [is_hex] at hc
      simp [tokenize_string, hc]
  | cons h hs ih =>
    intro rest token k hhex hk hrest
    obtain ⟨k', rfl⟩ : ∃ k', k = k' + 1 + 1 := ⟨k - 2, by simp at hk; omega⟩
    have hh : is_hex h = true := hhex h (List.mem_cons_self _ _)
    rw [List.cons_append, tokenize_string_hex_more hh]
    exact ih rest _ (k' + 1) (fun x hx => hhex x (List.mem_cons_of_mem _ hx))
      (by simp at hk; omega) hrest

/-- After a well-formed body, a tail that does not complete the literal makes
`tokenize_string` fail. -/
theorem tokenize_string_bad_tail {body t : List Char} (hbody : StringBody body)
    (ht : bad_string_tail t) (token : List Char) :
    tokenize_string (body ++ t) false 0 token = none := by
  rw [tokenize_string_body_then hbody]
  rcases ht with rfl | rfl | ⟨c, rest, rfl, hc⟩ | ⟨hs, rest, rfl, hhex, hlen, hrest⟩
  · simp [tokenize_string]
  · simp [tokenize_string]
  · simp only [permitted_escape] at hc
    simp [tokenize_string, hc]
  · have step : tokenize_string ('\\' :: 'u' :: (hs ++ rest)) false 0 (token ++ body)
        = tokenize_string (hs ++ rest) true 4 (token ++ body ++ ['\\'] ++ ['u']) := by
      simp [tokenize_string]
    rw [step]
    exact tokenize_string_short_hex hs rest _ 4 hhex hlen hrest

theorem get_token_bad_string {s : List Char}
    (h : tokenize_string s false 0 ['"'] = none) :
    get_token ('"' :: s) = (.error .SYNTAX, []) := by
  simp [get_token, h]

/-- A lexical error at the place that the loop of `tokenize` reaches is a lexical error of
the whole input. -/
theorem tokenize_of_reaches {strm t : List Char} (h : Reaches strm t)
    (ht : tokenize t = .ret none) : tokenize strm = .ret none := by
  induction h with
  | here s => exact ht
  | token s rest t tk hg _ ih =>
    rw [tokenize_of_token hg, ih ht]
    rfl
  | space s rest t hg _ ih =>
    rw [tokenize_of_space hg, ih ht]

/-- C13: when the scanner reaches a string literal whose well-formed part is followed by a
backslash and a character that is not a permitted escape, by `\u` and fewer than four
hexadecimal digits, or by the end of the input, tokenization fails and `parse` is not ok;
and every string literal with only permitted escapes and no control character is accepted
as one `STRING` token. -/
theorem string_literal_scanning {D : Type} (L : StdLib D) :
    (∀ (strm body t : List Char) (m : Int), Reaches strm ('"' :: (body ++ t)) →
        StringBody body → bad_string_tail t →
        tokenize strm = .ret none ∧ parse L strm m = .ret ⟨false, none⟩)
      ∧ (∀ body : List Char, JsonStringBody body →
          tokenize ('"' :: body ++ ['"']) = .ret (some [⟨.STRING, '"' :: body ++ ['"']⟩])) := by
  refine ⟨?_, ?_⟩
  · intro strm body t m hr hbody ht
    have h₁ := get_token_bad_string (tokenize_string_bad_tail hbody ht ['"'])
    have h₂ := tokenize_of_reaches hr (tokenize_of_error h₁)
    refine ⟨h₂, ?_⟩
    rw [parse_eq_parse_tokens L _ h₂]
    rfl
  · intro body hbody
    have hl : (Token.mk .STRING ('"' :: body ++ ['"'])).is_lexeme := ⟨body, hbody, rfl⟩
    have := Spells.cons [] _ [] [] (by simp [Spaces]) hl (Spells.nil [] (by simp [Spaces]))
    have := tokenize_spells this trivial
    simpa using this

/-- C13 at concrete inputs: `["a\q"]` (a backslash before `q`), `"\u12"` (two hexadecimal
digits) and `"ab` (no closing quote) are rejected; `"a\n\u0041"` is accepted. -/
theorem string_literal_scanning_witness :
    (tokenize "[\"a\\q\"]".toList = .ret none
        ∧ parse literal_lib "[\"a\\q\"]".toList 64 = .ret ⟨false, none⟩)
      ∧ (tokenize "\"\\u12\"".toList = .ret none
        ∧ parse literal_lib "\"\\u12\"".toList 64 = .ret ⟨false, none⟩)
      ∧ (tokenize "\"ab".toList = .ret none
        ∧ parse literal_lib "\"ab".toList 64 = .ret ⟨false, none⟩)
      ∧ tokenize "\"a\\n\\u0041\"".toList
          = .ret (some [⟨.STRING, "\"a\\n\\u0041\"".toList⟩]) := by
  have ha : StringBody ['a'] :=
    StringBody.plain 'a' [] (by decide) (by decide) (by decide) StringBody.nil
  refine ⟨?_, ?_, ?_, ?_⟩
  · exact (string_literal_scanning literal_lib).1 "[\"a\\q\"]".toList ['a']
      ['\\', 'q', '"', ']'] 64
      (Reaches.token _ _ _ ⟨.ARRAY_OPEN, ['[']⟩ rfl (Reaches.here _)) ha
      (Or.inr (Or.inr (Or.inl ⟨'q', ['"', ']'], rfl, by simp [permitted_escape]⟩)))
  · exact (string_literal_scanning literal_lib).1 "\"\\u12\"".toList [] ['\\', 'u', '1', '2', '"']
      64 (Reaches.here _) StringBody.nil
      (Or.inr (Or.inr (Or.inr ⟨['1', '2'], ['"'], rfl, by decide, by decide,
        by
          intro c tl h
          simp only [List.cons.injEq] at h
          rw [← h.1]
          rfl⟩)))
  · exact (string_literal_scanning literal_lib).1 "\"ab".toList ['a', 'b'] [] 64
      (Reaches.here _)
      (StringBody.plain 'a' _ (by decide) (by decide) (by decide)
        (StringBody.plain 'b' [] (by decide) (by decide) (by decide) StringBody.nil))
      (Or.inl rfl)
  · exact (string_literal_scanning literal_lib).2 "a\\n\\u0041".toList
      (JsonStringBody.plain 'a' _ (by decide) (by decide) (by decide)
        (JsonStringBody.escape 'n' _ (by simp)
          (JsonStringBody.unicode '0' '0' '4' '1' [] rfl rfl rfl rfl JsonStringBody.nil)))

/-- C20: on the body of every `STRING` token that the scanner makes, `unescape_string`
returns the decodings of the body's escape sequences, in order, and nothing for the
characters outside escape sequences; for every `STRING` token whose body has no backslash
`parse_string` returns the empty string, so that the keys `a` and `b` decode to the same
key and an object with these two keys has one entry. -/
theorem unescape_string_keeps_only_escapes {D : Type} (L : StdLib D) :
    (∀ body : List Char, StringBody body →
        unescape_string body = some (escape_decodings body))
      ∧ (∀ (strm tok rest : List Char),
          tokenize_string strm false 0 ['"'] = some (tok, rest) →
          ∃ body, tok = '"' :: body ++ ['"']
            ∧ (Token.mk .STRING tok).parse_string = some (escape_decodings body))
      ∧ (∀ body : List Char, (∀ c ∈ body, c ≠ '\\') →
          (Token.mk .STRING ('"' :: body ++ ['"'])).parse_string = some [])
      ∧ (Token.mk .STRING "\"a\"".toList).parse_string = some []
      ∧ (Token.mk .STRING "\"b\"".toList).parse_string = some []
      ∧ parse L "\x7b\"a\":true,\"b\":false\x7d".toList default_max_depth
          = .ret ⟨true, some (.JSON_Object false [([], .JSON_Boolean false)])⟩ := by
  have hstrip : ∀ body : List Char,
      (List.drop 1 ('"' :: body ++ ['"'])).take (('"' :: body ++ ['"']).length - 2)
        = body := by
    intro body
    simp
  have h₁ : ∀ body : List Char, StringBody body →
      unescape_string body = some (escape_decodings body) := by
    intro body hbody
    have := unescape_loop_decodes hbody [] [] body.length (Nat.le_refl _)
    simpa [unescape_string] using this
  refine ⟨h₁, ?_, ?_, by decide, by decide, rfl⟩
  · intro strm tok rest h
    obtain ⟨body, hbody, -, rfl⟩ :=
      tokenize_string_body strm.length strm (Nat.le_refl _) _ _ _ h
    refine ⟨body, by simp, ?_⟩
    have : ['"'] ++ body ++ ['"'] = '"' :: body ++ ['"'] := by simp
    rw [this, Token.parse_string, hstrip, h₁ body hbody]
  · intro body hbody
    rw [Token.parse_string, hstrip, unescape_string]
    exact unescape_loop_no_backslash body hbody _ _ _

/-- C20 at concrete inputs: the body `abc` and the scanned literal with the body `a`,
backslash, `n`, `b`. -/
theorem unescape_string_keeps_only_escapes_witness :
    StringBody "a\\nb".toList
      ∧ unescape_string "a\\nb".toList = some (escape_decodings "a\\nb".toList)
      ∧ escape_decodings "a\\nb".toList = ['\n']
      ∧ (∀ c ∈ "abc".toList, c ≠ '\\')
      ∧ (Token.mk .STRING ('"' :: "abc".toList ++ ['"'])).parse_string = some [] := by
  have hb : StringBody "a\\nb".toList :=
    StringBody.plain 'a' _ (by decide) (by decide) (by decide)
      (StringBody.escape 'n' _ (by simp)
        (StringBody.plain 'b' [] (by decide) (by decide) (by decide) StringBody.nil))
  exact ⟨hb, (unescape_string_keeps_only_escapes literal_lib).1 _ hb, by decide, by decide,
    (unescape_string_keeps_only_escapes literal_lib).2.2.1 "abc".toList (by decide)⟩

end json

namespace json

/-! ## White space around the input -/

theorem not_digit_of_space {c : Char} (hc : is_space c) :
    in_range '0' '9' c = false ∧ c ≠ '.' ∧ c ≠ 'e' ∧ c ≠ 'E' ∧ c ≠ '+' ∧ c ≠ '-' := by
  rcases hc with rfl | rfl | rfl | rfl <;> simp [in_range]

theorem spaces_cons {c : Char} {w : List Char} :
    Spaces (c :: w) ↔ is_space c ∧ Spaces w := by
  simp [Spaces]

theorem tokenize_string_spaces :
    ∀ (w : List Char) (escaped : Bool) (rd : Nat) (token : List Char), Spaces w →
      tokenize_string w escaped rd token = none := by
  intro w
  induction w with
  | nil =>
    intro escaped rd token _
    rfl
  | cons c w ih =>
    intro escaped rd token h
    obtain ⟨hc, hw⟩ := spaces_cons.mp h
    rcases hc with rfl | rfl | rfl | rfl
    · cases escaped <;> simp [tokenize_string, in_range, ih _ _ _ hw]
    · cases escaped <;> simp [tokenize_string, in_range]
    · cases escaped <;> simp [tokenize_string, in_range]
    · cases escaped <;> simp [tokenize_string, in_range]

theorem tokenize_string_append (w : List Char) (hw : Spaces w) :
    ∀ (s : List Char) (escaped : Bool) (rd : Nat) (token : List Char),
      tokenize_string (s ++ w) escaped rd token
        = with_rest w (tokenize_string s escaped rd token) := by
  intro s
  induction s with
  | nil =>
    intro escaped rd token
    simp [tokenize_string_spaces w _ _ _ hw, tokenize_string, with_rest]
  | cons c s ih =>
    intro escaped rd token
    simp only [List.cons_append, tokenize_string]
    repeat' split
    all_goals first
      | exact ih _ _ _
      | rfl

theorem number_exponent_digits_append (w : List Char) (hw : Spaces w) :
    ∀ (s token : List Char),
      number_exponent_digits (s ++ w) token
        = ((number_exponent_digits s token).1, (number_exponent_digits s token).2 ++ w) := by
  intro s
  induction s with
  | nil =>
    intro token
    cases w with
    | nil => rfl
    | cons c w' =>
      have := not_digit_of_space (spaces_cons.mp hw).1
      simp [number_exponent_digits, this.1]
  | cons c s ih =>
    intro token
    simp only [List.cons_append, number_exponent_digits]
    split
    · exact ih _
    · rfl

theorem number_exponent_append (w : List Char) (hw : Spaces w) (s token : List Char) :
    number_exponent (s ++ w) token = with_rest w (number_exponent s token) := by
  cases s with
  | nil =>
    cases w with
    | nil => rfl
    | cons c w' =>
      have := not_digit_of_space (spaces_cons.mp hw).1
      simp [number_exponent, this, with_rest]
  | cons c s =>
    simp only [List.cons_append, number_exponent]
    split
    · cases s with
      | nil =>
        cases w with
        | nil => rfl
        | cons c' w' =>
          have := not_digit_of_space (spaces_cons.mp hw).1
          simp [this, with_rest]
      | cons c₂ s =>
        simp only [List.cons_append]
        split
        · simp [with_rest, number_exponent_digits_append w hw]
        · rfl
    · split
      · simp [with_rest, number_exponent_digits_append w hw]
      · rfl

theorem number_fraction_digits_append (w : List Char) (hw : Spaces w) :
    ∀ (s token : List Char),
      number_fraction_digits (s ++ w) token
        = with_rest w (number_fraction_digits s token) := by
  intro s
  induction s with
  | nil =>
    intro token
    cases w with
    | nil => simp [number_fraction_digits, with_rest]
    | cons c w' =>
      have := not_digit_of_space (spaces_cons.mp hw).1
      simp [number_fraction_digits, this, with_rest]
  | cons c s ih =>
    intro token
    simp only [List.cons_append, number_fraction_digits]
    split
    · exact ih _
    · split
      · exact number_exponent_append w hw _ _
      · rfl

theorem number_fraction_append (w : List Char) (hw : Spaces w) (s token : List Char) :
    number_fraction (s ++ w) token = with_rest w (number_fraction s token) := by
  cases s with
  | nil =>
    cases w with
    | nil => rfl
    | cons c w' =>
      have := not_digit_of_space (spaces_cons.mp hw).1
      simp [number_fraction, this, with_rest]
  | cons c s =>
    simp only [List.cons_append, number_fraction]
    split
    · exact number_fraction_digits_append w hw _ _
    · rfl

theorem number_integer_append (w : List Char) (hw : Spaces w) :
    ∀ (s token : List Char),
      number_integer (s ++ w) token = with_rest w (number_integer s token) := by
  intro s
  induction s with
  | nil =>
    intro token
    cases w with
    | nil => simp [number_integer, with_rest]
    | cons c w' =>
      have := not_digit_of_space (spaces_cons.mp hw).1
      simp [number_integer, this, with_rest]
  | cons c s ih =>
    intro token
    simp only [List.cons_append, number_integer]
    split
    · exact ih _
    · split
      · exact number_fraction_append w hw _ _
      · split
        · exact number_exponent_append w hw _ _
        · rfl

theorem number_after_first_append (w : List Char) (hw : Spaces w) (first_num : Char)
    (s token : List Char) :
    number_after_first first_num (s ++ w) token
      = with_rest w (number_after_first first_num s token) := by
  simp only [number_after_first]
  split
  · cases s with
    | nil =>
      cases w with
      | nil => simp [with_rest]
      | cons c w' =>
        have := not_digit_of_space (spaces_cons.mp hw).1
        simp [this, with_rest]
    | cons c s =>
      simp only [List.cons_append]
      split
      · exact number_fraction_append w hw _ _
      · split
        · exact number_exponent_append w hw _ _
        · rfl
  · split
    · rfl
    · exact number_integer_append w hw _ _

theorem tokenize_number_append (w : List Char) (hw : Spaces w) (c : Char) (s : List Char) :
    tokenize_number c (s ++ w) = with_rest w (tokenize_number c s) := by
  simp only [tokenize_number]
  split
  · cases s with
    | nil =>
      cases w with
      | nil => rfl
      | cons c' w' =>
        have := not_digit_of_space (spaces_cons.mp hw).1
        simp [this, with_rest]
    | cons first_num s =>
      simp only [List.cons_append]
      split
      · exact number_after_first_append w hw _ _ _
      · rfl
  · exact number_after_first_append w hw _ _ _

theorem check_token_append (w : List Char) (hw : Spaces w) :
    ∀ (expected s : List Char), (∀ e ∈ expected, ¬ is_space e) →
      check_token (s ++ w) expected = (check_token s expected).map (fun r => r ++ w) := by
  intro expected
  induction expected with
  | nil =>
    intro s _
    cases s with
    | nil => cases w <;> rfl
    | cons c s => rfl
  | cons e es ih =>
    intro s he
    cases s with
    | nil =>
      cases w with
      | nil => rfl
      | cons c w' =>
        have hc := (spaces_cons.mp hw).1
        have hce : c ≠ e := by
          rintro rfl
          exact he c (List.mem_cons_self _ _) hc
        simp [check_token, hce]
    | cons c s =>
      simp only [List.cons_append, check_token]
      split
      · rfl
      · exact ih s (fun x hx => he x (List.mem_cons_of_mem _ hx))

end json

namespace json

theorem skip_space_cons_space {c : Char} (hc : is_space c) (s : List Char) :
    skip_space (c :: s) = skip_space s := by
  simp only [is_space] at hc
  simp [skip_space, hc]

theorem skip_space_idem : ∀ (s w : List Char),
    skip_space (skip_space s ++ w) = skip_space (s ++ w) := by
  intro s
  induction s with
  | nil =>
    intro w
    rfl
  | cons c s ih =>
    intro w
    by_cases hc : is_space c
    · rw [skip_space_cons_space hc, List.cons_append, skip_space_cons_space hc]
      exact ih w
    · have : skip_space (c :: s) = c :: s := by
        simp only [is_space] at hc
        simp [skip_space, hc]
      rw [this]

/-- `get_token` on a non-empty stream followed by white space: the same token or error as
without the white space. -/
theorem get_token_append_spaces (w : List Char) (hw : Spaces w) (c : Char) (s : List Char) :
    get_token (c :: s ++ w) = get_token_with_rest w (get_token (c :: s)) := by
  simp only [List.cons_append, get_token]
  by_cases h1 : c = '['
  · simp [h1, get_token_with_rest]
  simp only [h1, if_false]
  by_cases h2 : c = ']'
  · simp [h2, get_token_with_rest]
  simp only [h2, if_false]
  by_cases h3 : c = '{'
  · simp [h3, get_token_with_rest]
  simp only [h3, if_false]
  by_cases h4 : c = '}'
  · simp [h4, get_token_with_rest]
  simp only [h4, if_false]
  by_cases h5 : c = ':'
  · simp [h5, get_token_with_rest]
  simp only [h5, if_false]
  by_cases h6 : c = ','
  · simp [h6, get_token_with_rest]
  simp only [h6, if_false]
  by_cases h7 : c = '"'
  · simp only [h7, if_true, tokenize_string_append w hw]
    cases tokenize_string s false 0 ['"'] with
    | none => rfl
    | some p => rfl
  simp only [h7, if_false]
  by_cases h8 : c = '-' ∨ in_range '0' '9' c = true
  · simp only [h8, if_true, tokenize_number_append w hw]
    cases tokenize_number c s with
    | none => rfl
    | some p => rfl
  simp only [h8, if_false]
  by_cases h9 : c = 't'
  · rw [if_pos h9, if_pos h9]
    have := check_token_append w hw ['t', 'r', 'u', 'e'] (c :: s) (by simp [is_space])
    rw [List.cons_append] at this
    rw [this]
    cases check_token (c :: s) ['t', 'r', 'u', 'e'] with
    | none => rfl
    | some p => rfl
  simp only [h9, if_false]
  by_cases h10 : c = 'f'
  · rw [if_pos h10, if_pos h10]
    have := check_token_append w hw ['f', 'a', 'l', 's', 'e'] (c :: s) (by simp [is_space])
    rw [List.cons_append] at this
    rw [this]
    cases check_token (c :: s) ['f', 'a', 'l', 's', 'e'] with
    | none => rfl
    | some p => rfl
  simp only [h10, if_false]
  by_cases h11 : c = 'n'
  · rw [if_pos h11, if_pos h11]
    have := check_token_append w hw ['n', 'u', 'l', 'l'] (c :: s) (by simp [is_space])
    rw [List.cons_append] at this
    rw [this]
    cases check_token (c :: s) ['n', 'u', 'l', 'l'] with
    | none => rfl
    | some p => rfl
  simp only [h11, if_false]
  split
  · simp only [get_token_with_rest]
    rw [skip_space_idem]
  · rfl

theorem get_token_cons_ne_end (c : Char) (s rest : List Char) :
    get_token (c :: s) ≠ (.error .END, rest) := by
  intro h
  simp only [get_token] at h
  by_cases h1 : c = '['
  · simp [h1] at h
  simp only [h1, if_false] at h
  by_cases h2 : c = ']'
  · simp [h2] at h
  simp only [h2, if_false] at h
  by_cases h3 : c = '{'
  · simp [h3] at h
  simp only [h3, if_false] at h
  by_cases h4 : c = '}'
  · simp [h4] at h
  simp only [h4, if_false] at h
  by_cases h5 : c = ':'
  · simp [h5] at h
  simp only [h5, if_false] at h
  by_cases h6 : c = ','
  · simp [h6] at h
  simp only [h6, if_false] at h
  by_cases h7 : c = '"'
  · simp only [h7, if_true] at h
    split at h <;> simp at h
  simp only [h7, if_false] at h
  by_cases h8 : c = '-' ∨ in_range '0' '9' c = true
  · simp only [h8, if_true] at h
    split at h <;> simp at h
  simp only [h8, if_false] at h
  by_cases h9 : c = 't'
  · rw [if_pos h9] at h
    split at h <;> simp at h
  simp only [h9, if_false] at h
  by_cases h10 : c = 'f'
  · rw [if_pos h10] at h
    split at h <;> simp at h
  simp only [h10, if_false] at h
  by_cases h11 : c = 'n'
  · rw [if_pos h11] at h
    split at h <;> simp at h
  simp only [h11, if_false] at h
  split at h <;> simp at h

theorem tokenize_skip_space (s : List Char) : tokenize (skip_space s) = tokenize s := by
  cases s with
  | nil => rfl
  | cons c s =>
    by_cases hc : is_space c
    · rw [skip_space_cons_space hc, tokenize_of_space (get_token_space hc s)]
    · have : skip_space (c :: s) = c :: s := by
        simp only [is_space] at hc
        simp [skip_space, hc]
      rw [this]

/-- White space in front of the input does not change what `tokenize` returns. -/
theorem tokenize_leading_spaces (w : List Char) (hw : Spaces w) (s : List Char) :
    tokenize (w ++ s) = tokenize s := by
  cases w with
  | nil => rfl
  | cons c w =>
    obtain ⟨hc, hw'⟩ := spaces_cons.mp hw
    rw [List.cons_append, tokenize_of_space (get_token_space hc _), skip_space_spaces _ _ hw',
      tokenize_skip_space]

/-- White space after the input does not change what `tokenize` returns. -/
theorem tokenize_trailing_spaces (w : List Char) (hw : Spaces w) (n : Nat) :
    ∀ (s : List Char), s.length ≤ n → tokenize (s ++ w) = tokenize s := by
  induction n with
  | zero =>
    intro s hs
    have : s = [] := List.length_eq_zero.mp (Nat.le_zero.mp hs)
    subst this
    rw [List.nil_append, tokenize_spells (Spells.nil w hw) trivial]
    rfl
  | succ n ih =>
    intro s hs
    cases s with
    | nil =>
      rw [List.nil_append, tokenize_spells (Spells.nil w hw) trivial]
      rfl
    | cons c s =>
      have hg := get_token_append_spaces w hw c s
      rcases hr : get_token (c :: s) with ⟨res, rest⟩
      rw [hr] at hg
      cases res with
      | ok tk =>
        simp only [get_token_with_rest] at hg
        obtain ⟨h₁, h₂⟩ := get_token_consumes hr
        have hlt : rest.length ≤ n := by
          have := congrArg List.length h₁
          have := List.length_pos.mpr h₂
          simp only [List.length_append, List.length_cons] at *
          omega
        rw [tokenize_of_token hg, tokenize_of_token hr, ih rest hlt]
      | error e =>
        cases e with
        | NIL_TOKEN =>
          simp only [get_token_with_rest] at hg
          have hlt : rest.length ≤ n := by
            have := get_token_nil hr
            simp only [List.length_cons] at *
            omega
          rw [tokenize_of_space hg, tokenize_of_space hr, tokenize_skip_space, ih rest hlt]
        | END =>
          exact absurd hr (get_token_cons_ne_end c s rest)
        | SYNTAX =>
          simp only [get_token_with_rest] at hg
          rw [tokenize_of_error hg, tokenize_of_error hr]

end json

namespace json

/-! ## White space around the input -/

/-- C16: for every input `s` and all runs `w₁`, `w₂` of space, line feed, carriage return and
tab, `tokenize (w₁ ++ s ++ w₂)` is `tokenize s` (the same tokens, or the same failure), and
so `parse` returns the same document for both, in particular the same `ok()`. -/
theorem surrounding_whitespace_ignored {D : Type} (L : StdLib D) (s w₁ w₂ : List Char)
    (m : Int) (h₁ : Spaces w₁) (h₂ : Spaces w₂) :
    tokenize (w₁ ++ s ++ w₂) = tokenize s ∧
      parse L (w₁ ++ s ++ w₂) m = parse L s m := by
  have h : tokenize (w₁ ++ s ++ w₂) = tokenize s := by
    rw [List.append_assoc, tokenize_leading_spaces w₁ h₁,
      tokenize_trailing_spaces w₂ h₂ s.length s (Nat.le_refl _)]
  refine ⟨h, ?_⟩
  simp only [parse, h]

theorem surrounding_whitespace_ignored_witness :
    Spaces " \n".toList ∧ Spaces "\r\t ".toList ∧
      tokenize (" \n".toList ++ "[true]".toList ++ "\r\t ".toList) = tokenize "[true]".toList ∧
      parse literal_lib (" \n".toList ++ "[true]".toList ++ "\r\t ".toList) 64 =
        parse literal_lib "[true]".toList 64 :=
  ⟨by simp [Spaces, is_space], by simp [Spaces, is_space],
    surrounding_whitespace_ignored literal_lib "[true]".toList " \n".toList "\r\t ".toList 64
      (by simp [Spaces, is_space]) (by simp [Spaces, is_space])⟩

end json

namespace json

/-! ## The depth limit on token sequences -/

theorem strings_ok_of_bodies {v : List Token}
    (h : ∀ tk ∈ v, tk.type_ = .STRING →
      ∃ body, StringBody body ∧ tk.token_ = '"' :: body ++ ['"']) : strings_ok v := by
  intro tk hmem hty
  obtain ⟨body, hbody, hlex⟩ := h tk hmem hty
  obtain ⟨r, hr⟩ := unescape_loop_body hbody [] [] body.length (Nat.le_refl _)
  have hb : (tk.token_.drop 1).take (tk.token_.length - 2) = body := by
    rw [hlex]
    simp
  simp only [Token.parse_string, hb, unescape_string]
  simp only [List.nil_append, List.length_nil] at hr
  rw [hr]
  simp

/-- C19, counterexample: the single token `true` is derivable with nesting depth 0, and with
`max_depth = 0` (and with `-5`) `parse_primitive` returns a value and leaves the cursor at
the end, although `0 < 0` is false. -/
theorem primitive_parses_at_max_depth_zero :
    Derives .value 0 [⟨.TRUE, "true".toList⟩]
      ∧ ¬ (((0 : Nat) : Int) < 0)
      ∧ parse_primitive literal_lib ((int_pred 0).toNat + 2) [⟨.TRUE, "true".toList⟩] 0 0
          = .ret (some (.JSON_Boolean true, 1))
      ∧ parse_primitive literal_lib ((int_pred (-5)).toNat + 2) [⟨.TRUE, "true".toList⟩] 0 (-5)
          = .ret (some (.JSON_Boolean true, 1))
      ∧ parse_tokens literal_lib (some [⟨.TRUE, "true".toList⟩]) 0
          = .ret ⟨true, some (.JSON_Boolean true)⟩ :=
  ⟨Derives.primitive _ (Or.inl rfl), by decide, rfl, rfl, rfl⟩

/-- C19, amended: for every token sequence `v` derivable from `value` with deepest nesting
`d`, whose `STRING` lexemes are literals that the scanner passes and whose `NUMBER` lexemes
convert, and every `max_depth` `m` other than `INT_MIN`: the call of `parse_primitive` that
`parse` makes returns a value with the cursor at the end of `v` if and only if `d = 0` or
`d < m`, and returns `nullptr` otherwise; so for `m >= 1` the deepest nesting accepted is
`m - 1`, and with `m = 1` exactly the primitives parse.  With `m = INT_MIN` the subtraction
`limited_depth - 1` overflows to `INT_MAX` and the value is returned if and only if
`d <= INT_MAX`. -/
theorem parse_primitive_accepts_iff_fits {D : Type} (L : StdLib D) (v : List Token) (d : Nat)
    (hder : Derives .value d v)
    (hs : ∀ tk ∈ v, tk.type_ = .STRING →
      ∃ body, StringBody body ∧ tk.token_ = '"' :: body ++ ['"'])
    (hn : numbers_ok L v) :
    (∀ m : Int, m ≠ -2147483648 →
        ((∃ p, parse_primitive L ((int_pred m).toNat + 2) v 0 m = .ret (some (p, v.length)))
            ↔ (d = 0 ∨ (d : Int) < m))
          ∧ (¬ (d = 0 ∨ (d : Int) < m) →
              parse_primitive L ((int_pred m).toNat + 2) v 0 m = .ret none)
          ∧ (m = 1 →
              ((∃ p, parse_primitive L ((int_pred m).toNat + 2) v 0 m
                  = .ret (some (p, v.length))) ↔ d = 0)))
      ∧ ((∃ p, parse_primitive L ((int_pred (-2147483648)).toNat + 2) v 0 (-2147483648)
            = .ret (some (p, v.length))) ↔ (d : Int) ≤ 2147483647) := by
  have hso := strings_ok_of_bodies hs
  have main : ∀ (m : Int) (b : Nat), m ≠ -2147483648 → m.toNat < b →
      ((∃ p, parse_primitive L b v 0 m = .ret (some (p, v.length)))
          ↔ (d = 0 ∨ (d : Int) < m))
        ∧ (¬ (d = 0 ∨ (d : Int) < m) → parse_primitive L b v 0 m = .ret none) := by
    intro m b hmin hb
    have F := follows_of_derives L hder v 0 [] b m (by simp) hso ⟨hb, hmin⟩
    simp only [Nat.zero_add, Expected, fits] at F
    rcases F with ⟨p, hp, hf, -⟩ | ⟨hp, hnot⟩
    · exact ⟨⟨fun _ => hf, fun _ => ⟨p, hp⟩⟩, fun hnot => absurd hf hnot⟩
    · refine ⟨⟨?_, fun hf => absurd ⟨hf, hn⟩ hnot⟩, fun _ => hp⟩
      rintro ⟨p, hp'⟩
      rw [hp] at hp'
      simp at hp'
  refine ⟨?_, ?_⟩
  · intro m hmin
    have hb : m.toNat < (int_pred m).toNat + 2 := by
      rw [int_pred_eq hmin]
      omega
    obtain ⟨hiff, hnone⟩ := main m _ hmin hb
    refine ⟨hiff, hnone, ?_⟩
    intro hm
    rw [hiff]
    subst hm
    constructor
    · rintro (h | h)
      · exact h
      · omega
    · intro h
      exact Or.inl h
  · rw [parse_primitive_int_min]
    have hb : (2147483648 : Int).toNat < (int_pred (-2147483648)).toNat + 2 := by decide
    rw [(main 2147483648 _ (by decide) hb).1]
    omega

/-- C19, amended, at concrete inputs: `[]` (depth 1) with `max_depth = 2` is accepted, and
with `max_depth = 1` it is not. -/
theorem parse_primitive_accepts_iff_fits_witness :
    Derives .value 1 (nested_arrays_tokens 1)
      ∧ (∀ tk ∈ nested_arrays_tokens 1, tk.type_ = .STRING →
          ∃ body, StringBody body ∧ tk.token_ = '"' :: body ++ ['"'])
      ∧ numbers_ok literal_lib (nested_arrays_tokens 1)
      ∧ (2 : Int) ≠ -2147483648
      ∧ ((∃ p, parse_primitive literal_lib ((int_pred 2).toNat + 2) (nested_arrays_tokens 1) 0 2
            = .ret (some (p, (nested_arrays_tokens 1).length)))
          ↔ ((1 : Nat) = 0 ∨ ((1 : Nat) : Int) < 2))
      ∧ (1 : Int) ≠ -2147483648
      ∧ parse_primitive literal_lib ((int_pred 1).toNat + 2) (nested_arrays_tokens 1) 0 1
          = .ret none :=
  have hs : ∀ tk ∈ nested_arrays_tokens 1, tk.type_ = .STRING →
      ∃ body, StringBody body ∧ tk.token_ = '"' :: body ++ ['"'] := by
    intro tk hmem hty
    simp only [nested_arrays_tokens, List.replicate, List.cons_append, List.nil_append,
      List.mem_cons, List.mem_singleton, List.not_mem_nil, or_false] at hmem
    rcases hmem with rfl | rfl <;> simp at hty
  ⟨derives_nested_arrays 0, hs, numbers_ok_nested_arrays literal_lib 1, by decide,
    ((parse_primitive_accepts_iff_fits literal_lib (nested_arrays_tokens 1) 1
      (derives_nested_arrays 0) hs (numbers_ok_nested_arrays literal_lib 1)).1 2
        (by decide)).1,
    by decide,
    ((parse_primitive_accepts_iff_fits literal_lib (nested_arrays_tokens 1) 1
      (derives_nested_arrays 0) hs (numbers_ok_nested_arrays literal_lib 1)).1 1
        (by decide)).2.1 (by decide)⟩

end json

namespace json

/-! ## The parser reads only the tokens of the value it returns -/

theorem lt_length_of_getElem? {tokens : List Token} {i : Nat} {tk : Token}
    (h : tokens[i]? = some tk) : i < tokens.length :=
  (List.getElem?_eq_some.mp h).1

theorem check_index_of_getElem? {tokens : List Token} {i : Nat} {tk : Token}
    (h : tokens[i]? = some tk) : CHECK_INDEX i tokens = false := by
  have := lt_length_of_getElem? h
  simp only [CHECK_INDEX, decide_eq_false_iff_not]
  omega

theorem array_loop_frame {D : Type} (element : Nat → Parsed D) (tokens : List Token)
    (Good : Nat → Nat → JSON_Primitive D → Prop)
    (helem : ∀ a e a₁, element a = .ret (some (e, a₁)) → ∃ n, a₁ = a + n ∧ Good a n e) :
    ∀ (lb i : Nat) (acc : List (JSON_Primitive D)) (p : JSON_Primitive D) (j : Nat),
      array_loop element tokens lb i acc = .ret (some (p, j)) →
      ∃ n, j = i + n ∧ 0 < n ∧ i + n ≤ tokens.length ∧
        ∀ (element' : Nat → Parsed D) (tokens' : List Token),
          (∀ a n e a', Good a n e → (∀ k, k < n → tokens'[a' + k]? = tokens[a + k]?) →
            element' a' = .ret (some (e, a' + n))) →
          ∀ (i' lb' : Nat), (∀ k, k < n → tokens'[i' + k]? = tokens[i + k]?) → n < lb' →
            array_loop element' tokens' lb' i' acc = .ret (some (p, i' + n)) := by
  intro lb
  induction lb with
  | zero =>
    intro i acc p j h
    simp [array_loop] at h
  | succ l ih =>
    intro i acc p j h
    simp only [array_loop] at h
    split_ifs at h with h₁
    · simp at h
    split at h
    · rename_i e i₁ he
      obtain ⟨n₁, rfl, hfr⟩ := helem i e _ he
      split_ifs at h with h₂
      · simp at h
      split at h
      · simp at h
      · rename_i tk hget
        have hlen := lt_length_of_getElem? hget
        split_ifs at h with h₃ h₄
        · obtain ⟨n₂, rfl, -, hle, hfr₂⟩ := ih _ _ _ _ h
          refine ⟨n₁ + 1 + n₂, by omega, by omega, by omega, ?_⟩
          intro element' tokens' hel' i' lb' hag hlb
          cases lb' with
          | zero => omega
          | succ m =>
            have he' := hel' i n₁ e i' hfr (fun k hk => hag k (by omega))
            have hget' : tokens'[i' + n₁]? = some tk := by
              rw [hag n₁ (by omega), hget]
            have hfirst : CHECK_INDEX i' tokens' = false := by
              have h0 := hag 0 (by omega)
              have : i < tokens.length := by omega
              rw [Nat.add_zero, Nat.add_zero, List.getElem?_eq_getElem this] at h0
              exact check_index_of_getElem? h0
            have hrest := hfr₂ element' tokens' hel' (i' + n₁ + 1) m
              (fun k hk => by
                have := hag (n₁ + 1 + k) (by omega)
                simpa only [Nat.add_assoc] using this)
              (by omega)
            simp only [array_loop, hfirst, he', check_index_of_getElem? hget', hget', h₃,
              if_true, Bool.false_eq_true, if_false, hrest]
            simp only [Nat.add_assoc]
        · simp only [Outcome.ret.injEq, Option.some.injEq, Prod.mk.injEq] at h
          obtain ⟨rfl, rfl⟩ := h
          refine ⟨n₁ + 1, rfl, by omega, by omega, ?_⟩
          intro element' tokens' hel' i' lb' hag hlb
          cases lb' with
          | zero => omega
          | succ m =>
            have he' := hel' i n₁ e i' hfr (fun k hk => hag k (by omega))
            have hget' : tokens'[i' + n₁]? = some tk := by
              rw [hag n₁ (by omega), hget]
            have hfirst : CHECK_INDEX i' tokens' = false := by
              have h0 := hag 0 (by omega)
              have : i < tokens.length := by omega
              rw [Nat.add_zero, Nat.add_zero, List.getElem?_eq_getElem this] at h0
              exact check_index_of_getElem? h0
            simp only [array_loop, hfirst, he', check_index_of_getElem? hget', hget', h₄,
              if_true, Bool.false_eq_true, if_false]
            simp [Nat.add_assoc]
        · simp at h
    · simp at h
    · simp at h
    · simp at h

theorem getElem?_of_check_index {tokens : List Token} {i : Nat}
    (h : ¬ CHECK_INDEX i tokens = true) : ∃ tk, tokens[i]? = some tk := by
  simp only [CHECK_INDEX, decide_eq_true_eq, ge_iff_le, not_le] at h
  exact ⟨tokens[i], List.getElem?_eq_getElem h⟩

theorem check_index_of_agree {tokens tokens' : List Token} {i i' n : Nat}
    (hag : ∀ k, k < n → tokens'[i' + k]? = tokens[i + k]?) {k : Nat} (hk : k < n)
    (h : ¬ CHECK_INDEX (i + k) tokens = true) : CHECK_INDEX (i' + k) tokens' = false := by
  obtain ⟨tk, htk⟩ := getElem?_of_check_index h
  exact check_index_of_getElem? ((hag k hk).trans htk)

theorem object_loop_frame {D : Type} (element : Nat → Parsed D) (tokens : List Token)
    (Good : Nat → Nat → JSON_Primitive D → Prop)
    (helem : ∀ a e a₁, element a = .ret (some (e, a₁)) → ∃ n, a₁ = a + n ∧ Good a n e) :
    ∀ (lb i : Nat) (acc : List (List Char × JSON_Primitive D)) (p : JSON_Primitive D)
      (j : Nat), object_loop element tokens lb i acc = .ret (some (p, j)) →
      ∃ n, j = i + n ∧ 0 < n ∧ i + n ≤ tokens.length ∧
        ∀ (element' : Nat → Parsed D) (tokens' : List Token),
          (∀ a n e a', Good a n e → (∀ k, k < n → tokens'[a' + k]? = tokens[a + k]?) →
            element' a' = .ret (some (e, a' + n))) →
          ∀ (i' lb' : Nat), (∀ k, k < n → tokens'[i' + k]? = tokens[i + k]?) → n < lb' →
            object_loop element' tokens' lb' i' acc = .ret (some (p, i' + n)) := by
  intro lb
  induction lb with
  | zero =>
    intro i acc p j h
    simp [object_loop] at h
  | succ l ih =>
    intro i acc p j h
    simp only [object_loop] at h
    split at h
    · simp at h
    rename_i hc₀
    split at h
    · simp at h
    rename_i key hkey
    split at h
    · simp at h
    rename_i hks
    split at h
    · simp at h
    rename_i str hstr
    split at h
    · simp at h
    rename_i hc₁
    split at h
    · simp at h
    rename_i colon hcolon
    split at h
    · simp at h
    rename_i hcs
    split at h
    · simp at h
    rename_i hc₂
    split at h
    · rename_i e i₁ he
      obtain ⟨n₁, rfl, hfr⟩ := helem _ e _ he
      split at h
      · simp at h
      rename_i hc₃
      split at h
      · simp at h
      rename_i tk hget
      have hlen := lt_length_of_getElem? hget
      have hsides : ∀ (element' : Nat → Parsed D) (tokens' : List Token) (n i' : Nat),
          (∀ a n e a', Good a n e → (∀ k, k < n → tokens'[a' + k]? = tokens[a + k]?) →
            element' a' = .ret (some (e, a' + n))) →
          2 + n₁ + 1 ≤ n →
          (∀ k, k < n → tokens'[i' + k]? = tokens[i + k]?) →
          CHECK_INDEX i' tokens' = false ∧ tokens'[i']? = some key
            ∧ CHECK_INDEX (i' + 1) tokens' = false ∧ tokens'[i' + 1]? = some colon
            ∧ CHECK_INDEX (i' + 1 + 1) tokens' = false
            ∧ element' (i' + 1 + 1) = .ret (some (e, i' + 1 + 1 + n₁))
            ∧ CHECK_INDEX (i' + 1 + 1 + n₁) tokens' = false
            ∧ tokens'[i' + 1 + 1 + n₁]? = some tk := by
        intro element' tokens' n i' hel' hn hag
        have h0 : tokens'[i']? = some key := by
          have := hag 0 (by omega)
          rw [Nat.add_zero, Nat.add_zero, hkey] at this
          exact this
        have h1 : tokens'[i' + 1]? = some colon := by
          rw [hag 1 (by omega), hcolon]
        have h2 : CHECK_INDEX (i' + 1 + 1) tokens' = false := by
          have := check_index_of_agree hag (show 2 < n by omega) hc₂
          exact this
        have h3 : tokens'[i' + 1 + 1 + n₁]? = some tk := by
          have := hag (1 + 1 + n₁) (by omega)
          simp only [← Nat.add_assoc] at this
          rw [this, hget]
        refine ⟨check_index_of_getElem? h0, h0, check_index_of_getElem? h1, h1, h2, ?_,
          check_index_of_getElem? h3, h3⟩
        apply hel' _ _ _ _ hfr
        intro k hk
        have := hag (1 + 1 + k) (by omega)
        simpa only [← Nat.add_assoc] using this
      split at h
      · rename_i h₅
        obtain ⟨n₂, rfl, -, hle, hfr₂⟩ := ih _ _ _ _ h
        refine ⟨1 + 1 + n₁ + 1 + n₂, by omega, by omega, by omega, ?_⟩
        intro element' tokens' hel' i' lb' hag hlb
        cases lb' with
        | zero => omega
        | succ m =>
          obtain ⟨a₀, a₁, a₂, a₃, a₄, a₅, a₆, a₇⟩ := hsides element' tokens' _ i' hel' (by omega) hag
          have hrest := hfr₂ element' tokens' hel' (i' + 1 + 1 + n₁ + 1) m
            (fun k hk => by
              have := hag (1 + 1 + n₁ + 1 + k) (by omega)
              simpa only [← Nat.add_assoc] using this)
            (by omega)
          simp only [object_loop, a₀, a₁, a₂, a₃, a₄, a₅, a₆, a₇, hks, hstr, hcs, h₅,
            if_true, Bool.false_eq_true, if_false, hrest]
          simp only [Nat.add_assoc]
      split at h
      · rename_i h₅ h₆
        simp only [Outcome.ret.injEq, Option.some.injEq, Prod.mk.injEq] at h
        obtain ⟨rfl, rfl⟩ := h
        refine ⟨1 + 1 + n₁ + 1, by omega, by omega, by omega, ?_⟩
        intro element' tokens' hel' i' lb' hag hlb
        cases lb' with
        | zero => omega
        | succ m =>
          obtain ⟨a₀, a₁, a₂, a₃, a₄, a₅, a₆, a₇⟩ := hsides element' tokens' _ i' hel' (by omega) hag
          simp only [object_loop, a₀, a₁, a₂, a₃, a₄, a₅, a₆, a₇, hks, hstr, hcs, h₅, h₆,
            if_true, Bool.false_eq_true, if_false]
          simp [Nat.add_assoc]
      · simp at h
    · simp at h
    · simp at h
    · simp at h

/-- The value that `parse_primitive` returns depends only on the tokens between the cursor
at the call and the cursor at the return: the same tokens at another place of another
sequence, with a depth limit at least as large, give the same value (for every
`limited_depth` but `INT_MIN`). -/
theorem parse_primitive_frame {D : Type} (L : StdLib D) (budget : Nat) :
    ∀ (tokens : List Token) (i : Nat) (Ld : Int) (p : JSON_Primitive D) (j : Nat),
      parse_primitive L budget tokens i Ld = .ret (some (p, j)) → Ld ≠ -2147483648 →
      ∃ n, j = i + n ∧ 0 < n ∧ i + n ≤ tokens.length ∧
        ∀ (tokens' : List Token) (i' budget' : Nat) (Ld' : Int),
          (∀ k, k < n → tokens'[i' + k]? = tokens[i + k]?) → Ld ≤ Ld' →
          Ld'.toNat < budget' →
          parse_primitive L budget' tokens' i' Ld' = .ret (some (p, i' + n)) := by
  induction budget with
  | zero =>
    intro tokens i Ld p j h _
    simp [parse_primitive] at h
  | succ b ih =>
    intro tokens i Ld p j h hLd
    simp only [parse_primitive, int_pred_eq hLd] at h
    split at h
    · simp at h
    split at h
    · simp at h
    rename_i tk hget
    have hlen := lt_length_of_getElem? hget
    have hfirst : ∀ (tokens' : List Token) (i' n : Nat), 0 < n →
        (∀ k, k < n → tokens'[i' + k]? = tokens[i + k]?) → tokens'[i']? = some tk := by
      intro tokens' i' n hn hag
      have := hag 0 hn
      rw [Nat.add_zero, Nat.add_zero, hget] at this
      exact this
    have hprim : ∀ (q : JSON_Primitive D),
        (∀ (tokens' : List Token) (i' b' : Nat) (Ld' : Int), tokens'[i']? = some tk →
          ¬ i' ≥ tokens'.length →
          parse_primitive L (b' + 1) tokens' i' Ld' = .ret (some (q, i' + 1))) →
        (Outcome.ret (some (q, i + 1)) : Parsed D) = .ret (some (p, j)) →
        ∃ n, j = i + n ∧ 0 < n ∧ i + n ≤ tokens.length ∧
          ∀ (tokens' : List Token) (i' budget' : Nat) (Ld' : Int),
            (∀ k, k < n → tokens'[i' + k]? = tokens[i + k]?) → Ld ≤ Ld' →
            Ld'.toNat < budget' →
            parse_primitive L budget' tokens' i' Ld' = .ret (some (p, i' + n)) := by
      intro q hq heq
      simp only [Outcome.ret.injEq, Option.some.injEq, Prod.mk.injEq] at heq
      obtain ⟨rfl, rfl⟩ := heq
      refine ⟨1, rfl, by omega, by omega, ?_⟩
      intro tokens' i' budget' Ld' hag hLd hb
      cases budget' with
      | zero => omega
      | succ b' =>
        have hget' := hfirst tokens' i' 1 (by omega) hag
        have := lt_length_of_getElem? hget'
        exact hq tokens' i' b' Ld' hget' (by omega)
    split at h
    · rename_i hty
      refine hprim _ ?_ h
      intro tokens' i' b' Ld' hget' hlen'
      simp [parse_primitive, hget', hlen', hty]
    split at h
    · rename_i hty₁ hty
      split at h
      · simp at h
      · rename_i value hval
        refine hprim _ ?_ h
        intro tokens' i' b' Ld' hget' hlen'
        simp [parse_primitive, hget', hlen', hty, hval]
    split at h
    · rename_i hty₁ hty₂ hty
      split at h
      · simp at h
      · rename_i str hstr
        refine hprim _ ?_ h
        intro tokens' i' b' Ld' hget' hlen'
        simp [parse_primitive, hget', hlen', hty, hstr]
    split at h
    · rename_i hty₁ hty₂ hty₃ hty
      refine hprim _ ?_ h
      intro tokens' i' b' Ld' hget' hlen'
      simp [parse_primitive, hget', hlen', hty]
    split at h
    · rename_i hty
      simp only [parse_array] at h
      split at h
      · simp at h
      rename_i hL
      split at h
      · simp at h
      rename_i tk₁ hget₁
      have hlen₁ := lt_length_of_getElem? hget₁
      split at h
      · rename_i hty₁
        simp only [Outcome.ret.injEq, Option.some.injEq, Prod.mk.injEq] at h
        obtain ⟨rfl, rfl⟩ := h
        refine ⟨1 + 1, rfl, by omega, by omega, ?_⟩
        intro tokens' i' budget' Ld' hag hLd hb
        cases budget' with
        | zero => omega
        | succ b' =>
          have hget' := hfirst tokens' i' (1 + 1) (by omega) hag
          have hget₁' : tokens'[i' + 1]? = some tk₁ := by
            rw [hag 1 (by omega), hget₁]
          have hlen' := lt_length_of_getElem? hget'
          have hL' : ¬ Ld' - 1 ≤ 0 := by omega
          have hpred' : int_pred Ld' = Ld' - 1 := int_pred_eq (by omega)
          simp [parse_primitive, hpred', parse_array, hget', hlen', hty, hget₁', hty₁, hL']
      · rename_i hty₁
        obtain ⟨n, rfl, hpos, hle, hfr⟩ :=
          array_loop_frame (fun a => parse_primitive L b tokens a (Ld - 1)) tokens
            (fun a n e => ∀ (tokens' : List Token) (i' budget' : Nat) (Ld' : Int),
              (∀ k, k < n → tokens'[i' + k]? = tokens[a + k]?) → Ld - 1 ≤ Ld' →
              Ld'.toNat < budget' →
              parse_primitive L budget' tokens' i' Ld' = .ret (some (e, i' + n)))
            (fun a e a₁ he => by
              obtain ⟨n, hn, -, -, hfr⟩ := ih tokens a (Ld - 1) e a₁ he (by omega)
              exact ⟨n, hn, hfr⟩)
            _ _ _ _ _ h
        refine ⟨1 + n, by omega, by omega, by omega, ?_⟩
        intro tokens' i' budget' Ld' hag hLd hb
        cases budget' with
        | zero => omega
        | succ b' =>
          have hget' := hfirst tokens' i' (1 + n) (by omega) hag
          have hget₁' : tokens'[i' + 1]? = some tk₁ := by
            rw [hag 1 (by omega), hget₁]
          have hlen' := lt_length_of_getElem? hget'
          have hL' : ¬ Ld' - 1 ≤ 0 := by omega
          have hpred' : int_pred Ld' = Ld' - 1 := int_pred_eq (by omega)
          have hlast : i' + n < tokens'.length := by
            have hk : i + n < tokens.length := by omega
            have := hag n (by omega)
            rw [List.getElem?_eq_getElem hk] at this
            exact lt_length_of_getElem? this
          have hrest := hfr (fun a => parse_primitive L b' tokens' a (Ld' - 1)) tokens'
            (fun a n e a' hgood hag' => hgood tokens' a' b' (Ld' - 1) hag' (by omega)
              (by omega))
            (i' + 1) tokens'.length
            (fun k hk => by
              have := hag (1 + k) (by omega)
              simpa only [← Nat.add_assoc] using this)
            (by omega)
          simp only [parse_primitive, hpred', parse_array, ge_iff_le, Nat.not_le.mpr hlen',
            hget',
            hget₁', hty, hty₁, hL', if_true, if_false, hrest]
          simp [hty, Nat.add_assoc]
    split at h
    · rename_i hty
      simp only [parse_object] at h
      split at h
      · simp at h
      rename_i hL
      split at h
      · simp at h
      rename_i tk₁ hget₁
      have hlen₁ := lt_length_of_getElem? hget₁
      split at h
      · rename_i hty₁
        simp only [Outcome.ret.injEq, Option.some.injEq, Prod.mk.injEq] at h
        obtain ⟨rfl, rfl⟩ := h
        refine ⟨1 + 1, rfl, by omega, by omega, ?_⟩
        intro tokens' i' budget' Ld' hag hLd hb
        cases budget' with
        | zero => omega
        | succ b' =>
          have hget' := hfirst tokens' i' (1 + 1) (by omega) hag
          have hget₁' : tokens'[i' + 1]? = some tk₁ := by
            rw [hag 1 (by omega), hget₁]
          have hlen' := lt_length_of_getElem? hget'
          have hL' : ¬ Ld' - 1 ≤ 0 := by omega
          have hpred' : int_pred Ld' = Ld' - 1 := int_pred_eq (by omega)
          simp [parse_primitive, hpred', parse_object, hget', hlen', hty, hget₁', hty₁, hL']
      · rename_i hty₁
        obtain ⟨n, rfl, hpos, hle, hfr⟩ :=
          object_loop_frame (fun a => parse_primitive L b tokens a (Ld - 1)) tokens
            (fun a n e => ∀ (tokens' : List Token) (i' budget' : Nat) (Ld' : Int),
              (∀ k, k < n → tokens'[i' + k]? = tokens[a + k]?) → Ld - 1 ≤ Ld' →
              Ld'.toNat < budget' →
              parse_primitive L budget' tokens' i' Ld' = .ret (some (e, i' + n)))
            (fun a e a₁ he => by
              obtain ⟨n, hn, -, -, hfr⟩ := ih tokens a (Ld - 1) e a₁ he (by omega)
              exact ⟨n, hn, hfr⟩)
            _ _ _ _ _ h
        refine ⟨1 + n, by omega, by omega, by omega, ?_⟩
        intro tokens' i' budget' Ld' hag hLd hb
        cases budget' with
        | zero => omega
        | succ b' =>
          have hget' := hfirst tokens' i' (1 + n) (by omega) hag
          have hget₁' : tokens'[i' + 1]? = some tk₁ := by
            rw [hag 1 (by omega), hget₁]
          have hlen' := lt_length_of_getElem? hget'
          have hL' : ¬ Ld' - 1 ≤ 0 := by omega
          have hpred' : int_pred Ld' = Ld' - 1 := int_pred_eq (by omega)
          have hlast : i' + n < tokens'.length := by
            have hk : i + n < tokens.length := by omega
            have := hag n (by omega)
            rw [List.getElem?_eq_getElem hk] at this
            exact lt_length_of_getElem? this
          have hrest := hfr (fun a => parse_primitive L b' tokens' a (Ld' - 1)) tokens'
            (fun a n e a' hgood hag' => hgood tokens' a' b' (Ld' - 1) hag' (by omega)
              (by omega))
            (i' + 1) tokens'.length
            (fun k hk => by
              have := hag (1 + k) (by omega)
              simpa only [← Nat.add_assoc] using this)
            (by omega)
          simp only [parse_primitive, hpred', parse_object, ge_iff_le, Nat.not_le.mpr hlen',
            hget',
            hget₁', hty, hty₁, hL', if_true, if_false, hrest]
          simp [hty, Nat.add_assoc]
    · simp at h

end json

namespace json

/-! ## The elements of a parsed array -/

theorem strings_ok_drop {tokens : List Token} (h : strings_ok tokens) (i : Nat) :
    strings_ok (tokens.drop i) :=
  fun tk ht => h tk (List.mem_of_mem_drop ht)

theorem getElem?_append_of_drop {tokens v rest : List Token} {i : Nat}
    (h : tokens.drop i = v ++ rest) (k : Nat) (hk : k < v.length) :
    v[0 + k]? = tokens[i + k]? := by
  rw [getElem?_of_drop h k, Nat.zero_add, List.getElem?_append_left hk]

/-- The loop of `parse_array` on the elements `v, vs`: the array returned has the elements
added before and then, for every element text in order, the value that `parse_primitive`
gives on that text alone. -/
theorem array_loop_elements {D : Type} (L : StdLib D) (b : Nat) (Ld : Int)
    (hb : Ld.toNat < b ∧ Ld ≠ -2147483648) (tokens : List Token) (hs : strings_ok tokens) :
    ∀ (vs : List (List Token)) (v : List Token) (lb i : Nat)
      (acc : List (JSON_Primitive D)) (p : JSON_Primitive D) (j : Nat),
      Grammatical v → (∀ w ∈ vs, Grammatical w) → tokens.drop i = v ++ array_rest vs →
      array_loop (fun a => parse_primitive L b tokens a Ld) tokens lb i acc
        = .ret (some (p, j)) →
      ∃ ps, p = .JSON_Array (acc ++ ps) ∧
        List.Forall₂ (fun w q => ∀ (b' : Nat) (Ld' : Int), Ld ≤ Ld' → Ld'.toNat < b' →
          parse_primitive L b' w 0 Ld' = .ret (some (q, w.length))) (v :: vs) ps := by
  intro vs
  induction vs with
  | nil =>
    intro v lb i acc p j hv _ hdrop h
    cases lb with
    | zero => simp [array_loop] at h
    | succ l =>
      obtain ⟨d, hder⟩ := hv
      have hsv : strings_ok v := by
        have := strings_ok_drop hs i
        rw [hdrop] at this
        exact (strings_ok_append.mp this).1
      have F := follows_of_derives L hder tokens i _ b Ld hdrop hsv hb
      have hclose : tokens[i + v.length]? = some ⟨.ARRAY_CLOSE, [']']⟩ :=
        getElem?_of_drop_cons (drop_add_of_drop_append hdrop)
      have hfirst : CHECK_INDEX i tokens = false := by
        obtain ⟨tk, tl, hvv, -⟩ := derives_head hder
        rw [hvv] at hdrop
        exact check_index_of_getElem? (getElem?_of_drop_cons hdrop)
      rcases F with ⟨e, he, -, -⟩ | ⟨he, -⟩
      · obtain ⟨n, hn, -, -, hfr⟩ := parse_primitive_frame L b tokens i Ld e _ he hb.2
        have hnv : n = v.length := by omega
        subst hnv
        simp only [array_loop, hfirst, he, check_index_of_getElem? hclose, hclose,
          Bool.false_eq_true, if_false] at h
        simp only [reduceCtorEq, if_false, if_true, Outcome.ret.injEq, Option.some.injEq,
          Prod.mk.injEq] at h
        refine ⟨[e], h.1.symm, List.Forall₂.cons ?_ List.Forall₂.nil⟩
        intro b' Ld' hLd hb'
        have := hfr v 0 b' Ld' (getElem?_append_of_drop hdrop) hLd hb'
        simpa using this
      · simp [array_loop, hfirst, he] at h
  | cons v₂ vs ih =>
    intro v lb i acc p j hv hvs hdrop h
    cases lb with
    | zero => simp [array_loop] at h
    | succ l =>
      obtain ⟨d, hder⟩ := hv
      have hsv : strings_ok v := by
        have := strings_ok_drop hs i
        rw [hdrop] at this
        exact (strings_ok_append.mp this).1
      have F := follows_of_derives L hder tokens i _ b Ld hdrop hsv hb
      have hdrop₂ := drop_add_of_drop_append hdrop
      have hcomma : tokens[i + v.length]? = some ⟨.COMMA, [',']⟩ :=
        getElem?_of_drop_cons hdrop₂
      have hfirst : CHECK_INDEX i tokens = false := by
        obtain ⟨tk, tl, hvv, -⟩ := derives_head hder
        rw [hvv] at hdrop
        exact check_index_of_getElem? (getElem?_of_drop_cons hdrop)
      rcases F with ⟨e, he, -, -⟩ | ⟨he, -⟩
      · obtain ⟨n, hn, -, -, hfr⟩ := parse_primitive_frame L b tokens i Ld e _ he hb.2
        have hnv : n = v.length := by omega
        subst hnv
        simp only [array_loop, hfirst, he, check_index_of_getElem? hcomma, hcomma,
          Bool.false_eq_true, if_false, if_true] at h
        obtain ⟨ps, hp, hall⟩ := ih v₂ l (i + v.length + 1) (acc ++ [e]) p j
          (hvs v₂ (List.mem_cons_self _ _))
          (fun w hw => hvs w (List.mem_cons_of_mem _ hw))
          (drop_succ_of_drop_cons hdrop₂) h
        refine ⟨e :: ps, by simpa using hp, List.Forall₂.cons ?_ hall⟩
        intro b' Ld' hLd hb'
        have := hfr v 0 b' Ld' (getElem?_append_of_drop hdrop) hLd hb'
        simpa using this
      · simp [array_loop, hfirst, he] at h

end json

namespace json

theorem forall₂_getElem? {α β : Type} {R : α → β → Prop} {l₁ : List α} {l₂ : List β}
    (h : List.Forall₂ R l₁ l₂) :
    ∀ (k : Nat) (a : α) (b : β), l₁[k]? = some a → l₂[k]? = some b → R a b := by
  induction h with
  | nil =>
    intro k a b ha
    simp at ha
  | cons hab _ ih =>
    intro k a b ha hb
    cases k with
    | zero =>
      simp only [List.getElem?_cons_zero, Option.some.injEq] at ha hb
      subst ha
      subst hb
      exact hab
    | succ k =>
      simp only [List.getElem?_cons_succ] at ha hb
      exact ih k a b ha hb

theorem parse_tokens_of_parse_primitive {D : Type} (L : StdLib D) {w : List Token}
    {q : JSON_Primitive D} {m : Int} (hw : w ≠ [])
    (h : parse_primitive L ((int_pred m).toNat + 2) w 0 m = .ret (some (q, w.length))) :
    parse_tokens L (some w) m = .ret ⟨true, some q⟩ := by
  have hne : w.length ≠ 0 := fun h0 => hw (List.length_eq_zero.mp h0)
  simp [parse_tokens, hne, h, JSON_File.set_root]

theorem array_to_string_loop_eq {D : Type} (L : StdLib D) (ps : List (JSON_Primitive D)) :
    JSON_Array.to_string_loop L ps
      = (ps.map (fun p => JSON_Primitive.to_string L p ++ [','])).flatten := by
  induction ps with
  | nil => simp [JSON_Array.to_string_loop]
  | cons p ps ih =>
    rw [JSON_Array.to_string_loop, ih]
    simp

/-- C15: when the array text `[v₁, ..., vₙ]` parses, the root is an array with exactly `n`
elements, the `k`-th element is the root that `parse` gives on `vₖ` alone (on its tokens, and
on every text with these tokens), and `to_string` of the array is `[` followed by the
renderings of the elements in that order, each followed by a comma, and `]`. -/
theorem array_elements_in_order {D : Type} (L : StdLib D) (text : List Char)
    (vs : List (List Token)) (m : Int) (root : JSON_Primitive D)
    (htok : tokenize text = .ret (some (array_tokens vs)))
    (hvs : ∀ v ∈ vs, Grammatical v)
    (h : parse L text m = .ret ⟨true, some root⟩) :
    ∃ ps, root = .JSON_Array ps ∧ ps.length = vs.length
      ∧ (∀ (k : Nat) (v : List Token) (p : JSON_Primitive D),
          vs[k]? = some v → ps[k]? = some p →
          parse_tokens L (some v) m = .ret ⟨true, some p⟩
            ∧ ∀ (t : List Char), tokenize t = .ret (some v) →
                parse L t m = .ret ⟨true, some p⟩)
      ∧ JSON_Primitive.to_string L root
          = ['['] ++ (ps.map (fun p => JSON_Primitive.to_string L p ++ [','])).flatten
              ++ [']'] := by
  have hs := tokenize_strings_ok htok
  rw [parse_eq_parse_tokens L m htok] at h
  have key : ∃ ps, root = .JSON_Array ps ∧
      List.Forall₂ (fun w q => ∀ (b' : Nat) (Ld' : Int), int_pred m ≤ Ld' → Ld'.toNat < b' →
        parse_primitive L b' w 0 Ld' = .ret (some (q, w.length))) vs ps := by
    cases vs with
    | nil =>
      refine ⟨[], ?_, List.Forall₂.nil⟩
      by_cases hm : int_pred m ≤ 0
      · simp [parse_tokens, array_tokens, parse_primitive, parse_array, hm,
          JSON_File.empty] at h
      · simp [parse_tokens, array_tokens, parse_primitive, parse_array, hm,
          JSON_File.set_root] at h
        exact h.symm
    | cons v vs' =>
      obtain ⟨d, hder⟩ := hvs v (List.mem_cons_self _ _)
      obtain ⟨tk, tl, hv, hnc, -⟩ := derives_head hder
      have hne : (array_tokens (v :: vs')).length ≠ 0 := by simp [array_tokens]
      simp only [parse_tokens, hne, if_false] at h
      split at h
      · rename_i root' idx heq
        have hroot : root' = root := by
          split at h
          · simp [JSON_File.empty] at h
          · simpa [JSON_File.set_root] using h
        subst hroot
        have h0 : (array_tokens (v :: vs'))[0]? = some ⟨.ARRAY_OPEN, ['[']⟩ := by
          simp [array_tokens]
        have h1 : (array_tokens (v :: vs'))[0 + 1]? = some tk := by
          simp [array_tokens, hv]
        simp only [parse_primitive, ge_iff_le, Nat.le_zero, hne, if_false, h0, parse_array,
          h1, hnc] at heq
        simp only [reduceCtorEq, or_self, if_false, if_true] at heq
        split at heq
        · simp at heq
        rename_i hm
        have hb : (int_pred m).toNat < (int_pred m).toNat + 1 ∧ int_pred m ≠ -2147483648 := by
          omega
        obtain ⟨ps, hp, hall⟩ := array_loop_elements L ((int_pred m).toNat + 1) (int_pred m) hb
          (array_tokens (v :: vs')) hs vs' v _ (0 + 1) [] root' idx ⟨d, hder⟩
          (fun w hw => hvs w (List.mem_cons_of_mem _ hw)) (by simp [array_tokens]) heq
        exact ⟨ps, by simpa using hp, hall⟩
      · simp [JSON_File.empty] at h
      · simp at h
      · simp at h
  obtain ⟨ps, hroot, hall⟩ := key
  refine ⟨ps, hroot, hall.length_eq.symm, ?_, ?_⟩
  · intro k v p hv hp
    have hmem : v ∈ vs := List.getElem?_mem hv
    obtain ⟨d, hder⟩ := hvs v hmem
    obtain ⟨tk, tl, hvv, -⟩ := derives_head hder
    have hne : v ≠ [] := by simp [hvv]
    have hpp : parse_primitive L ((int_pred m).toNat + 2) v 0 m
        = .ret (some (p, v.length)) := by
      by_cases hmin : m = -2147483648
      · subst hmin
        rw [parse_primitive_int_min]
        exact forall₂_getElem? hall k v p hv hp _ 2147483648 (by decide) (by decide)
      · have hpred := int_pred_eq hmin
        exact forall₂_getElem? hall k v p hv hp _ m (by omega) (by omega)
    have hpt := parse_tokens_of_parse_primitive L hne hpp
    refine ⟨hpt, ?_⟩
    intro t ht
    rw [parse_eq_parse_tokens L m ht, hpt]
  · rw [hroot, JSON_Primitive.to_string, array_to_string_loop_eq]

/-- C15 at a concrete input: `[true,[]]` with `max_depth = 3`. -/
theorem array_elements_in_order_witness :
    tokenize "[true,[]]".toList = .ret (some (array_tokens
        [[⟨.TRUE, "true".toList⟩], [⟨.ARRAY_OPEN, ['[']⟩, ⟨.ARRAY_CLOSE, [']']⟩]]))
      ∧ (∀ v ∈ [[(⟨.TRUE, "true".toList⟩ : Token)],
            [⟨.ARRAY_OPEN, ['[']⟩, ⟨.ARRAY_CLOSE, [']']⟩]], Grammatical v)
      ∧ parse literal_lib "[true,[]]".toList 3
          = .ret ⟨true, some (.JSON_Array [.JSON_Boolean true, .JSON_Array []])⟩
      ∧ ∃ ps, JSON_Primitive.JSON_Array [.JSON_Boolean true, .JSON_Array []]
            = JSON_Primitive.JSON_Array ps
          ∧ ps.length = 2
          ∧ (∀ (k : Nat) (v : List Token) (p : JSON_Primitive (List Char)),
              [[(⟨.TRUE, "true".toList⟩ : Token)],
                [⟨.ARRAY_OPEN, ['[']⟩, ⟨.ARRAY_CLOSE, [']']⟩]][k]? = some v →
              ps[k]? = some p →
              parse_tokens literal_lib (some v) 3 = .ret ⟨true, some p⟩
                ∧ ∀ (t : List Char), tokenize t = .ret (some v) →
                    parse literal_lib t 3 = .ret ⟨true, some p⟩)
          ∧ JSON_Primitive.to_string literal_lib
                (.JSON_Array [.JSON_Boolean true, .JSON_Array []])
              = ['['] ++ (ps.map
                  (fun p => JSON_Primitive.to_string literal_lib p ++ [','])).flatten
                ++ [']'] :=
  have hg : ∀ v ∈ [[(⟨.TRUE, "true".toList⟩ : Token)],
      [⟨.ARRAY_OPEN, ['[']⟩, ⟨.ARRAY_CLOSE, [']']⟩]], Grammatical v := by
    intro v hv
    simp only [List.mem_cons, List.mem_singleton, List.not_mem_nil, or_false] at hv
    rcases hv with rfl | rfl
    · exact ⟨0, Derives.primitive _ (Or.inl rfl)⟩
    · exact ⟨1, Derives.empty_array _ _ rfl rfl⟩
  ⟨by decide, hg, rfl,
    array_elements_in_order literal_lib "[true,[]]".toList _ 3 _ (by decide) hg rfl⟩

end json

namespace json

/-! ## Claims on the decoding of escapes -/

/-- C22: on a body that is exactly one two-character escape `unescape_string` returns one
character: the quote, the backslash, the slash, 0x08 for `b`, 0x0C for `f`, 0x0A for `n`,
0x09 for `t`, and for `r` the letter `r` (0x72), not the carriage return 0x0D. -/
theorem two_character_escape_table :
    unescape_string ['\\', '"'] = some ['"']
      ∧ unescape_string ['\\', '\\'] = some ['\\']
      ∧ unescape_string ['\\', '/'] = some ['/']
      ∧ unescape_string ['\\', 'b'] = some [Char.ofNat 0x08]
      ∧ unescape_string ['\\', 'f'] = some [Char.ofNat 0x0C]
      ∧ unescape_string ['\\', 'n'] = some [Char.ofNat 0x0A]
      ∧ unescape_string ['\\', 't'] = some [Char.ofNat 0x09]
      ∧ unescape_string ['\\', 'r'] = some [Char.ofNat 0x72]
      ∧ Char.ofNat 0x72 = 'r'
      ∧ unescape_string ['\\', 'r'] ≠ some [Char.ofNat 0x0D]
      ∧ (Token.mk .STRING ['"', '\\', 'r', '"']).parse_string = some ['r'] := by
  refine ⟨by decide, by decide, by decide, by decide, by decide, by decide, by decide,
    by decide, by decide, by decide, by decide⟩

theorem hex_val_digit {c : Char} (h : in_range '0' '9' c = true) :
    (hex_val c % 2 ^ 32).toNat = c.toNat - '0'.toNat ∧ c.toNat - '0'.toNat ≤ 9 := by
  have h' := h
  simp only [in_range, Bool.and_eq_true, decide_eq_true_eq] at h'
  have h0 : '0'.toNat = 48 := rfl
  have h9 : '9'.toNat = 57 := rfl
  rw [h0, h9] at h'
  simp only [hex_val, h, if_true, h0]
  constructor
  · omega
  · omega

theorem shift_or_digit {x d : Nat} (hx : x < 2 ^ 28) (hd : d < 16) :
    ((x <<< 4) % 2 ^ 32) ||| d = x * 16 + d := by
  have h1 : x <<< 4 = 2 ^ 4 * x := by rw [Nat.shiftLeft_eq, Nat.mul_comm]
  have h2 : 2 ^ 4 * x < 2 ^ 32 := by omega
  rw [h1, Nat.mod_eq_of_lt h2, ← Nat.mul_add_lt_is_or (by omega : d < 2 ^ 4)]
  omega

/-- The code point that the loop of `parse_4hex_codepoint` computes from four decimal
digits is the value of the hexadecimal numeral. -/
theorem hex_codepoint_digits {h₀ h₁ h₂ h₃ : Char} (hh₀ : in_range '0' '9' h₀ = true)
    (hh₁ : in_range '0' '9' h₁ = true) (hh₂ : in_range '0' '9' h₂ = true)
    (hh₃ : in_range '0' '9' h₃ = true) :
    hex_codepoint [h₀, h₁, h₂, h₃] = digit_numeral_value h₀ h₁ h₂ h₃
      ∧ digit_numeral_value h₀ h₁ h₂ h₃ ≤ 0x9999 := by
  obtain ⟨e₀, b₀⟩ := hex_val_digit hh₀
  obtain ⟨e₁, b₁⟩ := hex_val_digit hh₁
  obtain ⟨e₂, b₂⟩ := hex_val_digit hh₂
  obtain ⟨e₃, b₃⟩ := hex_val_digit hh₃
  simp only [hex_codepoint, List.foldl_cons, List.foldl_nil, e₀, e₁, e₂, e₃,
    digit_numeral_value]
  generalize h₀.toNat - '0'.toNat = d₀ at *
  generalize h₁.toNat - '0'.toNat = d₁ at *
  generalize h₂.toNat - '0'.toNat = d₂ at *
  generalize h₃.toNat - '0'.toNat = d₃ at *
  have s₀ : ((0 <<< 4) % 2 ^ 32) ||| d₀ = 0 * 16 + d₀ :=
    shift_or_digit (by omega) (by omega)
  rw [s₀]
  have s₁ : (((0 * 16 + d₀) <<< 4) % 2 ^ 32) ||| d₁ = (0 * 16 + d₀) * 16 + d₁ :=
    shift_or_digit (by omega) (by omega)
  rw [s₁]
  have s₂ : ((((0 * 16 + d₀) * 16 + d₁) <<< 4) % 2 ^ 32) ||| d₂
      = ((0 * 16 + d₀) * 16 + d₁) * 16 + d₂ :=
    shift_or_digit (by omega) (by omega)
  rw [s₂]
  have s₃ : (((((0 * 16 + d₀) * 16 + d₁) * 16 + d₂) <<< 4) % 2 ^ 32) ||| d₃
      = (((0 * 16 + d₀) * 16 + d₁) * 16 + d₂) * 16 + d₃ :=
    shift_or_digit (by omega) (by omega)
  rw [s₃]
  omega

theorem and_mask_of_lt (x n : Nat) (h : x < 2 ^ n) : x &&& (2 ^ n - 1) = x := by
  rw [Nat.and_pow_two_sub_one_eq_mod, Nat.mod_eq_of_lt h]

/-- C24: for every four characters in `'0'..'9'`, `parse_4hex_codepoint` returns the UTF-8
encoding of the code point `cp` whose hexadecimal numeral they spell: the byte `cp` if
`cp <= 0x7F`, the two bytes `0xC0|(cp>>6)`, `0x80|(cp&0x3F)` if `cp <= 0x7FF`, and
otherwise the three bytes `0xE0|(cp>>12)`, `0x80|((cp>>6)&0x3F)`, `0x80|(cp&0x3F)`. -/
theorem decimal_digit_escape_is_utf8 (h₀ h₁ h₂ h₃ : Char)
    (hh₀ : in_range '0' '9' h₀ = true) (hh₁ : in_range '0' '9' h₁ = true)
    (hh₂ : in_range '0' '9' h₂ = true) (hh₃ : in_range '0' '9' h₃ = true) :
    parse_4hex_codepoint [h₀, h₁, h₂, h₃] = utf8_encoding (digit_numeral_value h₀ h₁ h₂ h₃) := by
  obtain ⟨hcp, hle⟩ := hex_codepoint_digits hh₀ hh₁ hh₂ hh₃
  simp only [parse_4hex_codepoint, hcp, utf8_encoding]
  generalize digit_numeral_value h₀ h₁ h₂ h₃ = cp at *
  have hdiv6 : cp >>> 6 = cp / 64 := by rw [Nat.shiftRight_eq_div_pow]
  have hdiv12 : cp >>> 12 = cp / 4096 := by rw [Nat.shiftRight_eq_div_pow]
  by_cases h1 : cp ≤ 0x7F
  · have hn1 : ¬ cp > 0x7ff := by omega
    have hn2 : ¬ cp > 0x7f := by omega
    have hm : cp &&& 0x7f = cp := and_mask_of_lt cp 7 (by omega)
    simp only [hn1, hn2, h1, if_true, if_false, hm]
  · by_cases h2 : cp ≤ 0x7FF
    · have hn1 : ¬ cp > 0x7ff := by omega
      have hp2 : cp > 0x7f := by omega
      have hm : (cp >>> 6) &&& 0x1f = cp >>> 6 :=
        and_mask_of_lt (cp >>> 6) 5 (by rw [hdiv6]; omega)
      simp only [hn1, hp2, h1, h2, if_true, if_false, hm, Nat.shiftRight_zero]
    · have hp1 : cp > 0x7ff := by omega
      have hm : (cp >>> 12) &&& 0x0f = cp >>> 12 :=
        and_mask_of_lt (cp >>> 12) 4 (by rw [hdiv12]; omega)
      simp only [hp1, h1, h2, if_true, if_false, hm, Nat.shiftRight_zero]

/-- C24 at concrete inputs: `0041` gives the byte 0x41 and `2020` gives E2 80 A0. -/
theorem decimal_digit_escape_is_utf8_witness :
    in_range '0' '9' '0' = true ∧ in_range '0' '9' '4' = true ∧ in_range '0' '9' '1' = true
      ∧ in_range '0' '9' '2' = true
      ∧ digit_numeral_value '0' '0' '4' '1' = 0x41
      ∧ utf8_encoding 0x41 = [Char.ofNat 0x41]
      ∧ parse_4hex_codepoint ['0', '0', '4', '1']
          = utf8_encoding (digit_numeral_value '0' '0' '4' '1')
      ∧ digit_numeral_value '2' '0' '2' '0' = 0x2020
      ∧ utf8_encoding 0x2020 = [Char.ofNat 0xE2, Char.ofNat 0x80, Char.ofNat 0xA0]
      ∧ parse_4hex_codepoint ['2', '0', '2', '0']
          = utf8_encoding (digit_numeral_value '2' '0' '2' '0') :=
  ⟨by decide, by decide, by decide, by decide, by decide, by decide,
    decimal_digit_escape_is_utf8 '0' '0' '4' '1' (by decide) (by decide) (by decide)
      (by decide),
    by decide, by decide,
    decimal_digit_escape_is_utf8 '2' '0' '2' '0' (by decide) (by decide) (by decide)
      (by decide)⟩

end json

namespace json

/-! ## Termination -/

theorem get_token_syntax {strm rest : List Char}
    (h : get_token strm = (.error .SYNTAX, rest)) : rest = [] ∧ strm ≠ [] := by
  cases strm with
  | nil => simp [get_token] at h
  | cons c s =>
    refine ⟨?_, by simp⟩
    simp only [get_token] at h
    by_cases h1 : c = '['
    · simp [h1] at h
    simp only [h1, if_false] at h
    by_cases h2 : c = ']'
    · simp [h2] at h
    simp only [h2, if_false] at h
    by_cases h3 : c = '{'
    · simp [h3] at h
    simp only [h3, if_false] at h
    by_cases h4 : c = '}'
    · simp [h4] at h
    simp only [h4, if_false] at h
    by_cases h5 : c = ':'
    · simp [h5] at h
    simp only [h5, if_false] at h
    by_cases h6 : c = ','
    · simp [h6] at h
    simp only [h6, if_false] at h
    by_cases h7 : c = '"'
    · simp only [h7, if_true] at h
      split at h <;> simp at h
      exact h
    simp only [h7, if_false] at h
    by_cases h8 : c = '-' ∨ in_range '0' '9' c = true
    · simp only [h8, if_true] at h
      split at h <;> simp at h
      exact h
    simp only [h8, if_false] at h
    by_cases h9 : c = 't'
    · rw [if_pos h9] at h
      split at h <;> simp at h
      exact h
    simp only [h9, if_false] at h
    by_cases h10 : c = 'f'
    · rw [if_pos h10] at h
      split at h <;> simp at h
      exact h
    simp only [h10, if_false] at h
    by_cases h11 : c = 'n'
    · rw [if_pos h11] at h
      split at h <;> simp at h
      exact h
    simp only [h11, if_false] at h
    split at h <;> simp at h
    exact h

/-- Every call of `get_token` reports the end of the input or takes at least one
character from the stream. -/
theorem get_token_progress {strm rest : List Char} {r : Except Error Token}
    (h : get_token strm = (r, rest)) : r = .error .END ∨ rest.length < strm.length := by
  cases r with
  | ok tk =>
    obtain ⟨h₁, h₂⟩ := get_token_consumes h
    right
    have := congrArg List.length h₁
    have := List.length_pos.mpr h₂
    simp only [List.length_append] at *
    omega
  | error e =>
    cases e with
    | NIL_TOKEN => exact Or.inr (get_token_nil h)
    | END => exact Or.inl rfl
    | SYNTAX =>
      obtain ⟨rfl, hne⟩ := get_token_syntax h
      exact Or.inr (List.length_pos.mpr hne)

/-- A budget of `max(limited_depth, 1)` nested calls is all that `parse_primitive` ever
uses when `limited_depth` is not `INT_MIN`: a larger budget gives the same outcome. -/
theorem parse_primitive_budget {D : Type} (L : StdLib D) (b : Nat) :
    ∀ (k : Nat) (tokens : List Token) (i : Nat) (Ld : Int), Ld ≤ b → 1 ≤ b →
      Ld ≠ -2147483648 →
      parse_primitive L (b + k) tokens i Ld = parse_primitive L b tokens i Ld := by
  induction b with
  | zero =>
    intro k tokens i Ld _ h
    omega
  | succ b ih =>
    intro k tokens i Ld hL _ hLd
    have hk : b + 1 + k = (b + k) + 1 := by omega
    rw [hk]
    have hfun : ¬ Ld - 1 ≤ 0 →
        (fun a => parse_primitive L (b + k) tokens a (Ld - 1))
          = (fun a => parse_primitive L b tokens a (Ld - 1)) := by
      intro hpos
      funext a
      exact ih k tokens a (Ld - 1) (by push_cast at hL; omega) (by push_cast at hL; omega)
        (by omega)
    have harr : parse_array (fun d a => parse_primitive L (b + k) tokens a d) tokens i (Ld - 1)
        = parse_array (fun d a => parse_primitive L b tokens a d) tokens i (Ld - 1) := by
      simp only [parse_array]
      by_cases hpos : Ld - 1 ≤ 0
      · simp only [hpos, if_true]
      · simp only [hpos, if_false, hfun hpos]
    have hobj : parse_object (fun d a => parse_primitive L (b + k) tokens a d) tokens i (Ld - 1)
        = parse_object (fun d a => parse_primitive L b tokens a d) tokens i (Ld - 1) := by
      simp only [parse_object]
      by_cases hpos : Ld - 1 ≤ 0
      · simp only [hpos, if_true]
      · simp only [hpos, if_false, hfun hpos]
    simp only [parse_primitive, int_pred_eq hLd, harr, hobj]

/-- C21, counterexample: with `max_depth = INT_MIN` the subtraction `limited_depth - 1`
overflows to `INT_MAX`, and three arrays nested in one another are parsed: three nested
container activations, where `max(max_depth, 1)` is 1.  A budget of one or two nested
calls of `parse_primitive` runs out, a budget of three gives the value.  (With
`max_depth = 1` the same document is rejected.) -/
theorem nesting_exceeds_bound_at_int_min :
    max (-2147483648 : Int) 1 = 1
      ∧ parse literal_lib (nested_arrays 3) (-2147483648)
          = .ret ⟨true, some (.JSON_Array [.JSON_Array [.JSON_Array []]])⟩
      ∧ parse_primitive literal_lib 1 (nested_arrays_tokens 3) 0 (-2147483648) = .diverge
      ∧ parse_primitive literal_lib 2 (nested_arrays_tokens 3) 0 (-2147483648) = .diverge
      ∧ parse_primitive literal_lib 3 (nested_arrays_tokens 3) 0 (-2147483648)
          = .ret (some (.JSON_Array [.JSON_Array [.JSON_Array []]], 6))
      ∧ parse literal_lib (nested_arrays 3) 1 = .ret ⟨false, none⟩ := by
  refine ⟨by decide, ?_, rfl, rfl, rfl, rfl⟩
  have ht : tokenize (nested_arrays 3) = .ret (some (nested_arrays_tokens 3)) := by decide
  rw [parse_eq_parse_tokens literal_lib _ ht]
  simp [parse_tokens, parse_primitive, int_pred, parse_array, array_loop, CHECK_INDEX,
    nested_arrays_tokens, List.replicate, JSON_File.set_root, JSON_File.empty]

/-- C21, amended: every call of `get_token` reports the end of the input or consumes at
least one character, and `tokenize` returns; a successful call of `parse_primitive` moves
the cursor forward; for every `limited_depth` other than `INT_MIN`, `parse_primitive`
never needs more than `max(limited_depth, 1)` nested calls (with any such budget it does
not run out and gives what it gives in `parse`); and `parse` does not run forever, for
every input and every `max_depth`, `INT_MIN` included. -/
theorem parse_terminates {D : Type} (L : StdLib D) :
    (∀ (strm rest : List Char) (r : Except Error Token), get_token strm = (r, rest) →
        r = .error .END ∨ rest.length < strm.length)
      ∧ (∀ strm : List Char, ∃ r, tokenize strm = .ret r)
      ∧ (∀ (tokens : List Token) (i j b : Nat) (m : Int) (p : JSON_Primitive D),
          parse_primitive L b tokens i m = .ret (some (p, j)) → i < j)
      ∧ (∀ (tokens : List Token) (i b : Nat) (m : Int), m ≠ -2147483648 →
          max m 1 ≤ (b : Int) →
          parse_primitive L b tokens i m ≠ .diverge
            ∧ parse_primitive L b tokens i m
                = parse_primitive L ((int_pred m).toNat + 2) tokens i m)
      ∧ (∀ (strm : List Char) (m : Int), parse L strm m ≠ .diverge) := by
  refine ⟨fun strm rest r h => get_token_progress h, tokenize_returns, ?_, ?_,
    parse_no_diverge L⟩
  · intro tokens i j b m p h
    by_cases hmin : m = -2147483648
    · rw [hmin, parse_primitive_int_min] at h
      exact cursor_advances (parse_primitive_sound L b tokens i 2147483648 p j h (by decide))
    · exact cursor_advances (parse_primitive_sound L b tokens i m p j h hmin)
  · intro tokens i b m hmin hb
    have hm : m ≤ b := le_trans (le_max_left m 1) hb
    have h1 : (1 : Int) ≤ b := le_trans (le_max_right m 1) hb
    have h1' : 1 ≤ b := by omega
    have hpred := int_pred_eq hmin
    have heq : parse_primitive L b tokens i m
        = parse_primitive L ((int_pred m).toNat + 2) tokens i m := by
      rw [hpred]
      by_cases hle : b ≤ (m - 1).toNat + 2
      · obtain ⟨k, hk⟩ : ∃ k, (m - 1).toNat + 2 = b + k := ⟨(m - 1).toNat + 2 - b, by omega⟩
        rw [hk, parse_primitive_budget L b k tokens i m hm h1' hmin]
      · obtain ⟨k, hk⟩ : ∃ k, b = (m - 1).toNat + 2 + k := ⟨b - ((m - 1).toNat + 2), by omega⟩
        rw [hk, parse_primitive_budget L ((m - 1).toNat + 2) k tokens i m (by omega) (by omega)
          hmin]
    refine ⟨?_, heq⟩
    rw [heq]
    exact parse_primitive_no_diverge L _ tokens i m (by omega) hmin

/-- C21, amended, at concrete inputs: `get_token` on `[1]` and on the empty input,
`parse_primitive` on the tokens of `[[]]` with `limited_depth = 3` and the budget 3. -/
theorem parse_terminates_witness :
    get_token "[1]".toList = (.ok ⟨.ARRAY_OPEN, ['[']⟩, "1]".toList)
      ∧ ((Except.ok ⟨.ARRAY_OPEN, ['[']⟩ : Except Error Token) = .error .END
          ∨ "1]".toList.length < "[1]".toList.length)
      ∧ get_token [] = (.error .END, [])
      ∧ parse_primitive literal_lib 3 (nested_arrays_tokens 2) 0 3
          = .ret (some (.JSON_Array [.JSON_Array []], 4))
      ∧ 0 < 4
      ∧ (3 : Int) ≠ -2147483648
      ∧ max (3 : Int) 1 ≤ ((3 : Nat) : Int)
      ∧ (parse_primitive literal_lib 3 (nested_arrays_tokens 2) 0 3 ≠ .diverge
          ∧ parse_primitive literal_lib 3 (nested_arrays_tokens 2) 0 3
              = parse_primitive literal_lib ((int_pred 3).toNat + 2)
                  (nested_arrays_tokens 2) 0 3) :=
  ⟨rfl, (parse_terminates literal_lib).1 "[1]".toList "1]".toList _ rfl, rfl, rfl,
    (parse_terminates literal_lib).2.2.1 (nested_arrays_tokens 2) 0 4 3 3 _ rfl,
    by decide, by decide,
    (parse_terminates literal_lib).2.2.2.1 (nested_arrays_tokens 2) 0 3 3 (by decide)
      (by decide)⟩

end json

namespace json

/-! ## The decoder on scanned string literals -/

theorem string_body_append {a b : List Char} (ha : StringBody a) (hb : StringBody b) :
    StringBody (a ++ b) := by
  induction ha with
  | nil => exact hb
  | plain c body h₁ h₂ h₃ _ ih => exact StringBody.plain c _ h₁ h₂ h₃ ih
  | escape c body hc _ ih => exact StringBody.escape c _ hc ih
  | unicode h₀ h₁ h₂ h₃ body hh₀ hh₁ hh₂ hh₃ _ ih =>
    exact StringBody.unicode h₀ h₁ h₂ h₃ _ hh₀ hh₁ hh₂ hh₃ ih

/-- A position that the loop of `unescape_string` takes on a scanned body is a place where
the scanner is between two units (plain character or escape), or holds the fourth
hexadecimal digit of a `\u` escape. -/
theorem visits_of_body (body : List Char) {suf : List Char} (hsuf : StringBody suf) :
    ∀ (pre : List Char) (budget : Nat), body = pre ++ suf → StringBody pre →
      ∀ j ∈ unescape_visits body budget pre.length,
        (∃ p s, body = p ++ s ∧ p.length = j ∧ StringBody p ∧ StringBody s ∧ s ≠ [])
          ∨ (∃ c, body[j]? = some c ∧ is_hex c = true) := by
  induction hsuf with
  | nil =>
    intro pre budget hb hpre j hj
    subst hb
    cases budget with
    | zero => simp [unescape_visits] at hj
    | succ b => simp [unescape_visits] at hj
  | plain c rest h₁ h₂ h₃ h ih =>
    intro pre budget hb hpre j hj
    cases budget with
    | zero => simp [unescape_visits] at hj
    | succ b =>
      have h0 : string_at body pre.length = some c := by
        have := string_at_append pre (c :: rest) 0 c (by simp)
        rw [hb]
        simpa using this
      have hlt : pre.length < body.length := by
        rw [hb]
        simp
      have hne : (some c : Option Char) ≠ some '\\' := by simpa using h₂
      simp only [unescape_visits, hlt, if_true, h0, hne, if_false, List.mem_cons] at hj
      rcases hj with rfl | hj
      · exact Or.inl ⟨pre, c :: rest, hb, rfl, hpre, StringBody.plain c rest h₁ h₂ h₃ h,
          by simp⟩
      · have hlen : (pre ++ [c]).length = pre.length + 1 := by simp
        rw [← hlen] at hj
        exact ih (pre ++ [c]) b (by simp [hb])
          (string_body_append hpre (StringBody.plain c [] h₁ h₂ h₃ StringBody.nil)) j hj
  | escape c rest hc h ih =>
    intro pre budget hb hpre j hj
    cases budget with
    | zero => simp [unescape_visits] at hj
    | succ b =>
      have h0 : string_at body pre.length = some '\\' := by
        have := string_at_append pre ('\\' :: c :: rest) 0 '\\' (by simp)
        rw [hb]
        simpa using this
      have h1 : string_at body (pre.length + 1) = some c := by
        have := string_at_append pre ('\\' :: c :: rest) 1 c (by simp)
        rw [hb]
        exact this
      have hlt : pre.length < body.length := by
        rw [hb]
        simp
      have hu : c ≠ 'u' := by
        rcases hc with rfl | rfl | rfl | rfl | rfl | rfl | rfl | rfl <;> decide
      simp only [unescape_visits, hlt, if_true, h0, h1, hu, if_false, List.mem_cons] at hj
      rcases hj with rfl | hj
      · exact Or.inl ⟨pre, '\\' :: c :: rest, hb, rfl, hpre, StringBody.escape c rest hc h,
          by simp⟩
      · have hlen : (pre ++ ['\\', c]).length = pre.length + 1 + 1 := by simp
        rw [← hlen] at hj
        exact ih (pre ++ ['\\', c]) b (by simp [hb])
          (string_body_append hpre (StringBody.escape c [] hc StringBody.nil)) j hj
  | unicode h₀ h₁ h₂ h₃ rest hh₀ hh₁ hh₂ hh₃ h ih =>
    intro pre budget hb hpre j hj
    cases budget with
    | zero => simp [unescape_visits] at hj
    | succ b =>
      have e0 : string_at body pre.length = some '\\' := by
        have := string_at_append pre ('\\' :: 'u' :: h₀ :: h₁ :: h₂ :: h₃ :: rest) 0 '\\'
          (by simp)
        rw [hb]
        simpa using this
      have e1 : string_at body (pre.length + 1) = some 'u' := by
        rw [hb]
        exact string_at_append pre ('\\' :: 'u' :: h₀ :: h₁ :: h₂ :: h₃ :: rest) 1 'u'
          (by simp)
      have e2 : string_at body (pre.length + 2) = some h₀ := by
        rw [hb]
        exact string_at_append pre ('\\' :: 'u' :: h₀ :: h₁ :: h₂ :: h₃ :: rest) 2 h₀
          (by simp)
      have e3 : string_at body (pre.length + 2 + 1) = some h₁ := by
        rw [hb]
        exact string_at_append pre ('\\' :: 'u' :: h₀ :: h₁ :: h₂ :: h₃ :: rest) 3 h₁
          (by simp)
      have e4 : string_at body (pre.length + 2 + 2) = some h₂ := by
        rw [hb]
        exact string_at_append pre ('\\' :: 'u' :: h₀ :: h₁ :: h₂ :: h₃ :: rest) 4 h₂
          (by simp)
      have e5 : string_at body (pre.length + 2 + 3) = some h₃ := by
        rw [hb]
        exact string_at_append pre ('\\' :: 'u' :: h₀ :: h₁ :: h₂ :: h₃ :: rest) 5 h₃
          (by simp)
      have hlt : pre.length < body.length := by
        rw [hb]
        simp
      simp only [unescape_visits, hlt, if_true, e0, e1, e2, e3, e4, e5,
        List.mem_cons] at hj
      rcases hj with rfl | hj
      · exact Or.inl ⟨pre, '\\' :: 'u' :: h₀ :: h₁ :: h₂ :: h₃ :: rest, hb, rfl, hpre,
          StringBody.unicode h₀ h₁ h₂ h₃ rest hh₀ hh₁ hh₂ hh₃ h, by simp⟩
      · cases b with
        | zero => simp [unescape_visits] at hj
        | succ b' =>
          have hlt₅ : pre.length + 4 + 1 < body.length := by
            rw [hb]
            simp only [List.length_append, List.length_cons]
            omega
          have hne : (some h₃ : Option Char) ≠ some '\\' := by
            simpa using (is_hex_plain hh₃).2.1
          have e5' : string_at body (pre.length + 4 + 1) = some h₃ := e5
          simp only [unescape_visits, hlt₅, if_true, e5', hne, if_false,
            List.mem_cons] at hj
          rcases hj with rfl | hj
          · right
            refine ⟨h₃, ?_, hh₃⟩
            simp only [string_at, hlt₅, if_true] at e5'
            exact e5'
          · have hlen : (pre ++ ['\\', 'u', h₀, h₁, h₂, h₃]).length
                = pre.length + 4 + 1 + 1 := by simp
            rw [← hlen] at hj
            exact ih (pre ++ ['\\', 'u', h₀, h₁, h₂, h₃]) b' (by simp [hb])
              (string_body_append hpre
                (StringBody.unicode h₀ h₁ h₂ h₃ [] hh₀ hh₁ hh₂ hh₃ StringBody.nil)) j hj

theorem visits_head (str : List Char) (b i : Nat) (h : i < str.length) :
    i ∈ unescape_visits str (b + 1) i := by
  simp only [unescape_visits, h, if_true]
  split
  · split
    · simp
    · split
      · split <;> simp
      · simp
  · simp

/-- The loop of `unescape_string` comes to every place of a scanned body where the scanner
is between two units. -/
theorem boundary_visited (body : List Char) {seg : List Char} (hseg : StringBody seg) :
    ∀ (pre suf : List Char) (budget : Nat), body = pre ++ (seg ++ suf) → suf ≠ [] →
      seg.length < budget →
      pre.length + seg.length ∈ unescape_visits body budget pre.length := by
  induction hseg with
  | nil =>
    intro pre suf budget hb hsuf hbud
    obtain ⟨b, rfl⟩ : ∃ b, budget = b + 1 := ⟨budget - 1, by omega⟩
    have hlt : pre.length < body.length := by
      have := List.length_pos.mpr hsuf
      rw [hb]
      simp only [List.length_append, List.length_nil]
      omega
    exact visits_head body b _ hlt
  | plain c rest h₁ h₂ h₃ h ih =>
    intro pre suf budget hb hsuf hbud
    obtain ⟨b, rfl⟩ : ∃ b, budget = b + 1 := ⟨budget - 1, by omega⟩
    have h0 : string_at body pre.length = some c := by
      have := string_at_append pre (c :: rest ++ suf) 0 c (by simp)
      rw [hb]
      simpa using this
    have hlt : pre.length < body.length := by
      rw [hb]
      simp
    have hne : (some c : Option Char) ≠ some '\\' := by simpa using h₂
    have := ih (pre ++ [c]) suf b (by simp [hb])  hsuf
      (by simp only [List.length_cons] at hbud; omega)
    simp only [unescape_visits, hlt, if_true, h0, hne, if_false, List.mem_cons]
    right
    have hlen : (pre ++ [c]).length = pre.length + 1 := by simp
    rw [hlen] at this
    have e : pre.length + (c :: rest).length = pre.length + 1 + rest.length := by
      simp only [List.length_cons]
      omega
    rw [e]
    exact this
  | escape c rest hc h ih =>
    intro pre suf budget hb hsuf hbud
    obtain ⟨b, rfl⟩ : ∃ b, budget = b + 1 := ⟨budget - 1, by omega⟩
    have h0 : string_at body pre.length = some '\\' := by
      have := string_at_append pre ('\\' :: c :: rest ++ suf) 0 '\\' (by simp)
      rw [hb]
      simpa using this
    have h1 : string_at body (pre.length + 1) = some c := by
      have := string_at_append pre ('\\' :: c :: rest ++ suf) 1 c (by simp)
      rw [hb]
      exact this
    have hlt : pre.length < body.length := by
      rw [hb]
      simp
    have hu : c ≠ 'u' := by
      rcases hc with rfl | rfl | rfl | rfl | rfl | rfl | rfl | rfl <;> decide
    have := ih (pre ++ ['\\', c]) suf b (by simp [hb]) hsuf
      (by simp only [List.length_cons] at hbud; omega)
    simp only [unescape_visits, hlt, if_true, h0, h1, hu, if_false, List.mem_cons]
    right
    have hlen : (pre ++ ['\\', c]).length = pre.length + 1 + 1 := by simp
    rw [hlen] at this
    have e : pre.length + ('\\' :: c :: rest).length = pre.length + 1 + 1 + rest.length := by
      simp only [List.length_cons]
      omega
    rw [e]
    exact this
  | unicode h₀ h₁ h₂ h₃ rest hh₀ hh₁ hh₂ hh₃ h ih =>
    intro pre suf budget hb hsuf hbud
    obtain ⟨b, rfl⟩ : ∃ b, budget = b + 1 + 1 :=
      ⟨budget - 2, by simp only [List.length_cons] at hbud; omega⟩
    have hb' : body = pre ++ ('\\' :: 'u' :: h₀ :: h₁ :: h₂ :: h₃ :: (rest ++ suf)) := by
      simp [hb]
    have e0 : string_at body pre.length = some '\\' := by
      have := string_at_append pre ('\\' :: 'u' :: h₀ :: h₁ :: h₂ :: h₃ :: (rest ++ suf)) 0
        '\\' (by simp)
      rw [hb']
      simpa using this
    have e1 : string_at body (pre.length + 1) = some 'u' := by
      rw [hb']
      exact string_at_append pre _ 1 'u' (by simp)
    have e2 : string_at body (pre.length + 2) = some h₀ := by
      rw [hb']
      exact string_at_append pre _ 2 h₀ (by simp)
    have e3 : string_at body (pre.length + 2 + 1) = some h₁ := by
      rw [hb']
      exact string_at_append pre _ 3 h₁ (by simp)
    have e4 : string_at body (pre.length + 2 + 2) = some h₂ := by
      rw [hb']
      exact string_at_append pre _ 4 h₂ (by simp)
    have e5 : string_at body (pre.length + 2 + 3) = some h₃ := by
      rw [hb']
      exact string_at_append pre _ 5 h₃ (by simp)
    have hlt : pre.length < body.length := by
      rw [hb']
      simp
    have hlt₅ : pre.length + 4 + 1 < body.length := by
      rw [hb']
      simp only [List.length_append, List.length_cons]
      omega
    have hne : (some h₃ : Option Char) ≠ some '\\' := by
      simpa using (is_hex_plain hh₃).2.1
    have e5' : string_at body (pre.length + 4 + 1) = some h₃ := e5
    have := ih (pre ++ ['\\', 'u', h₀, h₁, h₂, h₃]) suf b (by simp [hb]) hsuf
      (by simp only [List.length_cons] at hbud; omega)
    have hlen : (pre ++ ['\\', 'u', h₀, h₁, h₂, h₃]).length = pre.length + 4 + 1 + 1 := by
      simp
    rw [hlen] at this
    have e : pre.length + ('\\' :: 'u' :: h₀ :: h₁ :: h₂ :: h₃ :: rest).length
        = pre.length + 4 + 1 + 1 + rest.length := by
      simp only [List.length_cons]
      omega
    rw [e]
    simp only [unescape_visits, hlt, if_true, e0, e1, e2, e3, e4, e5, hlt₅, e5', hne,
      if_false, List.mem_cons]
    right
    right
    exact this

end json

namespace json

theorem get_token_string_body {strm rest : List Char} {tk : Token}
    (h : get_token strm = (.ok tk, rest)) (hty : tk.type_ = .STRING) :
    ∃ body, StringBody body ∧ tk.token_ = '"' :: body ++ ['"'] := by
  rcases get_token_ok h with ⟨-, s, -, hts⟩ | ⟨hn, -⟩ | ⟨hn, -⟩
  · obtain ⟨body, hbody, -, htok⟩ := tokenize_string_body s.length s (Nat.le_refl _) _ _ _ hts
    exact ⟨body, hbody, by simpa using htok⟩
  · rw [hty] at hn
    simp at hn
  · exact absurd hty hn

theorem tokenize_loop_string_bodies (budget : Nat) :
    ∀ (strm : List Char) (result out : List Token),
      (∀ tk ∈ result, tk.type_ = .STRING →
        ∃ body, StringBody body ∧ tk.token_ = '"' :: body ++ ['"']) →
      tokenize_loop budget strm result = .ret (some out) →
      ∀ tk ∈ out, tk.type_ = .STRING →
        ∃ body, StringBody body ∧ tk.token_ = '"' :: body ++ ['"'] := by
  induction budget with
  | zero =>
    intro strm result out _ h
    simp [tokenize_loop] at h
  | succ b ih =>
    intro strm result out hres h
    simp only [tokenize_loop] at h
    split at h
    · simp only [Outcome.ret.injEq, Option.some.injEq] at h
      exact h ▸ hres
    · exact ih _ _ _ hres h
    · simp at h
    · rename_i tk rest hg
      refine ih _ _ _ ?_ h
      intro t ht hty
      rw [List.mem_append, List.mem_singleton] at ht
      rcases ht with ht | rfl
      · exact hres t ht hty
      · exact get_token_string_body hg hty

/-- The lexeme of every `STRING` token that `tokenize` produces is a body that the scanner
passes, between two quotes. -/
theorem tokenize_string_bodies {strm : List Char} {tokens : List Token}
    (h : tokenize strm = .ret (some tokens)) :
    ∀ tk ∈ tokens, tk.type_ = .STRING →
      ∃ body, StringBody body ∧ tk.token_ = '"' :: body ++ ['"'] :=
  tokenize_loop_string_bodies _ strm [] tokens (by simp) h

theorem getElem?_append_add (p l : List Char) (k : Nat) :
    (p ++ l)[p.length + k]? = l[k]? := by
  rw [List.getElem?_append_right (Nat.le_add_right _ _)]
  simp

/-- C23: in the body of every `STRING` token that `tokenize` produces, every backslash that
the loop of `unescape_string` meets is followed inside the body by a permitted escape
character, and by four hexadecimal digits inside the body when that character is `u`; the
loop meets a backslash exactly at the places where the scanner begins an escape; and
`parse_string` returns without a read outside the body. -/
theorem decoder_escapes_inside_body (strm : List Char) (tokens : List Token) (tk : Token)
    (htok : tokenize strm = .ret (some tokens)) (hmem : tk ∈ tokens)
    (hty : tk.type_ = .STRING) :
    ∃ body, tk.token_ = '"' :: body ++ ['"']
      ∧ (tk.token_.drop 1).take (tk.token_.length - 2) = body
      ∧ (∀ i ∈ unescape_visits body body.length 0, body[i]? = some '\\' →
          ∃ c, body[i + 1]? = some c ∧ permitted_escape c
            ∧ (c = 'u' → ∃ h₀ h₁ h₂ h₃, body[i + 2]? = some h₀ ∧ body[i + 3]? = some h₁
                ∧ body[i + 4]? = some h₂ ∧ body[i + 5]? = some h₃
                ∧ is_hex h₀ = true ∧ is_hex h₁ = true ∧ is_hex h₂ = true
                ∧ is_hex h₃ = true))
      ∧ (∀ i, (i ∈ unescape_visits body body.length 0 ∧ body[i]? = some '\\')
          ↔ ∃ pre rest, body = pre ++ '\\' :: rest ∧ pre.length = i ∧ StringBody pre
              ∧ StringBody ('\\' :: rest))
      ∧ tk.parse_string = some (escape_decodings body) := by
  obtain ⟨body, hbody, hlex⟩ := tokenize_string_bodies htok tk hmem hty
  have hsub : (tk.token_.drop 1).take (tk.token_.length - 2) = body := by
    rw [hlex]
    simp
  have hfwd : ∀ i ∈ unescape_visits body body.length 0, body[i]? = some '\\' →
      ∃ pre rest, body = pre ++ '\\' :: rest ∧ pre.length = i ∧ StringBody pre
        ∧ StringBody ('\\' :: rest) := by
    intro i hi hback
    rcases visits_of_body body hbody [] body.length rfl StringBody.nil i hi with
      ⟨p, s, hps, hlen, hp, hs, hne⟩ | ⟨c, hc, hhex⟩
    · cases s with
      | nil => exact absurd rfl hne
      | cons c s =>
        have : body[i]? = some c := by
          have := getElem?_append_add p (c :: s) 0
          rw [hps, ← hlen]
          simpa using this
        rw [this] at hback
        simp only [Option.some.injEq] at hback
        subst hback
        exact ⟨p, s, hps, hlen, hp, hs⟩
    · rw [hc] at hback
      simp only [Option.some.injEq] at hback
      subst hback
      exact absurd rfl (is_hex_plain hhex).2.1
  refine ⟨body, hlex, hsub, ?_, ?_, ?_⟩
  · intro i hi hback
    obtain ⟨pre, rest, hb, hlen, -, hs⟩ := hfwd i hi hback
    subst hlen
    cases hs with
    | plain _ _ _ h₂ _ _ => exact absurd rfl h₂
    | escape c rest' hc h =>
      refine ⟨c, ?_, ?_, ?_⟩
      · rw [hb, getElem?_append_add]
        simp
      · rcases hc with h | h | h | h | h | h | h | h <;> simp [permitted_escape, h]
      · intro hu
        subst hu
        rcases hc with h | h | h | h | h | h | h | h <;> exact absurd h (by decide)
    | unicode h₀ h₁ h₂ h₃ rest' hh₀ hh₁ hh₂ hh₃ h =>
      refine ⟨'u', ?_, by simp [permitted_escape], ?_⟩
      · rw [hb, getElem?_append_add]
        simp
      · intro _
        refine ⟨h₀, h₁, h₂, h₃, ?_, ?_, ?_, ?_, hh₀, hh₁, hh₂, hh₃⟩
        · rw [hb, getElem?_append_add]
          simp
        · rw [hb, getElem?_append_add]
          simp
        · rw [hb, getElem?_append_add]
          simp
        · rw [hb, getElem?_append_add]
          simp
  · intro i
    constructor
    · rintro ⟨hi, hback⟩
      exact hfwd i hi hback
    · rintro ⟨pre, rest, hb, hlen, hpre, hs⟩
      subst hlen
      constructor
      · have := boundary_visited body hpre [] ('\\' :: rest) body.length (by simpa using hb)
          (by simp) (by rw [hb]; simp)
        simpa using this
      · rw [hb]
        have := getElem?_append_add pre ('\\' :: rest) 0
        simpa using this
  · rw [Token.parse_string, hsub]
    have := unescape_loop_decodes hbody [] [] body.length (Nat.le_refl _)
    simpa [unescape_string] using this

/-- C23 at a concrete input: the literal whose body is `a`, backslash, `n`, backslash,
`u0041`.  The loop takes the positions 0, 1, 3 and 8 of the body: after the `\u` escape at
position 3 it goes on at the fourth hexadecimal digit (position 8), which is not a
backslash. -/
theorem decoder_escapes_inside_body_witness :
    tokenize "\"a\\n\\u0041\"".toList = .ret (some [⟨.STRING, "\"a\\n\\u0041\"".toList⟩])
      ∧ (Token.mk .STRING "\"a\\n\\u0041\"".toList) ∈ [Token.mk .STRING "\"a\\n\\u0041\"".toList]
      ∧ (Token.mk .STRING "\"a\\n\\u0041\"".toList).type_ = .STRING
      ∧ unescape_visits "a\\n\\u0041".toList 9 0 = [0, 1, 3, 8]
      ∧ ∃ body, (Token.mk .STRING "\"a\\n\\u0041\"".toList).token_ = '"' :: body ++ ['"']
        ∧ ((Token.mk .STRING "\"a\\n\\u0041\"".toList).token_.drop 1).take
            ((Token.mk .STRING "\"a\\n\\u0041\"".toList).token_.length - 2) = body
        ∧ (∀ i ∈ unescape_visits body body.length 0, body[i]? = some '\\' →
            ∃ c, body[i + 1]? = some c ∧ permitted_escape c
              ∧ (c = 'u' → ∃ h₀ h₁ h₂ h₃, body[i + 2]? = some h₀ ∧ body[i + 3]? = some h₁
                  ∧ body[i + 4]? = some h₂ ∧ body[i + 5]? = some h₃
                  ∧ is_hex h₀ = true ∧ is_hex h₁ = true ∧ is_hex h₂ = true
                  ∧ is_hex h₃ = true))
        ∧ (∀ i, (i ∈ unescape_visits body body.length 0 ∧ body[i]? = some '\\')
            ↔ ∃ pre rest, body = pre ++ '\\' :: rest ∧ pre.length = i ∧ StringBody pre
                ∧ StringBody ('\\' :: rest))
        ∧ (Token.mk .STRING "\"a\\n\\u0041\"".toList).parse_string
            = some (escape_decodings body) :=
  ⟨by decide, by simp, rfl, by decide,
    decoder_escapes_inside_body "\"a\\n\\u0041\"".toList
      [⟨.STRING, "\"a\\n\\u0041\"".toList⟩] ⟨.STRING, "\"a\\n\\u0041\"".toList⟩
      (by decide) (by simp) rfl⟩

end json
